import Mathlib

/-! # Dense matrix kernels: LU, Gauss-Jordan inverse, Cholesky

A shallow embedding of `matrix.go` and `linalg.go`.  The Go type
`M = [][]float64` becomes a list of rows over an arbitrary field `K`
(exact arithmetic); a Go panic becomes an `Except` error carrying which
panic it was.  In-place mutation of a matrix is explicit state passing:
every loop threads the current matrix through its body.

A list of rows describes a Go matrix whose rows own their memory: no two
rows share a cell of their backing arrays, spare capacity included, as for
rows written as literals or made by `zeroes`.  `Inv` grows the rows of its
argument with `append`, which writes into the spare capacity of a row, so
for `Inv` the assumption is dropped in a second embedding: `Mem` is a
matrix as slice headers over a heap, `memInv` is `Inv` on it.
`follows_memInv` shows that `memInv` does what `Inv` on lists does when the
rows own their memory; `memInv_sharedRows` runs it on two rows cut from one
array, where it does not.
-/

namespace GoMatrix

/-- The ways a call can abort. -/
inductive Err where
  | indexOutOfRange
  | nonSquare
  | zeroPivot
  | rowColumnMismatch
  | dimensionMismatch
  | nanDetected
  | fatalMismatch
  deriving DecidableEq, Repr

/-- Go: `type M [][]float64`. -/
abbrev M (K : Type) := List (List K)

section Core

variable {K : Type}

/-- Go: `for i := lo; ...; i++ { body }` run `c` times starting at index `i`,
threading the state and stopping at the first panic. -/
def loopFrom {σ : Type} (body : Nat → σ → Except Err σ) : Nat → Nat → σ → Except Err σ
  | 0, _, s => Except.ok s
  | c + 1, i, s =>
    match body i s with
    | Except.ok s' => loopFrom body c (i + 1) s'
    | Except.error e => Except.error e

/-- Go: `for i := lo; i < hi; i++ { body }`. -/
def forLoop {σ : Type} (lo hi : Nat) (body : Nat → σ → Except Err σ) (s : σ) : Except Err σ :=
  loopFrom body (hi - lo) lo s

/-- Go: `len(a[i])`, panicking when `a` has no row `i`. -/
def rowLen (a : M K) (i : Nat) : Except Err Nat :=
  match a[i]? with
  | some row => Except.ok row.length
  | none => Except.error Err.indexOutOfRange

/-- Go: the read `a[i][j]`. -/
def getAt (a : M K) (i j : Nat) : Except Err K :=
  match a[i]? with
  | some row =>
    match row[j]? with
    | some v => Except.ok v
    | none => Except.error Err.indexOutOfRange
  | none => Except.error Err.indexOutOfRange

/-- Go: the write `a[i][j] = v`. -/
def setAt (a : M K) (i j : Nat) (v : K) : Except Err (M K) :=
  match a[i]? with
  | some row =>
    if j < row.length then Except.ok (List.set a i (List.set row j v))
    else Except.error Err.indexOutOfRange
  | none => Except.error Err.indexOutOfRange

/-- Go: `a[i] = append(a[i], v)` on rows that own their memory: row `i` grows
by `v` and no other row changes.  `memAppendToRow` is the assignment on any
rows. -/
def appendToRow (a : M K) (i : Nat) (v : K) : Except Err (M K) :=
  match a[i]? with
  | some row => Except.ok (List.set a i (row ++ [v]))
  | none => Except.error Err.indexOutOfRange

/-- Go: `a[i] = a[i][n:]`. -/
def sliceRow (a : M K) (i n : Nat) : Except Err (M K) :=
  match a[i]? with
  | some row =>
    if n ≤ row.length then Except.ok (List.set a i (row.drop n))
    else Except.error Err.indexOutOfRange
  | none => Except.error Err.indexOutOfRange

/-- Go: `func (a M) GetDimensions() (dimx, dimy int)`, i.e. `len(a[0]), len(a)`. -/
def GetDimensions (a : M K) : Except Err (Nat × Nat) := do
  let dimx ← rowLen a 0
  return (dimx, a.length)

/-- Go: `func zeroes(dimx, dimy int) M`: `dimy` rows, each of `dimx` zeros. -/
def zeroes [Zero K] (dimx dimy : Nat) : M K :=
  List.replicate dimy (List.replicate dimx 0)

/-- Go: `func Zeroes(dimx, dimy int) M`. -/
def Zeroes [Zero K] (dimx dimy : Nat) : M K := zeroes dimx dimy

/-- Go: `func NewDiagonalMatrix(dimx, dimy int) M`. -/
def NewDiagonalMatrix [Zero K] [One K] (dimx dimy : Nat) : Except Err (M K) :=
  forLoop 0 dimy (fun i result =>
    if i < dimx then setAt result i i 1 else Except.ok result) (zeroes dimx dimy)

/-- Go: `func (a M) Xscalar(b float64) M`. -/
def Xscalar [Zero K] [Mul K] (a : M K) (b : K) : Except Err (M K) := do
  let result : M K := zeroes (← rowLen a 0) a.length
  forLoop 0 a.length (fun i result => do
    forLoop 0 (← rowLen a i) (fun j result => do
      let col ← getAt a i j
      setAt result i j (b * col)) result) result

/-- Go: `func (a M) X(b M) M`.  The tests `len(a) == 1 && len(a[0]) == 1` read
`len(a[0])` before the conjunction is formed; on a matrix without rows the Go
code reaches an index-out-of-range panic as well, one statement later. -/
def X [Zero K] [Add K] [Mul K] (a b : M K) : Except Err (M K) := do
  let result : M K := zeroes (← rowLen b 0) a.length
  if a.length = 1 ∧ (← rowLen a 0) = 1 then
    Xscalar b (← getAt a 0 0)
  else if b.length = 1 ∧ (← rowLen b 0) = 1 then
    Xscalar a (← getAt b 0 0)
  else if (← rowLen a 0) ≠ b.length then
    throw Err.rowColumnMismatch
  else
    forLoop 0 a.length (fun i result => do
      forLoop 0 (← rowLen b 0) (fun j result => do
        forLoop 0 b.length (fun k result => do
          if j < (← rowLen b 0) then
            setAt result i j ((← getAt result i j) + (← getAt a i k) * (← getAt b k j))
          else
            pure result) result) result) result

/-- Go: `func (a M) T() M`. -/
def T [Zero K] (a : M K) : Except Err (M K) := do
  let dimy := a.length
  let dimx ← rowLen a 0
  let transposeMat : M K := zeroes dimy dimx
  forLoop 0 a.length (fun i t => do
    forLoop 0 (← rowLen a i) (fun j t => do
      setAt t j i (← getAt a i j)) t) transposeMat

/-- Go: the innermost loop shared by `LU` and `Inv`,
`for k := 0; k < cols; k++ { a[j][k] = a[j][k] - ratio*a[i][k] }`. -/
def subtractRow [Field K] (cols j i : Nat) (ratio : K) (a : M K) : Except Err (M K) :=
  forLoop 0 cols (fun k a => do
    setAt a j k ((← getAt a j k) - ratio * (← getAt a i k))) a

/-- Go: the body of the outer loop of `LU` at pivot `i`, on the pair of the
caller's matrix `A` and the factor `L`. -/
def luPivotStep [Field K] [DecidableEq K] (dimx dimy : Nat) (i : Nat) (st : M K × M K) :
    Except Err (M K × M K) := do
  let (A, L) := st
  if (← getAt A i i) = 0 then throw Err.zeroPivot
  let L ← setAt L i i 1
  forLoop (i + 1) dimy (fun j (st : M K × M K) => do
    let (A, L) := st
    let ratio := (← getAt A j i) / (← getAt A i i)
    let L ← setAt L j i ratio
    let A ← subtractRow dimx j i ratio A
    pure (A, L)) (A, L)

/-- Go: `func LU(A, B M) (L, U M)`.  The result is `((L, U), A')` where `A'`
is the state in which the call leaves the caller's matrix `A`, which it
rewrites in place.  `U` is the named result that the body never assigns,
so it is the nil matrix. -/
def LU [Field K] [DecidableEq K] (A _B : M K) : Except Err ((M K × M K) × M K) := do
  let (dimx, dimy) ← GetDimensions A
  if dimx ≠ dimy then throw Err.nonSquare
  let L : M K := zeroes dimx dimy
  let U : M K := []
  let (A, L) ← forLoop 0 (dimy - 1) (luPivotStep dimx dimy) (A, L)
  return ((L, U), A)

/-- Go: the first loop nest of `Inv`, appending the rows of the identity, on
rows that own their memory (`memInvAugment` on any rows). -/
def invAugment [Zero K] [One K] (n : Nat) (a : M K) : Except Err (M K) :=
  forLoop 0 n (fun i a =>
    forLoop 0 n (fun j a =>
      if i = j then appendToRow a i 1 else appendToRow a i 0) a) a

/-- Go: the body of the Gauss-Jordan loop of `Inv` at pivot `i`. -/
def invPivotStep [Field K] [DecidableEq K] (n : Nat) (i : Nat) (a : M K) : Except Err (M K) := do
  if (← getAt a i i) = 0 then throw Err.zeroPivot
  forLoop 0 n (fun j a => do
    if i ≠ j then
      let ratio := (← getAt a j i) / (← getAt a i i)
      subtractRow (2 * n) j i ratio a
    else
      pure a) a

/-- Go: the third loop nest of `Inv`, dividing the right half of every row by
the diagonal entry of that row. -/
def invNormalise [Field K] (n : Nat) (a : M K) : Except Err (M K) :=
  forLoop 0 n (fun i a =>
    forLoop n (2 * n) (fun j a => do
      setAt a i j ((← getAt a i j) / (← getAt a i i))) a) a

/-- Go: the last loop of `Inv`, `a[i] = a[i][n:]` for every row. -/
def invSlice (n : Nat) (a : M K) : Except Err (M K) :=
  forLoop 0 n (fun i a => sliceRow a i n) a

/-- Go: `func (a M) Inv() M` on rows that own their memory (`memInv` on any
rows).  The returned matrix is also the state in which the call leaves the
rows of the caller's matrix. -/
def Inv [Field K] [DecidableEq K] (a : M K) : Except Err (M K) := do
  let (dimx, dimy) ← GetDimensions a
  if dimx = dimy ∧ dimx = 1 then
    return [[1 / (← getAt a 0 0)]]
  if dimx ≠ dimy then throw Err.nonSquare
  let n := a.length
  let a ← invAugment n a
  let a ← forLoop 0 n (invPivotStep n) a
  let a ← invNormalise n a
  invSlice n a

/-- Go: `math.Sqrt` followed by `math.IsNaN`, in exact arithmetic: the root of
a negative number is NaN (`none`), any other argument has the root `root x`. -/
def mathSqrt [LinearOrderedField K] (root : K → K) (x : K) : Option K :=
  if x < 0 then none else some (root x)

/-- Go: the body of the inner loop of `CholeskyDecomposition` at `(i, j)`.
The `else` branch of the off-diagonal step only logs, so it leaves `u` as
it is. -/
def choleskyStep [LinearOrderedField K] (root : K → K) (a : M K) (i j : Nat) (u : M K) :
    Except Err (M K) := do
  let sum : K := 0
  if i = j then
    let sum ← forLoop 0 j (fun k sum => do
      pure (sum + (← getAt u j k) * (← getAt u j k))) sum
    match mathSqrt root ((← getAt a j j) - sum) with
    | some v => setAt u j j v
    | none => throw Err.nanDetected
  else
    let sum ← forLoop 0 j (fun k sum => do
      pure (sum + (← getAt u i k) * (← getAt u j k))) sum
    if (← getAt u j j) > 0 then
      setAt u i j (((← getAt a i j) - sum) / (← getAt u j j))
    else
      pure u

/-- Go: `func (a M) CholeskyDecomposition() M`, with the square root function
of the arithmetic taken as the parameter `root`. -/
def CholeskyDecomposition [LinearOrderedField K] (root : K → K) (a : M K) :
    Except Err (M K) := do
  let L := a.length
  let u : M K := zeroes L L
  forLoop 0 L (fun i u => forLoop 0 (i + 1) (choleskyStep root a i) u) u

/-- Go: the test `len(a) == 1 && len(a[0]) == 1`; `len(a[0])` is read only when
`len(a) == 1`. -/
def isScalar (a : M K) : Except Err Bool :=
  if a.length = 1 then do
    pure (decide ((← rowLen a 0) = 1))
  else
    pure false

/-- Go: `func hasSameDimensions(a, b M) bool`. -/
def hasSameDimensions (a b : M K) : Except Err Bool := do
  let (adimx, adimy) ← GetDimensions a
  let (bdimx, bdimy) ← GetDimensions b
  if adimx ≠ bdimx ∨ adimy ≠ bdimy then
    pure false
  else
    pure true

/-- Go: the loop nest shared by the branches of `Add` and `Sub`,
`for i, row := range over { for j := range row { result[i] = append(result[i], val) } }`,
where `val` is the expression computed at `(i, j)`. -/
def buildRows (over : M K) (val : Nat → Nat → Except Err K) (result : M K) :
    Except Err (M K) :=
  forLoop 0 over.length (fun i result => do
    forLoop 0 (← rowLen over i) (fun j result => do
      appendToRow result i (← val i j)) result) result

/-- Go: `func (a M) Add(b M) M`; `make(M, n)` is `n` nil rows. -/
def Add [Add K] (a b : M K) : Except Err (M K) := do
  if (← isScalar a) then
    let result : M K := List.replicate b.length []
    buildRows b (fun i j => do pure ((← getAt a 0 0) + (← getAt b i j))) result
  else
    let result : M K := List.replicate a.length []
    if (← isScalar b) then
      buildRows a (fun i j => do pure ((← getAt a i j) + (← getAt b 0 0))) result
    else if !(← hasSameDimensions a b) then
      throw Err.dimensionMismatch
    else
      buildRows a (fun i j => do pure ((← getAt a i j) + (← getAt b i j))) result

/-- Go: `func (a M) Sub(b M) M`. -/
def Sub [Sub K] (a b : M K) : Except Err (M K) := do
  if (← isScalar a) then
    let result : M K := List.replicate b.length []
    buildRows b (fun i j => do pure ((← getAt a 0 0) - (← getAt b i j))) result
  else
    let result : M K := List.replicate a.length []
    if (← isScalar b) then
      buildRows a (fun i j => do pure ((← getAt a i j) - (← getAt b 0 0))) result
    else if !(← hasSameDimensions a b) then
      throw Err.dimensionMismatch
    else
      buildRows a (fun i j => do pure ((← getAt a i j) - (← getAt b i j))) result

/-- Go: `func (a M) HadamardProduct(b M) (R M)`.  `log.Fatal` ends the process;
that outcome is the error `fatalMismatch`. -/
def HadamardProduct [Zero K] [Mul K] (a b : M K) : Except Err (M K) := do
  let (dx, dy) ← GetDimensions a
  let (bx, by') ← GetDimensions b
  if dx ≠ bx ∨ dy ≠ by' then
    throw Err.fatalMismatch
  else
    let R : M K := Zeroes dx dy
    forLoop 0 dy (fun y R =>
      forLoop 0 dx (fun x R => do
        setAt R y x ((← getAt a y x) * (← getAt b y x))) R) R

/-- Go: `func (a M) Det2x2() float64`. -/
def Det2x2 [Field K] (a : M K) : Except Err K := do
  pure ((← getAt a 0 0) * (← getAt a 1 1) - (← getAt a 0 1) * (← getAt a 1 0))

/-- Go: `func (a M) Adj2x2() M`. -/
def Adj2x2 [Field K] (a : M K) : Except Err (M K) := do
  let result : M K := zeroes 2 2
  let result ← setAt result 0 0 (← getAt a 1 1)
  let result ← setAt result 0 1 (-1 * (← getAt a 0 1))
  let result ← setAt result 1 0 (-1 * (← getAt a 1 0))
  let result ← setAt result 1 1 (← getAt a 0 0)
  pure result

/-- Go: `func (a M) Inv2x2() M`. -/
def Inv2x2 [Field K] (a : M K) : Except Err (M K) := do
  let det ← Det2x2 a
  let inverse ← Xscalar (← Adj2x2 a) (1 / det)
  pure inverse

/-- Go: `func (a M) Inv() M` as it acts on the caller: the pair of the returned
matrix and the state in which the call leaves the caller's matrix.  The
parameter `a` shares its rows with the caller's slice, every assignment
`a[i] = ...` and `a[i][j] = ...` writes one of those rows, and the body never
assigns `a` itself; the 1×1 branch returns a fresh matrix and writes nothing. -/
def InvInPlace [Field K] [DecidableEq K] (a : M K) : Except Err (M K × M K) := do
  let (dimx, dimy) ← GetDimensions a
  if dimx = dimy ∧ dimx = 1 then
    return ([[1 / (← getAt a 0 0)]], a)
  if dimx ≠ dimy then throw Err.nonSquare
  let n := a.length
  let a ← invAugment n a
  let a ← forLoop 0 n (invPivotStep n) a
  let a ← invNormalise n a
  let a ← invSlice n a
  return (a, a)

/-- Go: the body of the outer loop of `CholeskyDecomposition` at row `i`. -/
def choleskyRow [LinearOrderedField K] (root : K → K) (a : M K) (i : Nat) (u : M K) :
    Except Err (M K) :=
  forLoop 0 (i + 1) (choleskyStep root a i) u

/-- Row `i` of a matrix, the empty row when there is none. -/
def row (a : M K) (i : Nat) : List K := (a[i]?).getD []

/-- Entry `(i, j)` of a matrix, zero when there is none. -/
def entry [Zero K] (a : M K) (i j : Nat) : K := ((row a i)[j]?).getD 0

/-- The matrix `a` with entry `(i, j)` replaced by `v`. -/
def upd (a : M K) (i j : Nat) (v : K) : M K := List.set a i (List.set (row a i) j v)

/-- Matrix data model: `a` has `r` rows, each of `c` entries. -/
def IsMat (a : M K) (r c : Nat) : Prop := a.length = r ∧ ∀ i, i < r → (row a i).length = c

/-- The `n`×`n` identity matrix. -/
def identity [Zero K] [One K] (n : Nat) : M K :=
  (List.range n).map (fun i => (List.range n).map (fun j => if i = j then 1 else 0))

/-- Symmetry of the `n`×`n` matrix `a`. -/
def IsSymm [Zero K] (n : Nat) (a : M K) : Prop :=
  ∀ i j, i < n → j < n → entry a i j = entry a j i

/-- Positive definiteness of the `n`×`n` matrix `a`: the quadratic form
`xᵗ a x` is positive at every nonzero vector `x`. -/
def IsPosDef [LinearOrderedField K] (n : Nat) (a : M K) : Prop :=
  ∀ x : Nat → K, (∃ i, i < n ∧ x i ≠ 0) →
    0 < ∑ p in Finset.range n, ∑ q in Finset.range n, x p * entry a p q * x q

instance instDecidableEqExcept {ε α : Type} [DecidableEq ε] [DecidableEq α] :
    DecidableEq (Except ε α) := fun a b =>
  match a, b with
  | Except.ok x, Except.ok y =>
    if h : x = y then isTrue (by rw [h]) else isFalse (fun h2 => h (by cases h2; rfl))
  | Except.error x, Except.error y =>
    if h : x = y then isTrue (by rw [h]) else isFalse (fun h2 => h (by cases h2; rfl))
  | Except.ok _, Except.error _ => isFalse (fun h => by cases h)
  | Except.error _, Except.ok _ => isFalse (fun h => by cases h)

/-- The row of the identity matrix appended to row `p`, cut after `k` entries. -/
def unitRow [Zero K] [One K] (p k : Nat) : List K :=
  (List.range k).map (fun j => if p = j then 1 else 0)

instance instDecidableIsMat (a : M K) (r c : Nat) : Decidable (IsMat a r c) := by
  unfold IsMat; exact inferInstance

/-- The entries `(p, q)` that `CholeskyDecomposition` has written when it is
about to run the step `(i, j)`: all of the rows before `i`, and row `i` up to
column `j`. -/
def processed (i j p q : Nat) : Prop := q ≤ p ∧ (p < i ∨ (p = i ∧ q < j))

/-- Loop invariant of `CholeskyDecomposition` before the step `(i, j)` on the
input `A`: `u` is `n`×`n`, the entries not yet written are zero, every written
entry `(p, q)` satisfies `Σ_{k ≤ q} u[p][k]·u[q][k] = A[p][q]`, and the
diagonal entries written in the rows before `i` are positive. -/
def CholInv [LinearOrderedField K] (n : Nat) (A : M K) (i j : Nat) (u : M K) : Prop :=
  IsMat u n n ∧
    (∀ p q, p < n → q < n → ¬ processed i j p q → entry u p q = 0) ∧
    (∀ p q, p < n → processed i j p q →
      ∑ k in Finset.range (q + 1), entry u p k * entry u q k = entry A p q) ∧
    (∀ q, q < i → q < n → 0 < entry u q q)

/-- What every prefix of a run of `CholeskyDecomposition` keeps: before the step
`(i, j)`, `u` is `n`×`n` and the entries not yet written are zero. -/
def CholZero [Zero K] (n i j : Nat) (u : M K) : Prop :=
  IsMat u n n ∧ ∀ p q, p < n → q < n → ¬ processed i j p q → entry u p q = 0

/-- Go: the header of a row slice: the heap address of its element 0, its
length and its capacity. -/
structure Slice where
  ptr : Nat
  len : Nat
  cap : Nat
  deriving DecidableEq, Repr

/-- A value of the Go type `M` as the program holds it: the headers of its
rows, and the heap in which the backing arrays of the rows live.  `next` is the
first address that no array occupies. -/
structure Mem (K : Type) where
  heap : Nat → K
  next : Nat
  rows : List Slice

/-- The elements `r[0], ..., r[len(r)-1]` of a row slice. -/
def cells (heap : Nat → K) (r : Slice) : List K :=
  (List.range r.len).map (fun t => heap (r.ptr + t))

/-- The matrix a heap value denotes: the elements of its rows. -/
def view (m : Mem K) : M K := m.rows.map (cells m.heap)

/-- Go: `len(a[i])` on a heap value. -/
def memRowLen (m : Mem K) (i : Nat) : Except Err Nat :=
  match m.rows[i]? with
  | some r => Except.ok r.len
  | none => Except.error Err.indexOutOfRange

/-- Go: the read `a[i][j]` on a heap value. -/
def memGetAt (m : Mem K) (i j : Nat) : Except Err K :=
  match m.rows[i]? with
  | some r =>
    if j < r.len then Except.ok (m.heap (r.ptr + j))
    else Except.error Err.indexOutOfRange
  | none => Except.error Err.indexOutOfRange

/-- Go: the write `a[i][j] = v` on a heap value: one cell of the heap changes,
whichever rows contain it. -/
def memSetAt (m : Mem K) (i j : Nat) (v : K) : Except Err (Mem K) :=
  match m.rows[i]? with
  | some r =>
    if j < r.len then
      Except.ok { heap := Function.update m.heap (r.ptr + j) v, next := m.next, rows := m.rows }
    else Except.error Err.indexOutOfRange
  | none => Except.error Err.indexOutOfRange

/-- Go: `a[i] = append(a[i], v)` on a heap value.  With spare capacity
(`len < cap`) the value is written into the cell after the last element of the
backing array the row already has, whatever else lives there; otherwise a new
zeroed array of capacity `max (grow cap) (len + 1)` is allocated, the elements
are copied and the value is written after them. -/
def memAppendToRow [Zero K] (grow : Nat → Nat) (m : Mem K) (i : Nat) (v : K) :
    Except Err (Mem K) :=
  match m.rows[i]? with
  | some r =>
    if r.len < r.cap then
      Except.ok { heap := Function.update m.heap (r.ptr + r.len) v, next := m.next,
                  rows := List.set m.rows i ⟨r.ptr, r.len + 1, r.cap⟩ }
    else
      Except.ok { heap := fun p =>
                    if p < m.next then m.heap p
                    else if p < m.next + r.len then m.heap (r.ptr + (p - m.next))
                    else if p = m.next + r.len then v
                    else 0,
                  next := m.next + max (grow r.cap) (r.len + 1),
                  rows := List.set m.rows i ⟨m.next, r.len + 1, max (grow r.cap) (r.len + 1)⟩ }
  | none => Except.error Err.indexOutOfRange

/-- Go: `a[i] = a[i][n:]` on a heap value. -/
def memSliceRow (m : Mem K) (i n : Nat) : Except Err (Mem K) :=
  match m.rows[i]? with
  | some r =>
    if n ≤ r.len then
      Except.ok { heap := m.heap, next := m.next,
                  rows := List.set m.rows i ⟨r.ptr + n, r.len - n, r.cap - n⟩ }
    else Except.error Err.indexOutOfRange
  | none => Except.error Err.indexOutOfRange

/-- Go: `GetDimensions` on a heap value. -/
def memGetDimensions (m : Mem K) : Except Err (Nat × Nat) := do
  let dimx ← memRowLen m 0
  return (dimx, m.rows.length)

/-- Go: the innermost loop of `Inv` on a heap value. -/
def memSubtractRow [Field K] (cols j i : Nat) (ratio : K) (m : Mem K) : Except Err (Mem K) :=
  forLoop 0 cols (fun k m => do
    memSetAt m j k ((← memGetAt m j k) - ratio * (← memGetAt m i k))) m

/-- Go: the first loop nest of `Inv` on a heap value. -/
def memInvAugment [Zero K] [One K] (grow : Nat → Nat) (n : Nat) (m : Mem K) :
    Except Err (Mem K) :=
  forLoop 0 n (fun i m =>
    forLoop 0 n (fun j m =>
      if i = j then memAppendToRow grow m i 1 else memAppendToRow grow m i 0) m) m

/-- Go: the body of the Gauss-Jordan loop of `Inv` at pivot `i` on a heap value. -/
def memInvPivotStep [Field K] [DecidableEq K] (n : Nat) (i : Nat) (m : Mem K) :
    Except Err (Mem K) := do
  if (← memGetAt m i i) = 0 then throw Err.zeroPivot
  forLoop 0 n (fun j m => do
    if i ≠ j then
      let ratio := (← memGetAt m j i) / (← memGetAt m i i)
      memSubtractRow (2 * n) j i ratio m
    else
      pure m) m

/-- Go: the third loop nest of `Inv` on a heap value. -/
def memInvNormalise [Field K] (n : Nat) (m : Mem K) : Except Err (Mem K) :=
  forLoop 0 n (fun i m =>
    forLoop n (2 * n) (fun j m => do
      memSetAt m i j ((← memGetAt m i j) / (← memGetAt m i i))) m) m

/-- Go: the last loop of `Inv` on a heap value. -/
def memInvSlice (n : Nat) (m : Mem K) : Except Err (Mem K) :=
  forLoop 0 n (fun i m => memSliceRow m i n) m

/-- Go: `func (a M) Inv() M` on a heap value, statement for statement.  The
scalar branch returns a matrix with one freshly allocated row. -/
def memInv [Field K] [DecidableEq K] (grow : Nat → Nat) (m : Mem K) : Except Err (Mem K) := do
  let (dimx, dimy) ← memGetDimensions m
  if dimx = dimy ∧ dimx = 1 then
    return { heap := Function.update m.heap m.next (1 / (← memGetAt m 0 0)),
             next := m.next + 1, rows := [⟨m.next, 1, 1⟩] }
  if dimx ≠ dimy then throw Err.nonSquare
  let n := m.rows.length
  let m ← memInvAugment grow n m
  let m ← forLoop 0 n (memInvPivotStep n) m
  let m ← memInvNormalise n m
  memInvSlice n m

/-- Every row header is a slice of allocated memory: `len ≤ cap`, and the
backing array ends before `next`. -/
def WellFormed (m : Mem K) : Prop :=
  ∀ r ∈ m.rows, r.len ≤ r.cap ∧ r.ptr + r.cap ≤ m.next

/-- No two rows share a cell of their backing arrays, spare capacity
included. -/
def RowsDisjoint (m : Mem K) : Prop :=
  m.rows.Pairwise (fun r s => r.ptr + r.cap ≤ s.ptr ∨ s.ptr + s.cap ≤ r.ptr)

instance instDecidableWellFormed (m : Mem K) : Decidable (WellFormed m) := by
  unfold WellFormed; infer_instance

instance instDecidableRowsDisjoint (m : Mem K) : Decidable (RowsDisjoint m) := by
  unfold RowsDisjoint; infer_instance

/-- Go: `buf := []float64{1, 2, 3, 4}; a := M{buf[0:2], buf[2:4]}`, the matrix
`[[1,2],[3,4]]` with both rows cut from one array: row 0 has capacity 4. -/
def sharedRows : Mem ℚ :=
  { heap := fun p => [1, 2, 3, 4].getD p 0, next := 4, rows := [⟨0, 2, 4⟩, ⟨2, 2, 2⟩] }

/-- Go: `a := M{{1, 2}, {3, 4}}`, the matrix `[[1,2],[3,4]]` with one array per
row. -/
def ownRows : Mem ℚ :=
  { heap := fun p => [1, 2, 3, 4].getD p 0, next := 4, rows := [⟨0, 2, 2⟩, ⟨2, 2, 2⟩] }

/-- The rows own their memory: every header is a slice of allocated memory and
no two rows share a cell, spare capacity included. -/
def Owned (m : Mem K) : Prop := WellFormed m ∧ RowsDisjoint m

/-- A run on a heap value follows a run on the matrix it denotes: both panic
with the same error, or both return, the heap result denotes the matrix result
and its rows still own their memory. -/
def Follows (x : Except Err (Mem K)) (y : Except Err (M K)) : Prop :=
  match x, y with
  | Except.ok m, Except.ok a => Owned m ∧ view m = a
  | Except.error e, Except.error e' => e = e'
  | _, _ => False

/-- The heap value `sharedRows` after `Inv` has appended `1, 0` to row 0 (in
place, over the elements of row 1) and `0` to row 1 (which has no spare
capacity and moves to a new array of capacity `max (grow 2) 3`). -/
def sharedRowsMoved (grow : Nat → Nat) : Mem ℚ :=
  { heap := fun p =>
      if p < 4 then Function.update (Function.update sharedRows.heap 2 1) 3 0 p
      else if p < 4 + 2 then
        Function.update (Function.update sharedRows.heap 2 1) 3 0 (2 + (p - 4))
      else if p = 4 + 2 then 0
      else 0,
    next := 4 + max (grow 2) 3,
    rows := [⟨0, 4, 4⟩, ⟨4, 3, max (grow 2) 3⟩] }

end Core

/-! ## Reading and writing entries -/

section Access

variable {K : Type}

theorem bind_ok {ε α β : Type} (x : α) (f : α → Except ε β) :
    (Except.ok x >>= f) = f x := rfl

theorem bind_error {ε α β : Type} (e : ε) (f : α → Except ε β) :
    ((Except.error e : Except ε α) >>= f) = Except.error e := rfl

theorem pure_eq_ok {ε α : Type} (x : α) : (pure x : Except ε α) = Except.ok x := rfl

theorem throw_eq_error {ε α : Type} (e : ε) : (throw e : Except ε α) = Except.error e := rfl

theorem getElem?_eq_row {a : M K} {i : Nat} (h : i < a.length) : a[i]? = some (row a i) := by
  simp [row, List.getElem?_eq_getElem h]

theorem rowLen_eq {a : M K} {i : Nat} (h : i < a.length) :
    rowLen a i = Except.ok (row a i).length := by
  simp [rowLen, getElem?_eq_row h]

theorem getAt_eq [Zero K] {a : M K} {i j : Nat} (hi : i < a.length)
    (hj : j < (row a i).length) : getAt a i j = Except.ok (entry a i j) := by
  simp [getAt, getElem?_eq_row hi, entry, List.getElem?_eq_getElem hj]

theorem setAt_eq {a : M K} {i j : Nat} (v : K) (hi : i < a.length)
    (hj : j < (row a i).length) : setAt a i j v = Except.ok (upd a i j v) := by
  simp [setAt, getElem?_eq_row hi, hj, upd]

theorem row_set {a : M K} {i : Nat} (r : List K) (p : Nat) (hi : i < a.length) :
    row (List.set a i r) p = if p = i then r else row a p := by
  unfold row
  rw [List.getElem?_set]
  by_cases h : i = p
  · subst h; simp [hi]
  · have h2 : ¬ p = i := fun e => h e.symm
    simp [h, h2]

theorem length_upd (a : M K) (i j : Nat) (v : K) : (upd a i j v).length = a.length := by
  simp [upd]

theorem row_upd {a : M K} {i j : Nat} (v : K) (p : Nat) (hi : i < a.length) :
    row (upd a i j v) p = if p = i then List.set (row a i) j v else row a p := by
  unfold upd
  exact row_set _ p hi

theorem entry_upd [Zero K] {a : M K} {i j : Nat} (v : K) (p q : Nat) (hi : i < a.length)
    (hj : j < (row a i).length) :
    entry (upd a i j v) p q = if p = i ∧ q = j then v else entry a p q := by
  unfold entry
  rw [row_upd v p hi]
  by_cases hp : p = i
  · subst hp
    rw [if_pos rfl, List.getElem?_set]
    by_cases hq : j = q
    · subst hq; simp [hj]
    · have hq2 : ¬ q = j := fun e => hq e.symm
      simp [hq, hq2]
  · simp [hp]

theorem isMat_upd {a : M K} {r c : Nat} (h : IsMat a r c) (i j : Nat) (v : K) :
    IsMat (upd a i j v) r c := by
  refine ⟨by rw [length_upd]; exact h.1, fun p hp => ?_⟩
  by_cases hi : i < a.length
  · rw [row_upd v p hi]
    by_cases hpi : p = i
    · subst hpi; simp [h.2 p hp]
    · simp [hpi, h.2 p hp]
  · have : GoMatrix.upd a i j v = a := by
      unfold GoMatrix.upd
      exact List.set_eq_of_length_le (by omega)
    rw [this]; exact h.2 p hp

theorem isMat_getAt [Zero K] {a : M K} {r c i j : Nat} (h : IsMat a r c) (hi : i < r)
    (hj : j < c) : getAt a i j = Except.ok (entry a i j) :=
  getAt_eq (by rw [h.1]; exact hi) (by rw [h.2 i hi]; exact hj)

theorem isMat_setAt {a : M K} {r c i j : Nat} (h : IsMat a r c) (v : K) (hi : i < r)
    (hj : j < c) : setAt a i j v = Except.ok (upd a i j v) :=
  setAt_eq v (by rw [h.1]; exact hi) (by rw [h.2 i hi]; exact hj)

theorem isMat_entry_upd [Zero K] {a : M K} {r c i j : Nat} (h : IsMat a r c) (v : K)
    (p q : Nat) (hi : i < r) (hj : j < c) :
    entry (upd a i j v) p q = if p = i ∧ q = j then v else entry a p q :=
  GoMatrix.entry_upd v p q (by rw [h.1]; exact hi) (by rw [h.2 i hi]; exact hj)

theorem isMat_rowLen {a : M K} {r c i : Nat} (h : IsMat a r c) (hi : i < r) :
    rowLen a i = Except.ok c := by
  rw [rowLen_eq (by rw [h.1]; exact hi), h.2 i hi]

theorem row_eq_of_entry [Zero K] {x y : List K} (hl : x.length = y.length)
    (h : ∀ j, j < x.length → (x[j]?).getD 0 = (y[j]?).getD 0) : x = y := by
  apply List.ext_getElem hl
  intro j h1 h2
  have := h j h1
  simpa [List.getElem?_eq_getElem h1, List.getElem?_eq_getElem h2] using this

/-- Two matrices of the same shape with the same entries are equal. -/
theorem isMat_ext [Zero K] {a b : M K} {r c : Nat} (ha : IsMat a r c) (hb : IsMat b r c)
    (h : ∀ i j, i < r → j < c → entry a i j = entry b i j) : a = b := by
  apply List.ext_getElem (by rw [ha.1, hb.1])
  intro i h1 h2
  have hi : i < r := by rw [← ha.1]; exact h1
  have e1 : a[i] = row a i := by simp [row, List.getElem?_eq_getElem h1]
  have e2 : b[i] = row b i := by simp [row, List.getElem?_eq_getElem h2]
  rw [e1, e2]
  apply row_eq_of_entry (by rw [ha.2 i hi, hb.2 i hi])
  intro j hj
  exact h i j hi (by rw [← ha.2 i hi]; exact hj)

theorem isMat_zeroes [Zero K] (dimx dimy : Nat) : IsMat (zeroes dimx dimy : M K) dimy dimx := by
  refine ⟨by simp [zeroes], fun i hi => ?_⟩
  simp [row, zeroes, List.getElem?_replicate, hi]

theorem entry_zeroes [Zero K] (dimx dimy i j : Nat) : entry (zeroes dimx dimy : M K) i j = 0 := by
  unfold entry row zeroes
  rw [List.getElem?_replicate]
  by_cases hi : i < dimy
  · simp only [hi, if_true, Option.getD_some]
    rw [List.getElem?_replicate]
    by_cases hj : j < dimx <;> simp [hj]
  · simp [hi]

end Access

/-! ## Loops -/

section Loops

variable {σ : Type}

theorem forLoop_eq (lo hi : Nat) (body : Nat → σ → Except Err σ) (s : σ) :
    forLoop lo hi body s = loopFrom body (hi - lo) lo s := rfl

theorem loopFrom_zero (body : Nat → σ → Except Err σ) (i : Nat) (s : σ) :
    loopFrom body 0 i s = Except.ok s := rfl

theorem loopFrom_succ_ok {body : Nat → σ → Except Err σ} {i : Nat} {s s' : σ} (c : Nat)
    (h : body i s = Except.ok s') : loopFrom body (c + 1) i s = loopFrom body c (i + 1) s' := by
  simp [loopFrom, h]

theorem loopFrom_succ_error {body : Nat → σ → Except Err σ} {i : Nat} {s : σ} {e : Err}
    (c : Nat) (h : body i s = Except.error e) : loopFrom body (c + 1) i s = Except.error e := by
  simp [loopFrom, h]

/-- Running `c₁ + c₂` rounds is running `c₁` rounds and then `c₂` more. -/
theorem loopFrom_add (body : Nat → σ → Except Err σ) (c₁ c₂ : Nat) :
    ∀ (i : Nat) (s : σ),
      loopFrom body (c₁ + c₂) i s = (loopFrom body c₁ i s >>= loopFrom body c₂ (i + c₁)) := by
  induction c₁ with
  | zero => intro i s; simp [loopFrom, bind_ok]
  | succ c ih =>
    intro i s
    rw [show c + 1 + c₂ = (c + c₂) + 1 by omega]
    cases hb : body i s with
    | error e => rw [loopFrom_succ_error _ hb, loopFrom_succ_error _ hb]; rfl
    | ok s' =>
      rw [loopFrom_succ_ok _ hb, loopFrom_succ_ok _ hb, ih]
      rw [show i + 1 + c = i + (c + 1) by omega]

/-- Invariant rule for a counted loop. -/
theorem loopFrom_inv (body : Nat → σ → Except Err σ) (P : Nat → σ → Prop) :
    ∀ (c i : Nat) (s : σ), P i s →
      (∀ k t, i ≤ k → k < i + c → P k t → ∃ t', body k t = Except.ok t' ∧ P (k + 1) t') →
      ∃ s', loopFrom body c i s = Except.ok s' ∧ P (i + c) s' := by
  intro c
  induction c with
  | zero => intro i s h0 _; exact ⟨s, rfl, h0⟩
  | succ c ih =>
    intro i s h0 hstep
    obtain ⟨t, ht, hPt⟩ := hstep i s (Nat.le_refl i) (by omega) h0
    obtain ⟨s', hs', hP⟩ := ih (i + 1) t hPt
      (fun k u hk1 hk2 hu => hstep k u (by omega) (by omega) hu)
    refine ⟨s', ?_, ?_⟩
    · rw [loopFrom_succ_ok _ ht]; exact hs'
    · rw [show i + (c + 1) = i + 1 + c by omega]; exact hP

/-- Invariant rule for `for i := lo; i < hi; i++`. -/
theorem forLoop_inv {lo hi : Nat} (hle : lo ≤ hi) (body : Nat → σ → Except Err σ)
    (P : Nat → σ → Prop) (s : σ) (h0 : P lo s)
    (hstep : ∀ k t, lo ≤ k → k < hi → P k t → ∃ t', body k t = Except.ok t' ∧ P (k + 1) t') :
    ∃ s', forLoop lo hi body s = Except.ok s' ∧ P hi s' := by
  obtain ⟨s', h1, h2⟩ := loopFrom_inv body P (hi - lo) lo s h0
    (fun k t hk1 hk2 hP => hstep k t hk1 (by omega) hP)
  refine ⟨s', h1, ?_⟩
  rw [show lo + (hi - lo) = hi by omega] at h2
  exact h2

/-- A loop whose first `i` rounds reach a state on which round `i` panics
panics with that error. -/
theorem forLoop_error_at {hi i : Nat} (body : Nat → σ → Except Err σ) {s t : σ} {e : Err}
    (hi' : i < hi) (hpre : forLoop 0 i body s = Except.ok t) (hb : body i t = Except.error e) :
    forLoop 0 hi body s = Except.error e := by
  rw [forLoop_eq] at hpre ⊢
  rw [show hi - 0 = (i - 0) + ((hi - i - 1) + 1) by omega, loopFrom_add, hpre, bind_ok]
  rw [show 0 + (i - 0) = i by omega]
  exact loopFrom_succ_error _ hb

end Loops


/-! ## Shape checks of `Inv` and `LU` -/

section Shape

variable {K : Type}

theorem getDimensions_eq {a : M K} {r c : Nat} (h : IsMat a r c) (hr : 0 < r) :
    GetDimensions a = Except.ok (c, r) := by
  simp [GetDimensions, isMat_rowLen h hr, bind_ok, pure_eq_ok, h.1, bind, Except.bind]

theorem appendToRow_eq {a : M K} {i : Nat} (v : K) (hi : i < a.length) :
    appendToRow a i v = Except.ok (List.set a i (row a i ++ [v])) := by
  simp [appendToRow, getElem?_eq_row hi]

theorem sliceRow_eq {a : M K} {i n : Nat} (hi : i < a.length) (hn : n ≤ (row a i).length) :
    sliceRow a i n = Except.ok (List.set a i ((row a i).drop n)) := by
  simp [sliceRow, getElem?_eq_row hi, hn]

end Shape

section EasyClaims

variable {K : Type} [Field K] [DecidableEq K]

/-- C9: a matrix with at least one row and one column whose numbers of rows and
columns differ makes both `Inv` and `LU` panic with the non-square error. -/
theorem nonSquare_rejected (A B : M K) (r c : Nat) (hr : 1 ≤ r) (hc : 1 ≤ c) (hne : r ≠ c)
    (hA : IsMat A r c) :
    Inv A = Except.error Err.nonSquare ∧ LU A B = Except.error Err.nonSquare := by
  have _ := hc
  have hd := getDimensions_eq hA hr
  have hne' : ¬ c = r := fun e => hne e.symm
  constructor
  · simp [Inv, hd, bind, Except.bind, hne', throw_eq_error, pure, Except.pure]
  · simp [LU, hd, bind, Except.bind, hne', throw_eq_error]

theorem nonSquare_rejected_witness :
    Inv ([[1, 2, 3], [3, 4, 5]] : M ℚ) = Except.error Err.nonSquare ∧
      LU ([[1, 2, 3], [3, 4, 5]] : M ℚ) [] = Except.error Err.nonSquare :=
  nonSquare_rejected [[1, 2, 3], [3, 4, 5]] [] 2 3 (by decide) (by decide) (by decide) (by decide)

/-- C10: for every nonzero `a`, `Inv` of the 1×1 matrix `[[a]]` returns `[[1/a]]`. -/
theorem inv_scalar (a : K) (ha : a ≠ 0) : Inv ([[a]] : M K) = Except.ok [[1 / a]] := by
  have _ := ha
  rfl

theorem inv_scalar_witness : Inv ([[5]] : M ℚ) = Except.ok [[1 / 5]] :=
  inv_scalar 5 (by decide)

/-- C5: on `[[1,2],[3,4]]`, whose pivots are nonzero, `LU` leaves the factor
`L = [[1,0],[3,0]]` and the eliminated matrix `[[1,2],[0,-2]]`, whose product
is `[[1,2],[3,6]]` rather than the original matrix. -/
theorem lu_product_differs :
    (LU ([[1, 2], [3, 4]] : M ℚ) [] >>= fun res => X res.1.1 res.2)
      = Except.ok [[1, 2], [3, 6]] := by
  decide!

/-- C6: on `[[2,1,1],[4,3,3],[8,7,9]]` the factor `L` returned by `LU` has a zero
in its last diagonal entry. -/
theorem lu_last_diagonal_zero :
    (LU ([[2, 1, 1], [4, 3, 3], [8, 7, 9]] : M ℚ) [] >>= fun res => getAt res.1.1 2 2)
      = Except.ok 0 := by
  decide!

/-- C7: on `[[2,1],[6,4]]` the second value returned by `LU` is the nil
matrix, while the eliminated input is `[[2,1],[0,1]]`. -/
theorem lu_second_result_nil :
    LU ([[2, 1], [6, 4]] : M ℚ) [] = Except.ok (([[1, 0], [3, 0]], []), [[2, 1], [0, 1]]) := by
  decide!

end EasyClaims

/-! ## Products, transposes and the identity -/

section Products

variable {K : Type}

/-- Invariant rule for a loop, with the postcondition weakened. -/
theorem forLoop_rule {σ : Type} {lo hi : Nat} (hle : lo ≤ hi) {body : Nat → σ → Except Err σ}
    (P : Nat → σ → Prop) {s : σ} {Q : σ → Prop} (h0 : P lo s)
    (hstep : ∀ k t, lo ≤ k → k < hi → P k t → ∃ t', body k t = Except.ok t' ∧ P (k + 1) t')
    (hQ : ∀ t, P hi t → Q t) :
    ∃ s', forLoop lo hi body s = Except.ok s' ∧ Q s' := by
  obtain ⟨s', h1, h2⟩ := forLoop_inv hle body P s h0 hstep
  exact ⟨s', h1, hQ s' h2⟩

/-- The scalar multiple computed by `Xscalar`. -/
theorem Xscalar_spec [Field K] {a : M K} {r c : Nat} (ha : IsMat a r c) (hr : 0 < r) (b : K) :
    ∃ R, Xscalar a b = Except.ok R ∧ IsMat R r c ∧
      ∀ i j, i < r → j < c → entry R i j = b * entry a i j := by
  unfold Xscalar
  simp only [isMat_rowLen ha hr, bind_ok, ha.1]
  refine forLoop_rule (Nat.zero_le r)
    (fun i R => IsMat R r c ∧ ∀ p q, entry R p q = if p < i then b * entry a p q else 0)
    ⟨isMat_zeroes c r, fun p q => by simp [entry_zeroes]⟩ ?_ ?_
  · intro i R0 _ hi hP
    simp only [isMat_rowLen ha hi, bind_ok]
    refine forLoop_rule (Nat.zero_le c)
      (fun j R => IsMat R r c ∧ ∀ p q, entry R p q =
        if p = i ∧ q < j then b * entry a p q else entry R0 p q)
      ⟨hP.1, fun p q => by simp⟩ ?_ ?_
    · intro j R _ hj hQ
      refine ⟨upd R i j (b * entry a i j), ?_, isMat_upd hQ.1 _ _ _, ?_⟩
      · rw [isMat_getAt ha hi hj, bind_ok, isMat_setAt hQ.1 _ hi hj]
      · intro p q
        rw [isMat_entry_upd hQ.1 _ p q hi hj, hQ.2 p q]
        by_cases hp : p = i
        · by_cases hq : q = j
          · subst hp; subst hq; simp
          · have : q < j + 1 ↔ q < j := by omega
            simp [hp, hq, this]
        · simp [hp]
    · intro R hQ
      refine ⟨hQ.1, fun p q => ?_⟩
      rw [hQ.2 p q, hP.2 p q]
      by_cases hp : p = i
      · subst hp
        by_cases hq : q < c
        · simp [hq]
        · have : entry a p q = 0 := by
            unfold entry
            rw [List.getElem?_eq_none (by rw [ha.2 p hi]; omega)]
            rfl
          simp [hq, this]
      · have : p < i + 1 ↔ p < i := by omega
        simp [hp, this]
  · intro R hP
    exact ⟨hP.1, fun i j hi _ => by rw [hP.2 i j, if_pos hi]⟩

/-- The product computed by `X` on matrices of matching shapes. -/
theorem X_spec [Field K] {a b : M K} {r m c : Nat} (ha : IsMat a r m) (hb : IsMat b m c)
    (hr : 0 < r) (hm : 0 < m) (hc : 0 < c) :
    ∃ R, X a b = Except.ok R ∧ IsMat R r c ∧
      ∀ i j, i < r → j < c →
        entry R i j = ∑ k in Finset.range m, entry a i k * entry b k j := by
  unfold X
  simp only [isMat_rowLen ha hr, isMat_rowLen hb hm, bind_ok, ha.1, hb.1]
  by_cases h1 : r = 1 ∧ m = 1
  · rw [if_pos h1, isMat_getAt ha hr hm, bind_ok]
    obtain ⟨R, hR, hM, hE⟩ := Xscalar_spec hb hm (entry a 0 0)
    refine ⟨R, hR, by rw [h1.1, ← h1.2]; exact hM, fun i j hi hj => ?_⟩
    have hi0 : i = 0 := by omega
    subst hi0
    rw [hE 0 j hm hj, h1.2]
    simp
  · rw [if_neg h1]
    by_cases h2 : m = 1 ∧ c = 1
    · rw [if_pos h2, isMat_getAt hb hm hc, bind_ok]
      have ha' : IsMat a r 1 := by rw [← h2.1]; exact ha
      obtain ⟨R, hR, hM, hE⟩ := Xscalar_spec ha' hr (entry b 0 0)
      refine ⟨R, hR, by rw [h2.2]; exact hM, fun i j hi hj => ?_⟩
      have hj0 : j = 0 := by omega
      subst hj0
      rw [hE i 0 hi (by omega), h2.1]
      simp [mul_comm]
    · rw [if_neg h2, if_neg (by simp)]
      refine forLoop_rule (Nat.zero_le r)
        (fun i R => IsMat R r c ∧ ∀ p q, p < r → q < c → entry R p q =
          if p < i then ∑ k in Finset.range m, entry a p k * entry b k q else 0)
        ⟨isMat_zeroes c r, fun p q _ _ => by simp [entry_zeroes]⟩ ?_ ?_
      · intro i R0 _ hi hP
        refine forLoop_rule (Nat.zero_le c)
          (fun j R => IsMat R r c ∧ ∀ p q, p < r → q < c → entry R p q =
            if p = i ∧ q < j then ∑ k in Finset.range m, entry a p k * entry b k q
            else entry R0 p q)
          ⟨hP.1, fun p q _ _ => by simp⟩ ?_ ?_
        · intro j R1 _ hj hQ
          refine forLoop_rule (Nat.zero_le m)
            (fun k R => IsMat R r c ∧ ∀ p q, p < r → q < c → entry R p q =
              if p = i ∧ q = j then ∑ t in Finset.range k, entry a p t * entry b t q
              else entry R1 p q)
            ⟨hQ.1, fun p q hp hq => ?_⟩ ?_ ?_
          · by_cases hpq : p = i ∧ q = j
            · rw [if_pos hpq, hQ.2 p q hp hq, if_neg (by omega), hP.2 p q hp hq,
                if_neg (by omega)]
              simp
            · rw [if_neg hpq]
          · intro k R _ hk hS
            rw [if_pos hj, isMat_getAt hS.1 hi hj, bind_ok, isMat_getAt ha hi hk, bind_ok,
              isMat_getAt hb hk hj, bind_ok, isMat_setAt hS.1 _ hi hj]
            refine ⟨_, rfl, isMat_upd hS.1 _ _ _, fun p q hp hq => ?_⟩
            rw [isMat_entry_upd hS.1 _ p q hi hj]
            by_cases hpq : p = i ∧ q = j
            · rw [if_pos hpq, if_pos hpq, hS.2 i j hi hj, if_pos ⟨rfl, rfl⟩,
                Finset.sum_range_succ, hpq.1, hpq.2]
            · rw [if_neg hpq, if_neg hpq, hS.2 p q hp hq, if_neg hpq]
          · intro R hS
            refine ⟨hS.1, fun p q hp hq => ?_⟩
            rw [hS.2 p q hp hq]
            by_cases hpi : p = i
            · by_cases hqj : q = j
              · rw [if_pos ⟨hpi, hqj⟩, if_pos ⟨hpi, by omega⟩]
              · rw [if_neg (fun h => hqj h.2), hQ.2 p q hp hq]
                by_cases hlt : q < j
                · rw [if_pos ⟨hpi, hlt⟩, if_pos ⟨hpi, by omega⟩]
                · rw [if_neg (fun h => hlt h.2), if_neg (fun h => by omega)]
            · rw [if_neg (fun h => hpi h.1), if_neg (fun h => hpi h.1), hQ.2 p q hp hq,
                if_neg (fun h => hpi h.1)]
        · intro R hQ
          refine ⟨hQ.1, fun p q hp hq => ?_⟩
          rw [hQ.2 p q hp hq]
          by_cases hpi : p = i
          · rw [if_pos ⟨hpi, hq⟩, if_pos (by omega)]
          · rw [if_neg (fun h => hpi h.1), hP.2 p q hp hq]
            by_cases hlt : p < i
            · rw [if_pos hlt, if_pos (by omega)]
            · rw [if_neg hlt, if_neg (by omega)]
      · intro R hP
        exact ⟨hP.1, fun i j hi hj => by rw [hP.2 i j hi hj, if_pos hi]⟩

/-- The transpose computed by `T`. -/
theorem T_spec [Zero K] {a : M K} {r c : Nat} (ha : IsMat a r c) (hr : 0 < r) :
    ∃ R, T a = Except.ok R ∧ IsMat R c r ∧
      ∀ i j, i < r → j < c → entry R j i = entry a i j := by
  unfold T
  simp only [isMat_rowLen ha hr, bind_ok, ha.1]
  refine forLoop_rule (Nat.zero_le r)
    (fun i R => IsMat R c r ∧ ∀ p q, p < c → q < r → entry R p q =
      if q < i then entry a q p else 0)
    ⟨isMat_zeroes r c, fun p q _ _ => by simp [entry_zeroes]⟩ ?_ ?_
  · intro i R0 _ hi hP
    simp only [isMat_rowLen ha hi, bind_ok]
    refine forLoop_rule (Nat.zero_le c)
      (fun j R => IsMat R c r ∧ ∀ p q, p < c → q < r → entry R p q =
        if q = i ∧ p < j then entry a q p else entry R0 p q)
      ⟨hP.1, fun p q _ _ => by simp⟩ ?_ ?_
    · intro j R _ hj hQ
      rw [isMat_getAt ha hi hj, bind_ok, isMat_setAt hQ.1 _ hj hi]
      refine ⟨_, rfl, isMat_upd hQ.1 _ _ _, fun p q hp hq => ?_⟩
      rw [isMat_entry_upd hQ.1 _ p q hj hi]
      by_cases hpq : p = j ∧ q = i
      · rw [if_pos hpq, if_pos ⟨hpq.2, by omega⟩, hpq.1, hpq.2]
      · rw [if_neg hpq, hQ.2 p q hp hq]
        by_cases h : q = i ∧ p < j
        · rw [if_pos h, if_pos ⟨h.1, by omega⟩]
        · rw [if_neg h, if_neg (fun h' => by omega)]
    · intro R hQ
      refine ⟨hQ.1, fun p q hp hq => ?_⟩
      rw [hQ.2 p q hp hq]
      by_cases hqi : q = i
      · rw [if_pos ⟨hqi, hp⟩, if_pos (by omega)]
      · rw [if_neg (fun h => hqi h.1), hP.2 p q hp hq]
        by_cases hlt : q < i
        · rw [if_pos hlt, if_pos (by omega)]
        · rw [if_neg hlt, if_neg (by omega)]
  · intro R hP
    exact ⟨hP.1, fun i j hi hj => by rw [hP.2 j i hj hi, if_pos hi]⟩

theorem isMat_identity [Zero K] [One K] (n : Nat) : IsMat (identity n : M K) n n := by
  refine ⟨by simp [identity], fun i hi => ?_⟩
  simp [row, identity, List.getElem?_map, List.getElem?_range hi]

theorem entry_identity [Zero K] [One K] {n i j : Nat} (hi : i < n) (hj : j < n) :
    entry (identity n : M K) i j = if i = j then 1 else 0 := by
  simp [entry, row, identity, List.getElem?_map, List.getElem?_range hi,
    List.getElem?_range hj]

/-- `NewDiagonalMatrix n n` builds the identity matrix. -/
theorem newDiagonalMatrix_eq_identity [Zero K] [One K] (n : Nat) :
    NewDiagonalMatrix n n = Except.ok (identity n : M K) := by
  unfold NewDiagonalMatrix
  have h : ∃ R, forLoop 0 n (fun i (result : M K) =>
        if i < n then setAt result i i 1 else Except.ok result) (zeroes n n) = Except.ok R ∧
      (IsMat R n n ∧ ∀ p q, p < n → q < n → entry R p q = if p = q then 1 else 0) := by
    refine forLoop_rule (Nat.zero_le n)
      (fun i R => IsMat R n n ∧ ∀ p q, p < n → q < n → entry R p q =
        if p = q ∧ p < i then 1 else 0)
      ⟨isMat_zeroes n n, fun p q _ _ => by simp [entry_zeroes]⟩ ?_ ?_
    · intro i R _ hi hP
      dsimp only
      rw [if_pos hi, isMat_setAt hP.1 _ hi hi]
      refine ⟨_, rfl, isMat_upd hP.1 _ _ _, fun p q hp hq => ?_⟩
      rw [isMat_entry_upd hP.1 _ p q hi hi, hP.2 p q hp hq]
      by_cases h : p = i ∧ q = i
      · rw [if_pos h, if_pos ⟨by omega, by omega⟩]
      · rw [if_neg h]
        by_cases h2 : p = q ∧ p < i
        · rw [if_pos h2, if_pos ⟨h2.1, by omega⟩]
        · rw [if_neg h2, if_neg (fun h3 => by omega)]
    · intro R hP
      refine ⟨hP.1, fun p q hp hq => ?_⟩
      rw [hP.2 p q hp hq]
      by_cases h : p = q
      · rw [if_pos ⟨h, hp⟩, if_pos h]
      · rw [if_neg (fun h2 => h h2.1), if_neg h]
  obtain ⟨R, hR, hM, hE⟩ := h
  rw [hR]
  congr 1
  apply isMat_ext hM (isMat_identity n)
  intro i j hi hj
  rw [hE i j hi hj, entry_identity hi hj]

end Products

/-! ## The phases of `Inv` -/

section InvPhases

variable {K : Type}

/-- Partial-correctness rule for a loop: an invariant kept by every round that
returns holds of the state the loop returns. -/
theorem forLoop_partial {σ : Type} {lo hi : Nat} (hle : lo ≤ hi)
    {body : Nat → σ → Except Err σ} (P : Nat → σ → Prop) {s s' : σ} (h0 : P lo s)
    (hstep : ∀ k t t', lo ≤ k → k < hi → P k t → body k t = Except.ok t' → P (k + 1) t')
    (hrun : forLoop lo hi body s = Except.ok s') : P hi s' := by
  have key : ∀ (c i : Nat) (t : σ), lo ≤ i → i + c = hi → P i t →
      loopFrom body c i t = Except.ok s' → P hi s' := by
    intro c
    induction c with
    | zero =>
      intro i t _ hic hP h
      simp only [loopFrom] at h
      cases h
      rw [← hic]; exact hP
    | succ c ih =>
      intro i t hli hic hP h
      cases hb : body i t with
      | error e => rw [loopFrom_succ_error _ hb] at h; cases h
      | ok t' =>
        rw [loopFrom_succ_ok _ hb] at h
        exact ih (i + 1) t' (by omega) (by omega) (hstep i t t' hli (by omega) hP hb) h
  exact key (hi - lo) lo s (Nat.le_refl lo) (by omega) h0 hrun

theorem unitRow_succ [Zero K] [One K] (p k : Nat) :
    (unitRow p (k + 1) : List K) = unitRow p k ++ [if p = k then 1 else 0] := by
  simp [unitRow, List.range_succ]

theorem length_unitRow [Zero K] [One K] (p k : Nat) : (unitRow p k : List K).length = k := by
  simp [unitRow]

/-- `invAugment` appends the identity to the right of a square matrix. -/
theorem invAugment_spec [Zero K] [One K] {a : M K} {n : Nat} (ha : IsMat a n n) :
    ∃ W, invAugment n a = Except.ok W ∧ IsMat W n (2 * n) ∧
      ∀ p q, p < n → q < 2 * n →
        entry W p q = if q < n then entry a p q else if n + p = q then 1 else 0 := by
  unfold invAugment
  refine forLoop_rule (Nat.zero_le n)
    (fun i W => W.length = n ∧ ∀ p, p < n →
      row W p = if p < i then row a p ++ unitRow p n else row a p)
    ⟨ha.1, fun p _ => by simp⟩ ?_ ?_
  · intro i W0 _ hi hP
    refine forLoop_rule (Nat.zero_le n)
      (fun j W => W.length = n ∧ ∀ p, p < n →
        row W p = if p = i then row a i ++ unitRow i j else row W0 p)
      ⟨hP.1, fun p hp => ?_⟩ ?_ ?_
    · by_cases hpi : p = i
      · rw [if_pos hpi, hpi, hP.2 i hi, if_neg (by omega)]
        simp [unitRow]
      · rw [if_neg hpi]
    · intro j W _ _ hQ
      have hbody : (if i = j then appendToRow W i (1 : K) else appendToRow W i 0)
          = appendToRow W i (if i = j then 1 else 0) := by
        by_cases h : i = j <;> simp [h]
      rw [hbody, appendToRow_eq _ (by rw [hQ.1]; exact hi)]
      refine ⟨_, rfl, by rw [List.length_set]; exact hQ.1, fun p hp => ?_⟩
      rw [row_set _ p (by rw [hQ.1]; exact hi)]
      by_cases hpi : p = i
      · rw [if_pos hpi, if_pos hpi, hQ.2 i hi, if_pos rfl, unitRow_succ, List.append_assoc]
      · rw [if_neg hpi, if_neg hpi, hQ.2 p hp, if_neg hpi]
    · intro W hQ
      refine ⟨hQ.1, fun p hp => ?_⟩
      rw [hQ.2 p hp]
      by_cases hpi : p = i
      · rw [if_pos hpi, if_pos (by omega), hpi]
      · rw [if_neg hpi, hP.2 p hp]
        by_cases hlt : p < i
        · rw [if_pos hlt, if_pos (by omega)]
        · rw [if_neg hlt, if_neg (by omega)]
  · intro W hP
    refine ⟨⟨hP.1, fun p hp => ?_⟩, fun p q hp hq => ?_⟩
    · rw [hP.2 p hp, if_pos hp, List.length_append, ha.2 p hp, length_unitRow]; omega
    · unfold entry
      rw [hP.2 p hp, if_pos hp, List.getElem?_append, ha.2 p hp]
      by_cases hqn : q < n
      · rw [if_pos hqn, if_pos hqn]
      · rw [if_neg hqn, if_neg hqn]
        have hlt : q - n < n := by omega
        simp only [unitRow, List.getElem?_map, List.getElem?_range hlt, Option.map_some',
          Option.getD_some]
        by_cases h : p = q - n
        · rw [if_pos h, if_pos (by omega)]
        · rw [if_neg h, if_neg (by omega)]

/-- `subtractRow` replaces row `j` by row `j` minus `ratio` times row `i`. -/
theorem subtractRow_spec [Field K] {a : M K} {r c i j : Nat} (ha : IsMat a r c) (hi : i < r)
    (hj : j < r) (hij : i ≠ j) (ratio : K) :
    ∃ R, subtractRow c j i ratio a = Except.ok R ∧ IsMat R r c ∧
      ∀ p q, p < r → q < c →
        entry R p q = if p = j then entry a j q - ratio * entry a i q else entry a p q := by
  unfold subtractRow
  refine forLoop_rule (Nat.zero_le c)
    (fun k R => IsMat R r c ∧ ∀ p q, p < r → q < c → entry R p q =
      if p = j ∧ q < k then entry a j q - ratio * entry a i q else entry a p q)
    ⟨ha, fun p q _ _ => by simp⟩ ?_ ?_
  · intro k R _ hk hP
    rw [isMat_getAt hP.1 hj hk, bind_ok, isMat_getAt hP.1 hi hk, bind_ok,
      isMat_setAt hP.1 _ hj hk]
    refine ⟨_, rfl, isMat_upd hP.1 _ _ _, fun p q hp hq => ?_⟩
    rw [isMat_entry_upd hP.1 _ p q hj hk]
    by_cases hpq : p = j ∧ q = k
    · rw [if_pos hpq, if_pos ⟨hpq.1, by omega⟩, hP.2 j k hj hk, if_neg (by omega),
        hP.2 i k hi hk, if_neg (fun h => hij h.1), hpq.2]
    · rw [if_neg hpq, hP.2 p q hp hq]
      by_cases h : p = j ∧ q < k
      · rw [if_pos h, if_pos ⟨h.1, by omega⟩]
      · rw [if_neg h, if_neg (fun h' => by omega)]
  · intro R hP
    refine ⟨hP.1, fun p q hp hq => ?_⟩
    rw [hP.2 p q hp hq]
    by_cases hpj : p = j
    · rw [if_pos ⟨hpj, hq⟩, if_pos hpj]
    · rw [if_neg (fun h => hpj h.1), if_neg hpj]

/-- A Gauss-Jordan pivot step on a nonzero pivot clears column `i` of every
other row. -/
theorem invPivotStep_spec [Field K] [DecidableEq K] {a : M K} {n i : Nat}
    (ha : IsMat a n (2 * n)) (hi : i < n) (hpiv : entry a i i ≠ 0) :
    ∃ R, invPivotStep n i a = Except.ok R ∧ IsMat R n (2 * n) ∧
      ∀ p q, p < n → q < 2 * n →
        entry R p q = if p = i then entry a p q
          else entry a p q - entry a p i / entry a i i * entry a i q := by
  unfold invPivotStep
  have hi2 : i < 2 * n := by omega
  rw [isMat_getAt ha hi hi2, bind_ok, if_neg hpiv]
  simp only [pure_eq_ok, bind_ok]
  refine forLoop_rule (Nat.zero_le n)
    (fun j R => IsMat R n (2 * n) ∧ ∀ p q, p < n → q < 2 * n → entry R p q =
      if p ≠ i ∧ p < j then entry a p q - entry a p i / entry a i i * entry a i q
      else entry a p q)
    ⟨ha, fun p q _ _ => by simp⟩ ?_ ?_
  · intro j R _ hj hP
    by_cases hij : i = j
    · rw [if_neg (by simp [hij])]
      refine ⟨R, rfl, hP.1, fun p q hp hq => ?_⟩
      rw [hP.2 p q hp hq]
      by_cases h : p ≠ i ∧ p < j
      · rw [if_pos h, if_pos ⟨h.1, by omega⟩]
      · rw [if_neg h, if_neg (fun h' => h ⟨h'.1, by omega⟩)]
    · rw [if_pos hij, isMat_getAt hP.1 hj hi2, bind_ok, isMat_getAt hP.1 hi hi2, bind_ok]
      obtain ⟨R', hR', hM, hE⟩ := subtractRow_spec hP.1 hi hj hij (entry R j i / entry R i i)
      refine ⟨R', hR', hM, fun p q hp hq => ?_⟩
      rw [hE p q hp hq]
      have e1 : ∀ q, q < 2 * n → entry R j q = entry a j q := fun q hq => by
        rw [hP.2 j q hj hq, if_neg (by omega)]
      have e2 : ∀ q, q < 2 * n → entry R i q = entry a i q := fun q hq => by
        rw [hP.2 i q hi hq, if_neg (fun h => h.1 rfl)]
      by_cases hpj : p = j
      · have hpi : p ≠ i := fun h => hij (h.symm.trans hpj)
        rw [if_pos hpj, if_pos ⟨hpi, by omega⟩, e1 q hq, e1 i hi2, e2 q hq, e2 i hi2, hpj]
      · rw [if_neg hpj, hP.2 p q hp hq]
        by_cases h : p ≠ i ∧ p < j
        · rw [if_pos h, if_pos ⟨h.1, by omega⟩]
        · rw [if_neg h, if_neg (fun h' => h ⟨h'.1, by omega⟩)]
  · intro R hP
    refine ⟨hP.1, fun p q hp hq => ?_⟩
    rw [hP.2 p q hp hq]
    by_cases hpi : p = i
    · rw [if_neg (fun h => h.1 hpi), if_pos hpi]
    · rw [if_pos ⟨hpi, hp⟩, if_neg hpi]

/-- A Gauss-Jordan pivot step on a zero pivot panics. -/
theorem invPivotStep_zero [Field K] [DecidableEq K] {a : M K} {n i : Nat}
    (h : getAt a i i = Except.ok 0) : invPivotStep n i a = Except.error Err.zeroPivot := by
  unfold invPivotStep
  rw [h, bind_ok, if_pos rfl]
  rfl

/-- `invNormalise` divides the right half of every row by its diagonal entry. -/
theorem invNormalise_spec [Field K] {a : M K} {n : Nat} (ha : IsMat a n (2 * n)) :
    ∃ R, invNormalise n a = Except.ok R ∧ IsMat R n (2 * n) ∧
      ∀ p q, p < n → q < 2 * n →
        entry R p q = if n ≤ q then entry a p q / entry a p p else entry a p q := by
  unfold invNormalise
  refine forLoop_rule (Nat.zero_le n)
    (fun i R => IsMat R n (2 * n) ∧ ∀ p q, p < n → q < 2 * n → entry R p q =
      if p < i ∧ n ≤ q then entry a p q / entry a p p else entry a p q)
    ⟨ha, fun p q _ _ => by simp⟩ ?_ ?_
  · intro i R0 _ hi hP
    refine forLoop_rule (by omega : n ≤ 2 * n)
      (fun j R => IsMat R n (2 * n) ∧ ∀ p q, p < n → q < 2 * n → entry R p q =
        if p = i ∧ n ≤ q ∧ q < j then entry a p q / entry a p p else entry R0 p q)
      ⟨hP.1, fun p q _ _ => by rw [if_neg (by omega)]⟩ ?_ ?_
    · intro j R hnj hj hQ
      rw [isMat_getAt hQ.1 hi hj, bind_ok, isMat_getAt hQ.1 hi (by omega : i < 2 * n), bind_ok,
        isMat_setAt hQ.1 _ hi hj]
      refine ⟨_, rfl, isMat_upd hQ.1 _ _ _, fun p q hp hq => ?_⟩
      rw [isMat_entry_upd hQ.1 _ p q hi hj]
      by_cases hpq : p = i ∧ q = j
      · rw [if_pos hpq, if_pos ⟨hpq.1, by omega, by omega⟩, hQ.2 i j hi hj, if_neg (by omega),
          hQ.2 i i hi (by omega), if_neg (by omega), hP.2 i j hi hj, if_neg (by omega),
          hP.2 i i hi (by omega), if_neg (by omega), hpq.1, hpq.2]
      · rw [if_neg hpq, hQ.2 p q hp hq]
        by_cases h : p = i ∧ n ≤ q ∧ q < j
        · rw [if_pos h, if_pos ⟨h.1, h.2.1, by omega⟩]
        · rw [if_neg h, if_neg (fun h' => by omega)]
    · intro R hQ
      refine ⟨hQ.1, fun p q hp hq => ?_⟩
      rw [hQ.2 p q hp hq]
      by_cases h : p = i ∧ n ≤ q
      · rw [if_pos ⟨h.1, h.2, hq⟩, if_pos ⟨by omega, h.2⟩]
      · rw [if_neg (fun h' => h ⟨h'.1, h'.2.1⟩), hP.2 p q hp hq]
        by_cases h2 : p < i ∧ n ≤ q
        · rw [if_pos h2, if_pos ⟨by omega, h2.2⟩]
        · rw [if_neg h2, if_neg (fun h' => by omega)]
  · intro R hP
    refine ⟨hP.1, fun p q hp hq => ?_⟩
    rw [hP.2 p q hp hq]
    by_cases h : n ≤ q
    · rw [if_pos ⟨hp, h⟩, if_pos h]
    · rw [if_neg (fun h' => h h'.2), if_neg h]

/-- `invSlice` keeps the right half of every row. -/
theorem invSlice_spec [Zero K] {a : M K} {n : Nat} (ha : IsMat a n (2 * n)) :
    ∃ R, invSlice n a = Except.ok R ∧ IsMat R n n ∧
      ∀ p q, p < n → q < n → entry R p q = entry a p (n + q) := by
  unfold invSlice
  refine forLoop_rule (Nat.zero_le n)
    (fun i R => R.length = n ∧ ∀ p, p < n →
      row R p = if p < i then (row a p).drop n else row a p)
    ⟨ha.1, fun p _ => by simp⟩ ?_ ?_
  · intro i R _ hi hP
    have hlen : i < R.length := by rw [hP.1]; exact hi
    have hrow : row R i = row a i := by rw [hP.2 i hi, if_neg (by omega)]
    rw [sliceRow_eq hlen (by rw [hrow, ha.2 i hi]; omega)]
    refine ⟨_, rfl, by rw [List.length_set]; exact hP.1, fun p hp => ?_⟩
    rw [row_set _ p hlen]
    by_cases hpi : p = i
    · rw [if_pos hpi, if_pos (by omega), hrow, hpi]
    · rw [if_neg hpi, hP.2 p hp]
      by_cases hlt : p < i
      · rw [if_pos hlt, if_pos (by omega)]
      · rw [if_neg hlt, if_neg (by omega)]
  · intro R hP
    refine ⟨⟨hP.1, fun p hp => ?_⟩, fun p q hp _ => ?_⟩
    · rw [hP.2 p hp, if_pos hp, List.length_drop, ha.2 p hp]; omega
    · unfold entry
      rw [hP.2 p hp, if_pos hp, List.getElem?_drop]

end InvPhases

/-! ## Gauss-Jordan elimination -/

section GaussJordan

variable {K : Type} [Field K] [DecidableEq K]

/-- What the elimination loop of `Inv` has established when it returns: the left
half is the right half times `A`, it is diagonal, and its diagonal is nonzero. -/
theorem invEliminate_partial {A W0 Wf : M K} {n : Nat} (hW0 : IsMat W0 n (2 * n))
    (hW0e : ∀ p q, p < n → q < 2 * n →
      entry W0 p q = if q < n then entry A p q else if n + p = q then 1 else 0)
    (hrun : forLoop 0 n (invPivotStep n) W0 = Except.ok Wf) :
    IsMat Wf n (2 * n) ∧
      (∀ p c, p < n → c < n →
        entry Wf p c = ∑ m in Finset.range n, entry Wf p (n + m) * entry A m c) ∧
      (∀ p c, p < n → c < n → p ≠ c → entry Wf p c = 0) ∧
      (∀ c, c < n → entry Wf c c ≠ 0) := by
  have key := forLoop_partial (Nat.zero_le n)
    (fun i W => IsMat W n (2 * n) ∧
      (∀ p c, p < n → c < n →
        entry W p c = ∑ m in Finset.range n, entry W p (n + m) * entry A m c) ∧
      (∀ p c, p < n → c < i → p ≠ c → entry W p c = 0) ∧
      (∀ c, c < i → entry W c c ≠ 0)) (s := W0) ?_ ?_ hrun
  · obtain ⟨h1, h2, h3, h4⟩ := key
    exact ⟨h1, h2, fun p c hp hc hne => h3 p c hp hc hne, h4⟩
  · refine ⟨hW0, fun p c hp hc => ?_, fun p c _ hc _ => absurd hc (Nat.not_lt_zero c),
      fun c hc => absurd hc (Nat.not_lt_zero c)⟩
    rw [hW0e p c hp (by omega), if_pos hc]
    rw [Finset.sum_eq_single_of_mem p (Finset.mem_range.mpr hp)]
    · rw [hW0e p (n + p) hp (by omega), if_neg (by omega), if_pos rfl, one_mul]
    · intro m hm hne
      rw [hW0e p (n + m) hp (by have := Finset.mem_range.mp hm; omega), if_neg (by omega),
        if_neg (by omega), zero_mul]
  · intro i W W' _ hi hP hstep
    obtain ⟨hM, hBC, hZ, hD⟩ := hP
    have hi2 : i < 2 * n := by omega
    have hpiv : entry W i i ≠ 0 := by
      intro h0
      have hg : getAt W i i = Except.ok 0 := by rw [isMat_getAt hM hi hi2, h0]
      rw [invPivotStep_zero hg] at hstep
      cases hstep
    obtain ⟨R, hR, hRM, hRE⟩ := invPivotStep_spec hM hi hpiv
    rw [hR] at hstep
    cases hstep
    refine ⟨hRM, fun p c hp hc => ?_, fun p c hp hc hne => ?_, fun c hc => ?_⟩
    · rw [hRE p c hp (by omega)]
      by_cases hpi : p = i
      · rw [if_pos hpi, hBC p c hp hc]
        apply Finset.sum_congr rfl
        intro m hm
        rw [hRE p (n + m) hp (by have := Finset.mem_range.mp hm; omega), if_pos hpi]
      · rw [if_neg hpi, hBC p c hp hc, hBC i c hi hc, Finset.mul_sum, ← Finset.sum_sub_distrib]
        apply Finset.sum_congr rfl
        intro m hm
        rw [hRE p (n + m) hp (by have := Finset.mem_range.mp hm; omega), if_neg hpi]
        ring
    · have hc2 : c < 2 * n := by omega
      rw [hRE p c hp hc2]
      by_cases hci : c = i
      · subst hci
        rw [if_neg hne]
        field_simp
      · have hclt : c < i := by omega
        by_cases hpi : p = i
        · rw [if_pos hpi]
          exact hZ p c hp hclt hne
        · rw [if_neg hpi, hZ p c hp hclt hne, hZ i c hi hclt (fun h => hci h.symm)]
          ring
    · have hcn : c < n := by omega
      rw [hRE c c hcn (by omega)]
      by_cases hci : c = i
      · rw [if_pos hci, hci]
        exact hpiv
      · have hclt : c < i := by omega
        rw [if_neg hci, hZ i c hi hclt (fun h => hci h.symm), mul_zero, sub_zero]
        exact hD c hclt

/-- Whenever `Inv` returns on a square matrix with at least two rows, the
result is a left inverse of the input. -/
theorem Inv_left_inverse {A R : M K} {n : Nat} (hn : 2 ≤ n) (hA : IsMat A n n)
    (hrun : Inv A = Except.ok R) :
    IsMat R n n ∧ ∀ p c, p < n → c < n →
      ∑ m in Finset.range n, entry R p m * entry A m c = if p = c then 1 else 0 := by
  obtain ⟨W0, hW0, hW0M, hW0E⟩ := invAugment_spec hA
  unfold Inv at hrun
  rw [getDimensions_eq hA (by omega), bind_ok] at hrun
  simp only [hA.1] at hrun
  rw [if_neg (by omega), if_neg (by simp)] at hrun
  simp only [pure_eq_ok, bind_ok] at hrun
  rw [hW0, bind_ok] at hrun
  cases hel : forLoop 0 n (invPivotStep n) W0 with
  | error e => rw [hel] at hrun; cases hrun
  | ok Wf =>
    rw [hel, bind_ok] at hrun
    obtain ⟨hWfM, hBC, hZ, hD⟩ := invEliminate_partial hW0M hW0E hel
    obtain ⟨W2, hW2, hW2M, hW2E⟩ := invNormalise_spec hWfM
    rw [hW2, bind_ok] at hrun
    obtain ⟨R', hR', hR'M, hR'E⟩ := invSlice_spec hW2M
    rw [hR'] at hrun
    cases hrun
    refine ⟨hR'M, fun p c hp hc => ?_⟩
    have e : ∀ m, m ∈ Finset.range n →
        entry R p m * entry A m c = entry Wf p (n + m) * entry A m c / entry Wf p p := by
      intro m hm
      have hm' := Finset.mem_range.mp hm
      rw [hR'E p m hp hm', hW2E p (n + m) hp (by omega), if_pos (by omega)]
      ring
    rw [Finset.sum_congr rfl e, ← Finset.sum_div, ← hBC p c hp hc]
    by_cases hpc : p = c
    · rw [if_pos hpc, ← hpc]
      exact div_self (hD p hp)
    · rw [if_neg hpc, hZ p c hp hc hpc, zero_div]

end GaussJordan

/-! ## Claims about `Inv` and the pivot checks -/

section InvClaims

variable {K : Type} [Field K] [DecidableEq K]

/-- On rows that own their memory: for every square `n`×`n` matrix `A` with
`n ≥ 2`, over a field (exact arithmetic), whenever `Inv A` returns `R`, the
product `A × R` computed by `X` on the original `A` is the `n`×`n` identity
matrix. -/
theorem inv_right_inverse (n : Nat) (hn : 2 ≤ n) (A R : M K) (hA : IsMat A n n)
    (hrun : Inv A = Except.ok R) : X A R = Except.ok (identity n) := by
  obtain ⟨hR, hleft⟩ := Inv_left_inverse hn hA hrun
  obtain ⟨P, hP, hPM, hPE⟩ := X_spec hA hR (by omega) (by omega) (by omega)
  rw [hP]
  congr 1
  apply isMat_ext hPM (isMat_identity n)
  intro i j hi hj
  rw [hPE i j hi hj, entry_identity hi hj]
  let MA : Matrix (Fin n) (Fin n) K := fun p q => entry A p q
  let MR : Matrix (Fin n) (Fin n) K := fun p q => entry R p q
  have hRA : MR * MA = 1 := by
    ext p q
    rw [Matrix.mul_apply, Matrix.one_apply]
    have := hleft p q p.isLt q.isLt
    rw [Finset.sum_range] at this
    rw [show (∑ m : Fin n, MR p m * MA m q) = ∑ m : Fin n, entry R p m * entry A m q from rfl,
      this]
    simp [Fin.ext_iff]
  have hAR : MA * MR = 1 := Matrix.mul_eq_one_comm.mp hRA
  have h := congrFun (congrFun hAR ⟨i, hi⟩) ⟨j, hj⟩
  rw [Matrix.mul_apply, Matrix.one_apply] at h
  rw [Finset.sum_range]
  rw [show (∑ m : Fin n, entry A i m * entry R m j) = ∑ m : Fin n, MA ⟨i, hi⟩ m * MR m ⟨j, hj⟩
    from rfl, h]
  simp [Fin.ext_iff]

theorem inv_right_inverse_witness :
    X ([[1, 2], [3, 4]] : M ℚ) [[-2, 1], [3 / 2, -1 / 2]] = Except.ok (identity 2) :=
  inv_right_inverse 2 (by decide) [[1, 2], [3, 4]] [[-2, 1], [3 / 2, -1 / 2]] (by decide)
    (by decide!)

/-- A pivot step of `LU` on a zero pivot panics. -/
theorem luPivotStep_zero {n i : Nat} {st : M K × M K} (h : getAt st.1 i i = Except.ok 0) :
    luPivotStep n n i st = Except.error Err.zeroPivot := by
  obtain ⟨A, L⟩ := st
  unfold luPivotStep
  simp only at h ⊢
  rw [h, bind_ok, if_pos rfl]
  rfl

end InvClaims

/-! ## The steps of `CholeskyDecomposition` -/

section CholeskySteps

variable {K : Type} [LinearOrderedField K]

/-- The accumulation loops of `CholeskyDecomposition` compute a partial dot
product of two rows of `u`. -/
theorem dotLoop_spec {u : M K} {n i j m : Nat} (hu : IsMat u n n) (hi : i < n) (hj : j < n)
    (hm : m ≤ n) (s0 : K) :
    forLoop 0 m (fun k sum => do
        pure (sum + (← getAt u i k) * (← getAt u j k))) s0
      = Except.ok (s0 + ∑ k in Finset.range m, entry u i k * entry u j k) := by
  have h : ∃ s, forLoop 0 m (fun k sum => do
        pure (sum + (← getAt u i k) * (← getAt u j k))) s0 = Except.ok s ∧
      s = s0 + ∑ t in Finset.range m, entry u i t * entry u j t := by
    refine forLoop_rule (Nat.zero_le m)
      (fun k (s : K) => s = s0 + ∑ t in Finset.range k, entry u i t * entry u j t)
      (by simp) ?_ (fun t h => h)
    intro k t _ hk hP
    dsimp only
    rw [isMat_getAt hu hi (by omega), bind_ok, isMat_getAt hu hj (by omega), bind_ok]
    refine ⟨_, rfl, ?_⟩
    rw [hP, Finset.sum_range_succ, add_assoc]
  obtain ⟨s, hs, hP⟩ := h
  rw [hs, hP]

/-- The diagonal step of `CholeskyDecomposition`, as a function of the entries. -/
theorem choleskyStep_diag {a u : M K} {n j : Nat} (root : K → K) (ha : IsMat a n n)
    (hu : IsMat u n n) (hj : j < n) :
    choleskyStep root a j j u =
      if entry a j j - ∑ k in Finset.range j, entry u j k * entry u j k < 0
      then Except.error Err.nanDetected
      else Except.ok (upd u j j
        (root (entry a j j - ∑ k in Finset.range j, entry u j k * entry u j k))) := by
  unfold choleskyStep
  rw [if_pos rfl, dotLoop_spec hu hj hj (by omega), bind_ok, isMat_getAt ha hj hj, bind_ok]
  unfold mathSqrt
  rw [zero_add]
  by_cases h : entry a j j - ∑ k in Finset.range j, entry u j k * entry u j k < 0
  · rw [if_pos h, if_pos h]; rfl
  · rw [if_neg h, if_neg h]
    exact isMat_setAt hu _ hj hj

/-- The off-diagonal step of `CholeskyDecomposition`, as a function of the
entries. -/
theorem choleskyStep_offdiag {a u : M K} {n i j : Nat} (root : K → K) (ha : IsMat a n n)
    (hu : IsMat u n n) (hi : i < n) (hji : j < i) :
    choleskyStep root a i j u =
      if entry u j j > 0
      then Except.ok (upd u i j
        ((entry a i j - ∑ k in Finset.range j, entry u i k * entry u j k) / entry u j j))
      else Except.ok u := by
  have hj : j < n := by omega
  unfold choleskyStep
  rw [if_neg (by omega), dotLoop_spec hu hi hj (by omega), bind_ok, isMat_getAt hu hj hj,
    bind_ok, zero_add]
  by_cases h : entry u j j > 0
  · rw [if_pos h, if_pos h, isMat_getAt ha hi hj, bind_ok, bind_ok]
    exact isMat_setAt hu _ hi hj
  · rw [if_neg h, if_neg h]; rfl

/-- Every step of `CholeskyDecomposition` that returns leaves `u` as it is or
writes the single entry `(i, j)`. -/
theorem choleskyStep_writes {a u u' : M K} {n i j : Nat} (root : K → K) (ha : IsMat a n n)
    (hu : IsMat u n n) (hi : i < n) (hji : j ≤ i)
    (h : choleskyStep root a i j u = Except.ok u') : u' = u ∨ ∃ v, u' = upd u i j v := by
  by_cases hij : j = i
  · subst hij
    rw [choleskyStep_diag root ha hu hi] at h
    split at h
    · cases h
    · cases h; exact Or.inr ⟨_, rfl⟩
  · rw [choleskyStep_offdiag root ha hu hi (by omega)] at h
    split at h
    · cases h; exact Or.inr ⟨_, rfl⟩
    · cases h; exact Or.inl rfl

end CholeskySteps

/-! ## The invariant of `CholeskyDecomposition` -/

section CholeskyInvariant

variable {K : Type} [LinearOrderedField K]

/-- Writing an entry `(i, j)` that completes the product for `(i, j)` keeps the
invariant. -/
theorem cholInv_step {n i j : Nat} {A u : M K} {v : K} (h : CholInv n A i j u) (hi : i < n)
    (hji : j ≤ i)
    (hv : ∑ k in Finset.range j, entry u i k * entry u j k
        + v * (if j = i then v else entry u j j) = entry A i j) :
    CholInv n A i (j + 1) (upd u i j v) := by
  obtain ⟨hM, hZ, hS, hD⟩ := h
  have hj : j < n := by omega
  have hE : ∀ p q, entry (upd u i j v) p q = if p = i ∧ q = j then v else entry u p q :=
    fun p q => isMat_entry_upd hM v p q hi hj
  refine ⟨isMat_upd hM _ _ _, fun p q hp hq hnp => ?_, fun p q hp hpr => ?_,
    fun q hqi _ => ?_⟩
  · have hne : ¬ (p = i ∧ q = j) := by
      rintro ⟨rfl, rfl⟩
      exact hnp ⟨hji, Or.inr ⟨rfl, Nat.lt_succ_self _⟩⟩
    rw [hE, if_neg hne]
    apply hZ p q hp hq
    intro hpr
    apply hnp
    obtain ⟨h1, h2⟩ := hpr
    exact ⟨h1, h2.imp id (fun h3 => ⟨h3.1, by omega⟩)⟩
  · by_cases hpq : p = i ∧ q = j
    · obtain ⟨rfl, rfl⟩ := hpq
      rw [Finset.sum_range_succ, ← hv]
      congr 1
      · apply Finset.sum_congr rfl
        intro k hk
        have hk' := Finset.mem_range.mp hk
        rw [hE, hE, if_neg (by omega), if_neg (by omega)]
      · rw [hE, hE, if_pos ⟨rfl, rfl⟩]
        by_cases hqp : q = p
        · rw [if_pos ⟨hqp, rfl⟩, if_pos hqp]
        · rw [if_neg (fun h => hqp h.1), if_neg hqp]
    · have hpr' : processed i j p q := by
        obtain ⟨h1, h2⟩ := hpr
        refine ⟨h1, ?_⟩
        rcases h2 with h2 | ⟨h2, h3⟩
        · exact Or.inl h2
        · exact Or.inr ⟨h2, by omega⟩
      rw [← hS p q hp hpr']
      apply Finset.sum_congr rfl
      intro k hk
      have hk' := Finset.mem_range.mp hk
      obtain ⟨h1, h2⟩ := hpr'
      rw [hE, hE, if_neg (by omega), if_neg (by omega)]
  · rw [hE, if_neg (by omega)]
    exact hD q hqi (by omega)

/-- Once row `i` is complete with a positive diagonal entry, the invariant
holds at the start of row `i + 1`. -/
theorem cholInv_next_row {n i : Nat} {A u : M K} (h : CholInv n A i (i + 1) u)
    (hpos : 0 < entry u i i) : CholInv n A (i + 1) 0 u := by
  obtain ⟨hM, hZ, hS, hD⟩ := h
  have hiff : ∀ p q, processed (i + 1) 0 p q ↔ processed i (i + 1) p q := by
    intro p q
    unfold processed
    constructor
    · rintro ⟨h1, h2⟩
      exact ⟨h1, by omega⟩
    · rintro ⟨h1, h2⟩
      exact ⟨h1, by omega⟩
  refine ⟨hM, fun p q hp hq hnp => hZ p q hp hq (fun h => hnp ((hiff p q).mpr h)),
    fun p q hp hpr => hS p q hp ((hiff p q).mp hpr), fun q hq hqn => ?_⟩
  by_cases hqi : q = i
  · rw [hqi]; exact hpos
  · exact hD q (by omega) hqn

end CholeskyInvariant

section PositiveDefinite

/-- The quadratic form of a partially factored matrix at a vector orthogonal to
the columns of the factor. -/
theorem quad_form_eq {K : Type} [Field K] (i : Nat) (x : Nat → K) (L A : Nat → Nat → K) (r : K)
    (hA : ∀ p q, p ≤ i → q ≤ i → ¬ (p = i ∧ q = i) →
      A p q = ∑ k in Finset.range i, L p k * L q k)
    (hAii : A i i = r + ∑ k in Finset.range i, L i k * L i k)
    (hx : ∀ k, k < i → ∑ p in Finset.range (i + 1), x p * L p k = 0) (hxi : x i = 1) :
    ∑ p in Finset.range (i + 1), ∑ q in Finset.range (i + 1), x p * A p q * x q = r := by
  have h1 : ∀ p, p ∈ Finset.range (i + 1) → ∀ q, q ∈ Finset.range (i + 1) →
      x p * A p q * x q = (∑ k in Finset.range i, (x p * L p k) * (x q * L q k))
        + (if p = i then (if q = i then r else 0) else 0) := by
    intro p hp q hq
    have hp' : p ≤ i := by have := Finset.mem_range.mp hp; omega
    have hq' : q ≤ i := by have := Finset.mem_range.mp hq; omega
    by_cases hpq : p = i ∧ q = i
    · obtain ⟨rfl, rfl⟩ := hpq
      rw [if_pos rfl, if_pos rfl, hAii, hxi]
      simp only [one_mul, mul_one]
      ring
    · rw [hA p q hp' hq' hpq]
      have : (if p = i then (if q = i then r else 0) else 0) = 0 := by
        by_cases h1 : p = i
        · rw [if_pos h1, if_neg (fun h2 => hpq ⟨h1, h2⟩)]
        · rw [if_neg h1]
      rw [this, add_zero, Finset.mul_sum, Finset.sum_mul]
      apply Finset.sum_congr rfl
      intro k _
      ring
  have h2 : ∑ p in Finset.range (i + 1), ∑ q in Finset.range (i + 1), x p * A p q * x q
      = ∑ p in Finset.range (i + 1), ∑ q in Finset.range (i + 1),
          ((∑ k in Finset.range i, (x p * L p k) * (x q * L q k))
            + (if p = i then (if q = i then r else 0) else 0)) :=
    Finset.sum_congr rfl (fun p hp => Finset.sum_congr rfl (fun q hq => h1 p hp q hq))
  rw [h2]
  simp only [Finset.sum_add_distrib]
  have h3 : ∑ p in Finset.range (i + 1), ∑ q in Finset.range (i + 1),
      ∑ k in Finset.range i, (x p * L p k) * (x q * L q k) = 0 := by
    have e : ∀ p, p ∈ Finset.range (i + 1) →
        ∑ q in Finset.range (i + 1), ∑ k in Finset.range i, (x p * L p k) * (x q * L q k) = 0 := by
      intro p _
      rw [Finset.sum_comm]
      apply Finset.sum_eq_zero
      intro k hk
      rw [← Finset.mul_sum, hx k (Finset.mem_range.mp hk), mul_zero]
    exact Finset.sum_eq_zero e
  rw [h3, zero_add]
  simp


/-- A triangular system with nonzero diagonal has a solution. -/
theorem tri_solve {K : Type} [Field K] (i : Nat) (L : Nat → Nat → K)
    (hlow : ∀ p k, p < k → k < i → L p k = 0) (hdiag : ∀ p, p < i → L p p ≠ 0)
    (c : Nat → K) :
    ∃ y : Nat → K, ∀ k, k < i → ∑ p in Finset.range i, y p * L p k = c k := by
  let Mx : Matrix (Fin i) (Fin i) K := Matrix.of (fun p k => L p k)
  have htri : Mx.BlockTriangular OrderDual.toDual := by
    intro p k hpk
    have : (p : Nat) < k := by
      have := OrderDual.toDual_lt_toDual.mp hpk
      exact this
    exact hlow p k this k.isLt
  have hdet : Mx.det ≠ 0 := by
    rw [Matrix.det_of_lowerTriangular Mx htri]
    exact Finset.prod_ne_zero_iff.mpr (fun p _ => hdiag p p.isLt)
  have hunit : IsUnit Mx.det := isUnit_iff_ne_zero.mpr hdet
  let cf : Fin i → K := fun k => c k
  let y0 : Fin i → K := Matrix.vecMul cf Mx⁻¹
  have hy0 : Matrix.vecMul y0 Mx = cf := by
    show Matrix.vecMul (Matrix.vecMul cf Mx⁻¹) Mx = _
    rw [Matrix.vecMul_vecMul, Matrix.nonsing_inv_mul Mx hunit, Matrix.vecMul_one]
  refine ⟨fun p => if h : p < i then y0 ⟨p, h⟩ else 0, fun k hk => ?_⟩
  have := congrFun hy0 ⟨k, hk⟩
  simp only [Matrix.vecMul, Matrix.dotProduct] at this
  rw [Finset.sum_range]
  rw [show c k = cf ⟨k, hk⟩ from rfl, ← this]
  apply Finset.sum_congr rfl
  intro p _
  simp [Mx]


variable {K : Type} [LinearOrderedField K]

/-- On a symmetric positive-definite input the radicand of a diagonal step is
positive. -/
theorem chol_radicand_pos {n i : Nat} {A u : M K} (h : CholInv n A i i u) (hi : i < n)
    (hsym : IsSymm n A) (hpd : IsPosDef n A) :
    0 < entry A i i - ∑ k in Finset.range i, entry u i k * entry u i k := by
  obtain ⟨hM, hZ, hS, hD⟩ := h
  have hlow : ∀ p k, p < k → k < n → entry u p k = 0 := fun p k hpk hk =>
    hZ p k (by omega) hk (fun hpr => by have := hpr.1; omega)
  have hLL1 : ∀ p q, q ≤ p → p ≤ i → q < i →
      entry A p q = ∑ k in Finset.range i, entry u p k * entry u q k := by
    intro p q hqp hpi hqi
    rw [← hS p q (by omega) ⟨hqp, by omega⟩]
    apply Finset.sum_subset (Finset.range_mono (by omega))
    intro k hk hnk
    have hk1 := Finset.mem_range.mp hk
    have hk2 : ¬ k < q + 1 := fun h => hnk (Finset.mem_range.mpr h)
    rw [hlow q k (by omega) (by omega), mul_zero]
  have hLL : ∀ p q, p ≤ i → q ≤ i → ¬ (p = i ∧ q = i) →
      entry A p q = ∑ k in Finset.range i, entry u p k * entry u q k := by
    intro p q hp hq hne
    by_cases hqp : q ≤ p
    · exact hLL1 p q hqp hp (by omega)
    · rw [hsym p q (by omega) (by omega), hLL1 q p (by omega) hq (by omega)]
      exact Finset.sum_congr rfl (fun k _ => mul_comm _ _)
  obtain ⟨y, hy⟩ := tri_solve i (fun p k => entry u p k)
    (fun p k hpk hk => hlow p k hpk (by omega))
    (fun p hp => ne_of_gt (hD p hp (by omega))) (fun k => - entry u i k)
  let x : Nat → K := fun p => if p < i then y p else if p = i then 1 else 0
  have hxi : x i = 1 := by simp [x]
  have hxlt : ∀ p, p < i → x p = y p := fun p hp => by simp [x, hp]
  have hxgt : ∀ p, i < p → x p = 0 := fun p hp => by
    have h1 : ¬ p < i := by omega
    have h2 : ¬ p = i := by omega
    simp [x, h1, h2]
  have hx : ∀ k, k < i → ∑ p in Finset.range (i + 1), x p * entry u p k = 0 := by
    intro k hk
    rw [Finset.sum_range_succ, hxi, one_mul,
      Finset.sum_congr rfl (fun p hp => by rw [hxlt p (Finset.mem_range.mp hp)]), hy k hk]
    exact neg_add_cancel _
  have hq := quad_form_eq i x (fun p k => entry u p k) (fun p q => entry A p q)
    (entry A i i - ∑ k in Finset.range i, entry u i k * entry u i k) hLL (by ring) hx hxi
  have hpd' := hpd x ⟨i, hi, by rw [hxi]; exact one_ne_zero⟩
  have hinner : ∀ p, ∑ q in Finset.range n, x p * entry A p q * x q
      = ∑ q in Finset.range (i + 1), x p * entry A p q * x q := by
    intro p
    symm
    apply Finset.sum_subset (Finset.range_mono (by omega))
    intro q _ hnq
    have : i < q := by
      by_contra hc
      exact hnq (Finset.mem_range.mpr (by omega))
    rw [hxgt q this, mul_zero]
  have houter : ∑ p in Finset.range n, ∑ q in Finset.range n, x p * entry A p q * x q
      = ∑ p in Finset.range (i + 1), ∑ q in Finset.range (i + 1), x p * entry A p q * x q := by
    rw [Finset.sum_congr rfl (fun p _ => hinner p)]
    symm
    apply Finset.sum_subset (Finset.range_mono (by omega))
    intro p _ hnp
    have : i < p := by
      by_contra hc
      exact hnp (Finset.mem_range.mpr (by omega))
    apply Finset.sum_eq_zero
    intro q _
    rw [hxgt p this, zero_mul, zero_mul]
  rw [houter, hq] at hpd'
  exact hpd'

end PositiveDefinite

/-! ## `CholeskyDecomposition` on symmetric positive-definite input -/

section CholeskyTotal

variable {K : Type} [LinearOrderedField K]

/-- On a symmetric positive-definite matrix `CholeskyDecomposition` returns, and
the invariant holds of the returned matrix with every row written. -/
theorem cholesky_returns (root : K → K)
    (hroot : ∀ x, 0 ≤ x → 0 ≤ root x ∧ root x * root x = x) {n : Nat} {A : M K}
    (hA : IsMat A n n) (hsym : IsSymm n A) (hpd : IsPosDef n A) :
    ∃ U, CholeskyDecomposition root A = Except.ok U ∧ CholInv n A n 0 U := by
  unfold CholeskyDecomposition
  simp only [hA.1]
  refine forLoop_rule (Nat.zero_le n) (fun i u => CholInv n A i 0 u) ?_ ?_ (fun t h => h)
  · refine ⟨isMat_zeroes n n, fun p q _ _ _ => entry_zeroes n n p q, fun p q _ hpr => ?_,
      fun q hq _ => absurd hq (Nat.not_lt_zero q)⟩
    obtain ⟨_, h2⟩ := hpr
    omega
  · intro i u _ hi hP
    refine forLoop_rule (Nat.zero_le (i + 1))
      (fun j w => (j ≤ i → CholInv n A i j w) ∧ (j = i + 1 → CholInv n A (i + 1) 0 w))
      ⟨fun _ => hP, fun h => by omega⟩ ?_ (fun t h => h.2 rfl)
    intro j w _ hj hQ
    have hInv := hQ.1 (by omega)
    by_cases hji : j = i
    · subst hji
      have hr := chol_radicand_pos hInv hi hsym hpd
      obtain ⟨hr0, hrr⟩ := hroot _ hr.le
      rw [choleskyStep_diag root hA hInv.1 hi, if_neg (not_lt.mpr hr.le)]
      refine ⟨_, rfl, fun h => by omega, fun _ => ?_⟩
      apply cholInv_next_row
      · apply cholInv_step hInv hi (Nat.le_refl j)
        rw [if_pos rfl, hrr]
        ring
      · rw [isMat_entry_upd hInv.1 _ j j hi hi, if_pos ⟨rfl, rfl⟩]
        apply lt_of_le_of_ne hr0
        intro h0
        rw [← h0, mul_zero] at hrr
        exact absurd hrr.symm (ne_of_gt hr)
    · have hd := hInv.2.2.2 j (by omega) (by omega)
      rw [choleskyStep_offdiag root hA hInv.1 hi (by omega), if_pos hd]
      refine ⟨_, rfl, fun _ => ?_, fun h => by omega⟩
      apply cholInv_step hInv hi (by omega)
      rw [if_neg hji, div_mul_cancel₀ _ (ne_of_gt hd)]
      ring

/-- The rows of the returned factor have the entries of `A` as their dot
products, and the factor is zero above the diagonal. -/
theorem cholInv_gram {n : Nat} {A U : M K} (h : CholInv n A n 0 U) (hsym : IsSymm n A) :
    ∀ p q, p < n → q < n →
      ∑ k in Finset.range n, entry U p k * entry U q k = entry A p q := by
  obtain ⟨_, hZ, hS, _⟩ := h
  have hlow : ∀ p k, p < k → k < n → entry U p k = 0 := fun p k hpk hk =>
    hZ p k (by omega) hk (fun hpr => by have := hpr.1; omega)
  have h1 : ∀ p q, q ≤ p → p < n →
      ∑ k in Finset.range n, entry U p k * entry U q k = entry A p q := by
    intro p q hqp hp
    rw [← hS p q hp ⟨hqp, Or.inl hp⟩]
    symm
    apply Finset.sum_subset (Finset.range_mono (by omega))
    intro k hk hnk
    have hk1 := Finset.mem_range.mp hk
    have hk2 : ¬ k < q + 1 := fun h => hnk (Finset.mem_range.mpr h)
    rw [hlow q k (by omega) hk1, mul_zero]
  intro p q hp hq
  by_cases hqp : q ≤ p
  · exact h1 p q hqp hp
  · rw [hsym p q hp hq, ← h1 q p (by omega) hq]
    exact Finset.sum_congr rfl (fun k _ => mul_comm _ _)

/-- The product of a square matrix with the transpose computed by `T`. -/
theorem X_T_spec {n : Nat} {U : M K} (hU : IsMat U n n) (hn : 0 < n) :
    ∃ Ut P, T U = Except.ok Ut ∧ IsMat Ut n n ∧ X U Ut = Except.ok P ∧ IsMat P n n ∧
      (∀ p q, p < n → q < n → entry Ut p q = entry U q p) ∧
      ∀ p q, p < n → q < n →
        entry P p q = ∑ k in Finset.range n, entry U p k * entry U q k := by
  obtain ⟨Ut, hT, hTM, hTE⟩ := T_spec hU hn
  obtain ⟨P, hX, hXM, hXE⟩ := X_spec hU hTM hn hn hn
  refine ⟨Ut, P, hT, hTM, hX, hXM, fun p q hp hq => hTE q p hq hp, fun p q hp hq => ?_⟩
  rw [hXE p q hp hq]
  apply Finset.sum_congr rfl
  intro k hk
  rw [hTE q k hq (Finset.mem_range.mp hk)]

end CholeskyTotal

section RealEval

theorem sqrt_four : Real.sqrt 4 = 2 := by
  rw [show (4 : ℝ) = 2 * 2 by norm_num]
  exact Real.sqrt_mul_self (by norm_num)

theorem sqrt_nine : Real.sqrt 9 = 3 := by
  rw [show (9 : ℝ) = 3 * 3 by norm_num]
  exact Real.sqrt_mul_self (by norm_num)

/-- The factor computed on the matrix of `TestCholeskyDecomposition`, over the
reals. -/
theorem cholesky_test_matrix :
    CholeskyDecomposition Real.sqrt ([[4, 12, -16], [12, 37, -43], [-16, -43, 98]] : M ℝ)
      = Except.ok [[2, 0, 0], [6, 1, 0], [-8, 5, 3]] := by
  norm_num [CholeskyDecomposition, choleskyStep, mathSqrt, forLoop, loopFrom, getAt, setAt,
    zeroes, bind, Except.bind, pure, Except.pure, sqrt_four, sqrt_nine]
  rfl

/-- The products of the factor of the test matrix with its transpose, in the
two orders. -/
theorem test_factor_products :
    T ([[2, 0, 0], [6, 1, 0], [-8, 5, 3]] : M ℝ) = Except.ok [[2, 6, -8], [0, 1, 5], [0, 0, 3]] ∧
      X ([[2, 6, -8], [0, 1, 5], [0, 0, 3]] : M ℝ) [[2, 0, 0], [6, 1, 0], [-8, 5, 3]]
        = Except.ok [[104, -34, -24], [-34, 26, 15], [-24, 15, 9]] := by
  constructor
  · simp [T, rowLen, forLoop, loopFrom, getAt, setAt, zeroes, bind, Except.bind, pure,
      Except.pure, List.replicate]
  · norm_num [X, rowLen, forLoop, loopFrom, getAt, setAt, zeroes, bind, Except.bind, pure,
      Except.pure, List.replicate]

theorem real_sqrt_contract :
    ∀ x : ℝ, 0 ≤ x → 0 ≤ Real.sqrt x ∧ Real.sqrt x * Real.sqrt x = x :=
  fun x hx => ⟨Real.sqrt_nonneg x, Real.mul_self_sqrt hx⟩

theorem test_matrix_isMat :
    IsMat ([[4, 12, -16], [12, 37, -43], [-16, -43, 98]] : M ℝ) 3 3 := by
  refine ⟨rfl, fun i hi => ?_⟩
  interval_cases i <;> rfl

theorem test_matrix_isSymm :
    IsSymm 3 ([[4, 12, -16], [12, 37, -43], [-16, -43, 98]] : M ℝ) := by
  intro i j hi hj
  interval_cases i <;> interval_cases j <;> rfl

theorem test_matrix_isPosDef :
    IsPosDef 3 ([[4, 12, -16], [12, 37, -43], [-16, -43, 98]] : M ℝ) := by
  intro x hx
  have hform : ∑ p in Finset.range 3, ∑ q in Finset.range 3,
      x p * entry ([[4, 12, -16], [12, 37, -43], [-16, -43, 98]] : M ℝ) p q * x q
      = (2 * x 0 + 6 * x 1 - 8 * x 2) ^ 2 + (x 1 + 5 * x 2) ^ 2 + (3 * x 2) ^ 2 := by
    simp only [Finset.sum_range_succ, Finset.sum_range_zero, entry, row]
    simp
    ring
  rw [hform]
  by_cases h2 : x 2 = 0
  · by_cases h1 : x 1 = 0
    · have h0 : x 0 ≠ 0 := by
        obtain ⟨i, hi, hxi⟩ := hx
        interval_cases i
        · exact hxi
        · exact absurd h1 hxi
        · exact absurd h2 hxi
      rw [h1, h2]
      have : 0 < (2 * x 0) ^ 2 := by positivity
      nlinarith
    · rw [h2]
      have : 0 < (x 1) ^ 2 := by positivity
      nlinarith [sq_nonneg (2 * x 0 + 6 * x 1 - 8 * 0)]
  · have : 0 < (3 * x 2) ^ 2 := by positivity
    nlinarith [sq_nonneg (2 * x 0 + 6 * x 1 - 8 * x 2), sq_nonneg (x 1 + 5 * x 2)]

end RealEval

section CholeskyClaims

variable {K : Type} [LinearOrderedField K]

/-- C3: for every symmetric positive-definite `n`×`n` matrix `A`, in exact
arithmetic with a square root function `root`, `CholeskyDecomposition` returns
a matrix `U` with `U × Uᵗ = A`, computed as `U.X(U.T())`. -/
theorem cholesky_reconstructs (root : K → K)
    (hroot : ∀ x, 0 ≤ x → 0 ≤ root x ∧ root x * root x = x) (n : Nat) (hn : 0 < n)
    (A : M K) (hA : IsMat A n n) (hsym : IsSymm n A) (hpd : IsPosDef n A) :
    ∃ U Ut, CholeskyDecomposition root A = Except.ok U ∧ T U = Except.ok Ut ∧
      X U Ut = Except.ok A := by
  obtain ⟨U, hU, hInv⟩ := cholesky_returns root hroot hA hsym hpd
  obtain ⟨Ut, P, hT, _, hX, hPM, _, hPE⟩ := X_T_spec hInv.1 hn
  refine ⟨U, Ut, hU, hT, ?_⟩
  rw [hX]
  congr 1
  apply isMat_ext hPM hA
  intro p q hp hq
  rw [hPE p q hp hq, cholInv_gram hInv hsym p q hp hq]

theorem cholesky_reconstructs_witness :
    ∃ U Ut, CholeskyDecomposition Real.sqrt
        ([[4, 12, -16], [12, 37, -43], [-16, -43, 98]] : M ℝ) = Except.ok U ∧
      T U = Except.ok Ut ∧
      X U Ut = Except.ok [[4, 12, -16], [12, 37, -43], [-16, -43, 98]] :=
  cholesky_reconstructs Real.sqrt real_sqrt_contract 3 (by decide) _ test_matrix_isMat
    test_matrix_isSymm test_matrix_isPosDef

/-- C2, as the spec states it, fails on the matrix of the repository's test, which
is symmetric and positive-definite: the returned `U` is
`[[2,0,0],[6,1,0],[-8,5,3]]` and `Uᵗ × U` is
`[[104,-34,-24],[-34,26,15],[-24,15,9]]`, not the input. -/
theorem cholesky_transpose_first_fails :
    IsSymm 3 ([[4, 12, -16], [12, 37, -43], [-16, -43, 98]] : M ℝ) ∧
      IsPosDef 3 ([[4, 12, -16], [12, 37, -43], [-16, -43, 98]] : M ℝ) ∧
      ¬ ∃ U Ut, CholeskyDecomposition Real.sqrt
          ([[4, 12, -16], [12, 37, -43], [-16, -43, 98]] : M ℝ) = Except.ok U ∧
        T U = Except.ok Ut ∧
        X Ut U = Except.ok [[4, 12, -16], [12, 37, -43], [-16, -43, 98]] := by
  refine ⟨test_matrix_isSymm, test_matrix_isPosDef, ?_⟩
  rintro ⟨U, Ut, hU, hT, hX⟩
  rw [cholesky_test_matrix] at hU
  cases hU
  rw [test_factor_products.1] at hT
  cases hT
  rw [test_factor_products.2] at hX
  have h := congrArg (fun r => r.toOption.map (fun m => entry m 0 0)) hX
  simp [Except.toOption, entry, row] at h

/-- C2, amended: for every symmetric positive-definite `n`×`n` matrix `A`, in
exact arithmetic with a square root function `root`, `CholeskyDecomposition`
returns a matrix `U` whose transpose `R = Uᵗ` satisfies `Rᵗ × R = A` (`T`, then
`T` again, then `X`). -/
theorem cholesky_transpose_reconstructs (root : K → K)
    (hroot : ∀ x, 0 ≤ x → 0 ≤ root x ∧ root x * root x = x) (n : Nat) (hn : 0 < n)
    (A : M K) (hA : IsMat A n n) (hsym : IsSymm n A) (hpd : IsPosDef n A) :
    ∃ U R Rt, CholeskyDecomposition root A = Except.ok U ∧ T U = Except.ok R ∧
      T R = Except.ok Rt ∧ X Rt R = Except.ok A := by
  obtain ⟨U, hU, hInv⟩ := cholesky_returns root hroot hA hsym hpd
  obtain ⟨Ut, P, hT, hTM, hX, hPM, hTE, hPE⟩ := X_T_spec hInv.1 hn
  obtain ⟨Utt, hTT, hTTM, hTTE⟩ := T_spec hTM hn
  have hback : Utt = U := by
    apply isMat_ext hTTM hInv.1
    intro p q hp hq
    rw [hTTE q p hq hp, hTE q p hq hp]
  refine ⟨U, Ut, Utt, hU, hT, hTT, ?_⟩
  rw [hback, hX]
  congr 1
  apply isMat_ext hPM hA
  intro p q hp hq
  rw [hPE p q hp hq, cholInv_gram hInv hsym p q hp hq]

theorem cholesky_transpose_reconstructs_witness :
    ∃ U R Rt, CholeskyDecomposition Real.sqrt
        ([[4, 12, -16], [12, 37, -43], [-16, -43, 98]] : M ℝ) = Except.ok U ∧
      T U = Except.ok R ∧ T R = Except.ok Rt ∧
      X Rt R = Except.ok [[4, 12, -16], [12, 37, -43], [-16, -43, 98]] :=
  cholesky_transpose_reconstructs Real.sqrt real_sqrt_contract 3 (by decide) _
    test_matrix_isMat test_matrix_isSymm test_matrix_isPosDef

/-- C4, as stated, fails on the matrix of the repository's test: the returned
factor has the entry `6` below the diagonal, at `[1][0]`. -/
theorem cholesky_not_upper_triangular :
    ¬ ∀ U, CholeskyDecomposition Real.sqrt
        ([[4, 12, -16], [12, 37, -43], [-16, -43, 98]] : M ℝ) = Except.ok U →
      ∀ i j, j < i → i < 3 → getAt U i j = Except.ok 0 := by
  intro h
  have h10 := h _ cholesky_test_matrix 1 0 (by decide) (by decide)
  have h' := congrArg Except.toOption h10
  simp [getAt, Except.toOption] at h'

/-- C4, amended: for every `n`×`n` matrix `A` on which `CholeskyDecomposition`
returns, the returned factor `U` is lower-triangular: `U[i][j] = 0` for every
`i < j < n`. -/
theorem cholesky_lower_triangular (root : K → K) (n : Nat) (A U : M K) (hA : IsMat A n n)
    (hrun : CholeskyDecomposition root A = Except.ok U) :
    ∀ i j, i < j → j < n → getAt U i j = Except.ok 0 := by
  unfold CholeskyDecomposition at hrun
  simp only [hA.1] at hrun
  have key := forLoop_partial (Nat.zero_le n)
    (fun _ u => IsMat u n n ∧ ∀ p q, p < q → q < n → entry u p q = 0)
    (s := zeroes n n) ⟨isMat_zeroes n n, fun p q _ _ => entry_zeroes n n p q⟩ ?_ hrun
  · intro i j hij hj
    rw [isMat_getAt key.1 (by omega) hj, key.2 i j hij hj]
  · intro i u u' _ hi hP hb
    refine forLoop_partial (Nat.zero_le (i + 1))
      (fun _ u => IsMat u n n ∧ ∀ p q, p < q → q < n → entry u p q = 0) hP ?_ hb
    intro j w w' _ hj hQ hs
    rcases choleskyStep_writes root hA hQ.1 hi (by omega) hs with rfl | ⟨v, rfl⟩
    · exact hQ
    · refine ⟨isMat_upd hQ.1 _ _ _, fun p q hpq hq => ?_⟩
      rw [isMat_entry_upd hQ.1 _ p q hi (by omega), if_neg (by omega)]
      exact hQ.2 p q hpq hq

theorem cholesky_lower_triangular_witness :
    getAt ([[2, 0, 0], [6, 1, 0], [-8, 5, 3]] : M ℝ) 0 1 = Except.ok 0 ∧
      getAt ([[2, 0, 0], [6, 1, 0], [-8, 5, 3]] : M ℝ) 0 2 = Except.ok 0 ∧
      getAt ([[2, 0, 0], [6, 1, 0], [-8, 5, 3]] : M ℝ) 1 2 = Except.ok 0 :=
  ⟨cholesky_lower_triangular Real.sqrt 3 [[4, 12, -16], [12, 37, -43], [-16, -43, 98]]
      [[2, 0, 0], [6, 1, 0], [-8, 5, 3]] test_matrix_isMat cholesky_test_matrix 0 1
      (by decide) (by decide),
    cholesky_lower_triangular Real.sqrt 3 [[4, 12, -16], [12, 37, -43], [-16, -43, 98]]
      [[2, 0, 0], [6, 1, 0], [-8, 5, 3]] test_matrix_isMat cholesky_test_matrix 0 2
      (by decide) (by decide),
    cholesky_lower_triangular Real.sqrt 3 [[4, 12, -16], [12, 37, -43], [-16, -43, 98]]
      [[2, 0, 0], [6, 1, 0], [-8, 5, 3]] test_matrix_isMat cholesky_test_matrix 1 2
      (by decide) (by decide)⟩

end CholeskyClaims

/-! ## More about loops -/

section MoreLoops

variable {σ : Type}

/-- A loop over `[lo, hi)` is the loop over `[lo, mid)` followed by the loop
over `[mid, hi)`. -/
theorem forLoop_split {lo mid hi : Nat} (h1 : lo ≤ mid) (h2 : mid ≤ hi)
    (body : Nat → σ → Except Err σ) (s : σ) :
    forLoop lo hi body s = (forLoop lo mid body s >>= forLoop mid hi body) := by
  have e := loopFrom_add body (mid - lo) (hi - mid) lo s
  rw [show mid - lo + (hi - mid) = hi - lo by omega, show lo + (mid - lo) = mid by omega] at e
  exact e

theorem forLoop_self (lo : Nat) (body : Nat → σ → Except Err σ) (s : σ) :
    forLoop lo lo body s = Except.ok s := by
  simp [forLoop, loopFrom]

theorem forLoop_one (lo : Nat) (body : Nat → σ → Except Err σ) (s : σ) :
    forLoop lo (lo + 1) body s = body lo s := by
  rw [forLoop_eq, show lo + 1 - lo = 0 + 1 by omega]
  cases h : body lo s with
  | error e => rw [loopFrom_succ_error _ h]
  | ok t => rw [loopFrom_succ_ok _ h]; rfl

/-- A loop that panics does so in some round, after the rounds before it have
returned. -/
theorem forLoop_error_first {lo hi : Nat} (hle : lo ≤ hi) {body : Nat → σ → Except Err σ}
    {s : σ} {e : Err} (h : forLoop lo hi body s = Except.error e) :
    ∃ i t, lo ≤ i ∧ i < hi ∧ forLoop lo i body s = Except.ok t ∧
      body i t = Except.error e := by
  induction hi, hle using Nat.le_induction with
  | base => rw [forLoop_self] at h; cases h
  | succ m hm ih =>
    rw [forLoop_split hm (Nat.le_succ m)] at h
    cases hpre : forLoop lo m body s with
    | error e' =>
      rw [hpre, bind_error] at h
      cases h
      obtain ⟨i, t, h1, h2, h3, h4⟩ := ih hpre
      exact ⟨i, t, h1, by omega, h3, h4⟩
    | ok t =>
      rw [hpre, bind_ok] at h
      have h' : forLoop m (m + 1) body t = Except.error e := h
      rw [forLoop_one] at h'
      exact ⟨m, t, hm, Nat.lt_succ_self m, hpre, h'⟩

/-- Two loops whose bodies agree on the states an invariant allows have the
same outcome. -/
theorem forLoop_congr_inv {lo hi : Nat} (hle : lo ≤ hi) {body body' : Nat → σ → Except Err σ}
    (P : Nat → σ → Prop) {s : σ} (h0 : P lo s)
    (hstep : ∀ k t, lo ≤ k → k < hi → P k t →
      body k t = body' k t ∧ ∀ t', body k t = Except.ok t' → P (k + 1) t') :
    forLoop lo hi body s = forLoop lo hi body' s := by
  have key : ∀ (c i : Nat) (t : σ), lo ≤ i → i + c = hi → P i t →
      loopFrom body c i t = loopFrom body' c i t := by
    intro c
    induction c with
    | zero => intro i t _ _ _; rfl
    | succ c ih =>
      intro i t hli hic hP
      obtain ⟨heq, hnext⟩ := hstep i t hli (by omega) hP
      cases hb : body i t with
      | error e =>
        rw [loopFrom_succ_error _ hb, loopFrom_succ_error _ (heq ▸ hb)]
      | ok t' =>
        rw [loopFrom_succ_ok _ hb, loopFrom_succ_ok _ (heq ▸ hb)]
        exact ih (i + 1) t' (by omega) (by omega) (hnext t' hb)
  exact key (hi - lo) lo s (Nat.le_refl lo) (by omega) h0

end MoreLoops

/-! ## Runs of `CholeskyDecomposition` on arbitrary square input -/

section CholeskyRuns

variable {K : Type} [LinearOrderedField K]

theorem choleskyDecomposition_eq (root : K → K) (a : M K) :
    CholeskyDecomposition root a
      = forLoop 0 a.length (choleskyRow root a) (zeroes a.length a.length) := rfl

/-- A step that returns keeps the shape, keeps the unwritten entries zero, and
changes no entry but `(i, j)`. -/
theorem choleskyStep_frame {a u u' : M K} {n i j : Nat} (root : K → K) (ha : IsMat a n n)
    (hu : IsMat u n n) (hi : i < n) (hji : j ≤ i)
    (h : choleskyStep root a i j u = Except.ok u') :
    IsMat u' n n ∧ ∀ p q, ¬ (p = i ∧ q = j) → entry u' p q = entry u p q := by
  rcases choleskyStep_writes root ha hu hi hji h with rfl | ⟨v, rfl⟩
  · exact ⟨hu, fun _ _ _ => rfl⟩
  · refine ⟨isMat_upd hu _ _ _, fun p q hne => ?_⟩
    rw [isMat_entry_upd hu _ p q hi (by omega), if_neg hne]

theorem cholZero_step {a u u' : M K} {n i j : Nat} (root : K → K) (ha : IsMat a n n)
    (hu : CholZero n i j u) (hi : i < n) (hji : j ≤ i)
    (h : choleskyStep root a i j u = Except.ok u') : CholZero n i (j + 1) u' := by
  obtain ⟨hM, hE⟩ := choleskyStep_frame root ha hu.1 hi hji h
  refine ⟨hM, fun p q hp hq hnp => ?_⟩
  have hne : ¬ (p = i ∧ q = j) := by
    rintro ⟨rfl, rfl⟩
    exact hnp ⟨hji, Or.inr ⟨rfl, Nat.lt_succ_self _⟩⟩
  rw [hE p q hne]
  apply hu.2 p q hp hq
  rintro ⟨h1, h2⟩
  exact hnp ⟨h1, h2.imp id (fun h3 => ⟨h3.1, by omega⟩)⟩

/-- The state after the first `j` steps of row `i`. -/
theorem cholZero_row {a u w : M K} {n i j : Nat} (root : K → K) (ha : IsMat a n n)
    (hu : CholZero n i 0 u) (hi : i < n) (hj : j ≤ i + 1)
    (h : forLoop 0 j (choleskyStep root a i) u = Except.ok w) : CholZero n i j w := by
  have key := forLoop_partial (Nat.zero_le j)
    (fun k t => k ≤ i + 1 ∧ CholZero n i k t) (s := u) ⟨by omega, hu⟩ ?_ h
  · exact key.2
  · intro k t t' _ hk hP hs
    exact ⟨by omega, cholZero_step root ha hP.2 hi (by omega) hs⟩

theorem cholZero_next_row {u : M K} {n i : Nat} (h : CholZero n i (i + 1) u) :
    CholZero n (i + 1) 0 u := by
  refine ⟨h.1, fun p q hp hq hnp => h.2 p q hp hq (fun hpr => hnp ?_)⟩
  obtain ⟨h1, h2⟩ := hpr
  exact ⟨h1, by omega⟩

/-- The state after the first `i` rows. -/
theorem cholZero_rows {a t : M K} {n i : Nat} (root : K → K) (ha : IsMat a n n) (hi : i ≤ n)
    (h : forLoop 0 i (choleskyRow root a) (zeroes n n) = Except.ok t) : CholZero n i 0 t := by
  refine forLoop_partial (Nat.zero_le i) (fun k t => CholZero n k 0 t)
    (s := zeroes n n) ⟨isMat_zeroes n n, fun p q _ _ _ => entry_zeroes n n p q⟩ ?_ h
  intro k u u' _ hk hP hs
  exact cholZero_next_row (cholZero_row root ha hP (by omega) (Nat.le_refl _) hs)

/-- A step of `CholeskyDecomposition` panics only on the diagonal, with the NaN
panic, on a negative radicand. -/
theorem choleskyStep_error {a u : M K} {n i j : Nat} {e : Err} (root : K → K)
    (ha : IsMat a n n) (hu : IsMat u n n) (hi : i < n) (hji : j ≤ i)
    (h : choleskyStep root a i j u = Except.error e) :
    j = i ∧ e = Err.nanDetected ∧
      entry a j j - ∑ k in Finset.range j, entry u j k * entry u j k < 0 := by
  by_cases hij : j = i
  · subst hij
    rw [choleskyStep_diag root ha hu hi] at h
    split at h
    · cases h
      exact ⟨rfl, rfl, by assumption⟩
    · cases h
  · rw [choleskyStep_offdiag root ha hu hi (by omega)] at h
    split at h <;> cases h

end CholeskyRuns

/-- A run of `CholeskyDecomposition` on an `n`×`n` matrix returns exactly when no
diagonal step it reaches has a negative radicand. -/
theorem cholesky_returns_iff {K : Type} [LinearOrderedField K] (root : K → K) {n : Nat}
    {A : M K} (hA : IsMat A n n) :
    (∃ U, CholeskyDecomposition root A = Except.ok U) ↔
      ¬ ∃ j u₁ u, j < n ∧
        forLoop 0 j (choleskyRow root A) (zeroes n n) = Except.ok u₁ ∧
        forLoop 0 j (choleskyStep root A j) u₁ = Except.ok u ∧
        entry A j j - ∑ k in Finset.range j, entry u j k * entry u j k < 0 := by
  constructor
  · rintro ⟨U, hU⟩ ⟨j, u₁, u, hj, h1, h2, hneg⟩
    have hu₁ := cholZero_rows root hA (by omega) h1
    have hu := cholZero_row root hA hu₁ hj (by omega) h2
    have hstep : choleskyStep root A j j u = Except.error Err.nanDetected := by
      rw [choleskyStep_diag root hA hu.1 hj, if_pos hneg]
    have hrow : choleskyRow root A j u₁ = Except.error Err.nanDetected :=
      forLoop_error_at _ (Nat.lt_succ_self j) h2 hstep
    rw [choleskyDecomposition_eq, hA.1, forLoop_error_at _ hj h1 hrow] at hU
    cases hU
  · intro hno
    cases hrun : CholeskyDecomposition root A with
    | ok U => exact ⟨U, rfl⟩
    | error e =>
      exfalso
      apply hno
      rw [choleskyDecomposition_eq, hA.1] at hrun
      obtain ⟨i, t, _, hi, hpre, hrow⟩ := forLoop_error_first (Nat.zero_le n) hrun
      obtain ⟨j, w, _, hj, hpre2, hstep⟩ := forLoop_error_first (Nat.zero_le (i + 1)) hrow
      have ht := cholZero_rows root hA (by omega) hpre
      have hw := cholZero_row root hA ht hi (by omega) hpre2
      obtain ⟨hji, _, hneg⟩ := choleskyStep_error root hA hw.1 hi (by omega) hstep
      subst hji
      exact ⟨j, t, w, hi, hpre, hpre2, hneg⟩

section CholeskyOutcomeClaims

variable {K : Type} [LinearOrderedField K]

/-- C11: for every `n`×`n` matrix `A`, `CholeskyDecomposition` aborts if and only
if some diagonal step `j`, reached after the steps before it have returned the
state `u`, has a negative radicand `A[j][j] − Σ_{k<j} u[j][k]²`; the abort is
the NaN panic, and it happens on every matrix with `A[0][0] < 0`. -/
theorem cholesky_fails_iff (root : K → K) (n : Nat) (A : M K) (hA : IsMat A n n) :
    ((∃ e, CholeskyDecomposition root A = Except.error e) ↔
        ∃ j u₁ u, j < n ∧
          forLoop 0 j (choleskyRow root A) (zeroes n n) = Except.ok u₁ ∧
          forLoop 0 j (choleskyStep root A j) u₁ = Except.ok u ∧
          entry A j j - ∑ k in Finset.range j, entry u j k * entry u j k < 0) ∧
      (∀ e, CholeskyDecomposition root A = Except.error e → e = Err.nanDetected) ∧
      (0 < n → entry A 0 0 < 0 →
        CholeskyDecomposition root A = Except.error Err.nanDetected) := by
  have hback : ∀ j u₁ u, j < n →
      forLoop 0 j (choleskyRow root A) (zeroes n n) = Except.ok u₁ →
      forLoop 0 j (choleskyStep root A j) u₁ = Except.ok u →
      entry A j j - ∑ k in Finset.range j, entry u j k * entry u j k < 0 →
      CholeskyDecomposition root A = Except.error Err.nanDetected := by
    intro j u₁ u hj h1 h2 hneg
    have hu₁ := cholZero_rows root hA (by omega) h1
    have hu := cholZero_row root hA hu₁ hj (by omega) h2
    have hstep : choleskyStep root A j j u = Except.error Err.nanDetected := by
      rw [choleskyStep_diag root hA hu.1 hj, if_pos hneg]
    have hrow : choleskyRow root A j u₁ = Except.error Err.nanDetected :=
      forLoop_error_at _ (Nat.lt_succ_self j) h2 hstep
    rw [choleskyDecomposition_eq, hA.1]
    exact forLoop_error_at _ hj h1 hrow
  have hfwd : ∀ e, CholeskyDecomposition root A = Except.error e →
      e = Err.nanDetected ∧ ∃ j u₁ u, j < n ∧
        forLoop 0 j (choleskyRow root A) (zeroes n n) = Except.ok u₁ ∧
        forLoop 0 j (choleskyStep root A j) u₁ = Except.ok u ∧
        entry A j j - ∑ k in Finset.range j, entry u j k * entry u j k < 0 := by
    intro e he
    rw [choleskyDecomposition_eq, hA.1] at he
    obtain ⟨i, t, _, hi, hpre, hrow⟩ := forLoop_error_first (Nat.zero_le n) he
    obtain ⟨j, w, _, hj, hpre2, hstep⟩ := forLoop_error_first (Nat.zero_le (i + 1)) hrow
    have ht := cholZero_rows root hA (by omega) hpre
    have hw := cholZero_row root hA ht hi (by omega) hpre2
    obtain ⟨hji, hnan, hneg⟩ := choleskyStep_error root hA hw.1 hi (by omega) hstep
    subst hji
    exact ⟨hnan, j, t, w, hi, hpre, hpre2, hneg⟩
  refine ⟨⟨fun ⟨e, he⟩ => (hfwd e he).2, fun ⟨j, u₁, u, hj, h1, h2, hneg⟩ =>
    ⟨_, hback j u₁ u hj h1 h2 hneg⟩⟩, fun e he => (hfwd e he).1, fun hn hneg => ?_⟩
  refine hback 0 (zeroes n n) (zeroes n n) hn (forLoop_self _ _ _) (forLoop_self _ _ _) ?_
  rw [Finset.sum_range_zero, sub_zero]
  exact hneg

theorem cholesky_fails_iff_witness :
    CholeskyDecomposition Real.sqrt ([[-1, 1], [1, 1]] : M ℝ)
      = Except.error Err.nanDetected :=
  (cholesky_fails_iff Real.sqrt 2 [[-1, 1], [1, 1]] (by decide)).2.2 (by decide)
    (by norm_num [entry, row])

/-- C12, amended: at every off-diagonal step `(i, j)`, `j < i`, of a run on an
`n`×`n` matrix, reached in the state `u` with the pivot `u[j][j] ≤ 0`, the step
does not fail and leaves `u` as it is, and every matrix the call returns has
`U[i][j] = 0`; the call on such an input returns a matrix exactly when no
diagonal step it reaches has a negative radicand. -/
theorem cholesky_fallback (root : K → K) (n : Nat) (A : M K) (hA : IsMat A n n) (i j : Nat)
    (hji : j < i) (hi : i < n) (u₁ u : M K)
    (h1 : forLoop 0 i (choleskyRow root A) (zeroes n n) = Except.ok u₁)
    (h2 : forLoop 0 j (choleskyStep root A i) u₁ = Except.ok u)
    (hpiv : entry u j j ≤ 0) :
    choleskyStep root A i j u = Except.ok u ∧
      forLoop 0 (j + 1) (choleskyStep root A i) u₁ = Except.ok u ∧
      (∀ U, CholeskyDecomposition root A = Except.ok U → getAt U i j = Except.ok 0) ∧
      ((∃ U, CholeskyDecomposition root A = Except.ok U) ↔
        ¬ ∃ j' u₁' u', j' < n ∧
          forLoop 0 j' (choleskyRow root A) (zeroes n n) = Except.ok u₁' ∧
          forLoop 0 j' (choleskyStep root A j') u₁' = Except.ok u' ∧
          entry A j' j' - ∑ k in Finset.range j', entry u' j' k * entry u' j' k < 0) := by
  have hu₁ := cholZero_rows root hA (by omega) h1
  have hu := cholZero_row root hA hu₁ hi (by omega) h2
  have hstep : choleskyStep root A i j u = Except.ok u := by
    rw [choleskyStep_offdiag root hA hu.1 hi hji, if_neg (not_lt.mpr hpiv)]
  have hpre : forLoop 0 (j + 1) (choleskyStep root A i) u₁ = Except.ok u := by
    rw [forLoop_split (Nat.zero_le j) (Nat.le_succ j), h2, bind_ok]
    exact (forLoop_one j _ u).trans hstep
  refine ⟨hstep, hpre, fun U hU => ?_, cholesky_returns_iff root hA⟩
  have hzero : entry u i j = 0 :=
    hu.2 i j hi (by omega) (fun hpr => by
      obtain ⟨_, h3⟩ := hpr
      omega)
  rw [choleskyDecomposition_eq, hA.1, forLoop_split (Nat.zero_le i) (by omega : i ≤ n), h1,
    bind_ok, forLoop_split (Nat.le_succ i) (by omega : i + 1 ≤ n)] at hU
  have hrow : forLoop i (i + 1) (choleskyRow root A) u₁
      = (forLoop (j + 1) (i + 1) (choleskyStep root A i) u) := by
    rw [forLoop_one]
    show forLoop 0 (i + 1) (choleskyStep root A i) u₁ = _
    rw [forLoop_split (Nat.zero_le (j + 1)) (by omega : j + 1 ≤ i + 1), hpre, bind_ok]
  rw [hrow] at hU
  cases hrest : forLoop (j + 1) (i + 1) (choleskyStep root A i) u with
  | error e => rw [hrest] at hU; cases hU
  | ok u₂ =>
    rw [hrest, bind_ok] at hU
    have hu₂ : IsMat u₂ n n ∧ entry u₂ i j = 0 := by
      refine forLoop_partial (by omega : j + 1 ≤ i + 1)
        (fun _ t => IsMat t n n ∧ entry t i j = 0) ⟨hu.1, hzero⟩ ?_ hrest
      intro k t t' hk1 hk2 hP hs
      obtain ⟨hM, hE⟩ := choleskyStep_frame root hA hP.1 hi (by omega) hs
      exact ⟨hM, by rw [hE i j (by omega)]; exact hP.2⟩
    have hfin : IsMat U n n ∧ entry U i j = 0 := by
      refine forLoop_partial (by omega : i + 1 ≤ n)
        (fun _ t => IsMat t n n ∧ entry t i j = 0) hu₂ ?_ hU
      intro k t t' hk1 hk2 hP hs
      refine forLoop_partial (Nat.zero_le (k + 1))
        (fun _ t => IsMat t n n ∧ entry t i j = 0) hP ?_ hs
      intro l w w' _ hl hQ hw
      obtain ⟨hM, hE⟩ := choleskyStep_frame root hA hQ.1 hk2 (by omega) hw
      exact ⟨hM, by rw [hE i j (by omega)]; exact hQ.2⟩
    rw [isMat_getAt hfin.1 hi (by omega), hfin.2]

/-- The run on `[[0,1],[1,1]]` over the reals. -/
theorem cholesky_degenerate_run :
    forLoop 0 1 (choleskyRow Real.sqrt ([[0, 1], [1, 1]] : M ℝ)) (zeroes 2 2)
        = Except.ok [[0, 0], [0, 0]] ∧
      CholeskyDecomposition Real.sqrt ([[0, 1], [1, 1]] : M ℝ)
        = Except.ok [[0, 0], [0, 1]] := by
  constructor
  · norm_num [choleskyRow, choleskyStep, mathSqrt, forLoop, loopFrom, getAt, setAt,
      zeroes, bind, Except.bind, pure, Except.pure]
    rfl
  · norm_num [CholeskyDecomposition, choleskyStep, mathSqrt, forLoop, loopFrom, getAt, setAt,
      zeroes, bind, Except.bind, pure, Except.pure]
    rfl

theorem cholesky_fallback_witness :
    choleskyStep Real.sqrt ([[0, 1], [1, 1]] : M ℝ) 1 0 [[0, 0], [0, 0]]
        = Except.ok [[0, 0], [0, 0]] ∧
      CholeskyDecomposition Real.sqrt ([[0, 1], [1, 1]] : M ℝ)
        = Except.ok [[0, 0], [0, 1]] ∧
      getAt ([[0, 0], [0, 1]] : M ℝ) 1 0 = Except.ok 0 ∧
      ¬ ∃ j' u₁' u', j' < 2 ∧
        forLoop 0 j' (choleskyRow Real.sqrt ([[0, 1], [1, 1]] : M ℝ)) (zeroes 2 2)
          = Except.ok u₁' ∧
        forLoop 0 j' (choleskyStep Real.sqrt ([[0, 1], [1, 1]] : M ℝ) j') u₁' = Except.ok u' ∧
        entry ([[0, 1], [1, 1]] : M ℝ) j' j'
          - ∑ k in Finset.range j', entry u' j' k * entry u' j' k < 0 :=
  have h := cholesky_fallback Real.sqrt 2 [[0, 1], [1, 1]] (by decide) 1 0 (by decide)
    (by decide) [[0, 0], [0, 0]] [[0, 0], [0, 0]] cholesky_degenerate_run.1 rfl
    (by norm_num [entry, row])
  ⟨h.1, cholesky_degenerate_run.2, h.2.2.1 _ cholesky_degenerate_run.2,
    h.2.2.2.mp ⟨_, cholesky_degenerate_run.2⟩⟩

/-- The run on `[[0,1],[1,-1]]` over the reals: row 0 returns the zero matrix,
and the call aborts with the NaN panic. -/
theorem cholesky_degenerate_abort_run :
    forLoop 0 1 (choleskyRow Real.sqrt ([[0, 1], [1, -1]] : M ℝ)) (zeroes 2 2)
        = Except.ok [[0, 0], [0, 0]] ∧
      CholeskyDecomposition Real.sqrt ([[0, 1], [1, -1]] : M ℝ)
        = Except.error Err.nanDetected := by
  constructor
  · norm_num [choleskyRow, choleskyStep, mathSqrt, forLoop, loopFrom, getAt, setAt,
      zeroes, bind, Except.bind, pure, Except.pure]
    rfl
  · norm_num [CholeskyDecomposition, choleskyStep, mathSqrt, forLoop, loopFrom, getAt, setAt,
      zeroes, bind, Except.bind, pure, Except.pure, throw, throwThe, MonadExceptOf.throw]

/-- C12, as stated, fails on `[[0,1],[1,-1]]`: the off-diagonal step `(1, 0)` is
reached in the state `[[0,0],[0,0]]` with the pivot `u[0][0] = 0`, the step does
not fail, and yet the call returns no matrix: the diagonal step `(1, 1)` has the
radicand `-1` and panics. -/
theorem cholesky_fallback_may_abort :
    IsMat ([[0, 1], [1, -1]] : M ℝ) 2 2 ∧
      forLoop 0 1 (choleskyRow Real.sqrt ([[0, 1], [1, -1]] : M ℝ)) (zeroes 2 2)
        = Except.ok [[0, 0], [0, 0]] ∧
      forLoop 0 0 (choleskyStep Real.sqrt ([[0, 1], [1, -1]] : M ℝ) 1) [[0, 0], [0, 0]]
        = Except.ok [[0, 0], [0, 0]] ∧
      entry ([[0, 0], [0, 0]] : M ℝ) 0 0 ≤ 0 ∧
      choleskyStep Real.sqrt ([[0, 1], [1, -1]] : M ℝ) 1 0 [[0, 0], [0, 0]]
        = Except.ok [[0, 0], [0, 0]] ∧
      CholeskyDecomposition Real.sqrt ([[0, 1], [1, -1]] : M ℝ)
        = Except.error Err.nanDetected ∧
      ¬ ∃ U, CholeskyDecomposition Real.sqrt ([[0, 1], [1, -1]] : M ℝ) = Except.ok U := by
  refine ⟨by decide, cholesky_degenerate_abort_run.1, rfl, by norm_num [entry, row], ?_,
    cholesky_degenerate_abort_run.2, ?_⟩
  · norm_num [choleskyStep, forLoop, loopFrom, getAt, setAt, bind, Except.bind, pure,
      Except.pure]
  · rintro ⟨U, hU⟩
    rw [cholesky_degenerate_abort_run.2] at hU
    cases hU

/-- C18: two `n`×`n` matrices that agree on and below the diagonal give
`CholeskyDecomposition` the same outcome: the same panic, or equal returned
matrices. -/
theorem cholesky_reads_lower_triangle (root : K → K) (n : Nat) (A A' : M K)
    (hA : IsMat A n n) (hA' : IsMat A' n n)
    (hlow : ∀ i j, i < n → j ≤ i → entry A i j = entry A' i j) :
    CholeskyDecomposition root A = CholeskyDecomposition root A' := by
  have hstep : ∀ i j u, i < n → j ≤ i → IsMat u n n →
      choleskyStep root A i j u = choleskyStep root A' i j u := by
    intro i j u hi hji hu
    by_cases hij : j = i
    · subst hij
      rw [choleskyStep_diag root hA hu hi, choleskyStep_diag root hA' hu hi,
        hlow j j hi (Nat.le_refl j)]
    · rw [choleskyStep_offdiag root hA hu hi (by omega),
        choleskyStep_offdiag root hA' hu hi (by omega), hlow i j hi hji]
  have hrow : ∀ i u, i < n → IsMat u n n →
      choleskyRow root A i u = choleskyRow root A' i u ∧
        ∀ u', choleskyRow root A i u = Except.ok u' → IsMat u' n n := by
    intro i u hi hu
    constructor
    · refine forLoop_congr_inv (Nat.zero_le (i + 1)) (fun _ t => IsMat t n n) hu ?_
      intro k t _ hk hP
      exact ⟨hstep i k t hi (by omega) hP,
        fun t' ht' => (choleskyStep_frame root hA hP hi (by omega) ht').1⟩
    · intro u' hu'
      refine forLoop_partial (Nat.zero_le (i + 1)) (fun _ t => IsMat t n n) hu ?_ hu'
      intro k t t' _ hk hP ht'
      exact (choleskyStep_frame root hA hP hi (by omega) ht').1
  rw [choleskyDecomposition_eq, choleskyDecomposition_eq, hA.1, hA'.1]
  refine forLoop_congr_inv (Nat.zero_le n) (fun _ t => IsMat t n n) (isMat_zeroes n n) ?_
  intro i u _ hi hu
  exact hrow i u hi hu

theorem cholesky_reads_lower_triangle_witness :
    CholeskyDecomposition Real.sqrt ([[4, 0, 7], [12, 37, 1], [-16, -43, 98]] : M ℝ)
      = Except.ok [[2, 0, 0], [6, 1, 0], [-8, 5, 3]] :=
  (cholesky_reads_lower_triangle Real.sqrt 3
    [[4, 12, -16], [12, 37, -43], [-16, -43, 98]] [[4, 0, 7], [12, 37, 1], [-16, -43, 98]]
    (by decide) (by decide) (by
      intro i j hi hj
      interval_cases i <;> interval_cases j <;> rfl)).symm.trans cholesky_test_matrix

end CholeskyOutcomeClaims

/-! ## The elimination loop of `LU` -/

section LUSteps

variable {K : Type} [Field K] [DecidableEq K]

/-- A pivot step of `LU` on a nonzero pivot: the rows below the pivot row lose
their multiple of it, and column `i` of `L` receives the unit and the ratios. -/
theorem luPivotStep_spec {A L : M K} {n i : Nat} (hA : IsMat A n n) (hL : IsMat L n n)
    (hi : i < n) (hpiv : entry A i i ≠ 0) :
    ∃ st, luPivotStep n n i (A, L) = Except.ok st ∧ IsMat st.1 n n ∧ IsMat st.2 n n ∧
      (∀ p q, p < n → q < n → entry st.1 p q =
        if i < p then entry A p q - entry A p i / entry A i i * entry A i q
        else entry A p q) ∧
      (∀ p q, p < n → q < n → entry st.2 p q =
        if q = i ∧ i ≤ p then (if p = i then 1 else entry A p i / entry A i i)
        else entry L p q) := by
  unfold luPivotStep
  simp only
  rw [isMat_getAt hA hi hi, bind_ok, if_neg hpiv]
  simp only [pure_eq_ok, bind_ok]
  rw [isMat_setAt hL _ hi hi, bind_ok]
  have hL1 : IsMat (upd L i i 1) n n := isMat_upd hL _ _ _
  refine forLoop_rule (by omega : i + 1 ≤ n)
    (fun j (st : M K × M K) => IsMat st.1 n n ∧ IsMat st.2 n n ∧
      (∀ p q, p < n → q < n → entry st.1 p q =
        if i < p ∧ p < j then entry A p q - entry A p i / entry A i i * entry A i q
        else entry A p q) ∧
      (∀ p q, p < n → q < n → entry st.2 p q =
        if q = i ∧ (p = i ∨ (i < p ∧ p < j))
        then (if p = i then 1 else entry A p i / entry A i i)
        else entry L p q))
    ⟨hA, hL1, fun p q _ _ => by rw [if_neg (by omega)], fun p q _ _ => ?_⟩ ?_ ?_
  · simp only
    rw [isMat_entry_upd hL _ p q hi hi]
    by_cases h : p = i ∧ q = i
    · rw [if_pos h, if_pos ⟨h.2, Or.inl h.1⟩, if_pos h.1]
    · rw [if_neg h, if_neg (fun h' => by omega)]
  · rintro j ⟨Ac, Lc⟩ hij hj ⟨hAc, hLc, hEA, hEL⟩
    simp only at hAc hLc hEA hEL ⊢
    have eA : ∀ q, q < n → entry Ac j q = entry A j q := fun q hq => by
      rw [hEA j q hj hq, if_neg (by omega)]
    have eAi : ∀ q, q < n → entry Ac i q = entry A i q := fun q hq => by
      rw [hEA i q hi hq, if_neg (by omega)]
    rw [isMat_getAt hAc hj hi, bind_ok, isMat_getAt hAc hi hi, bind_ok,
      isMat_setAt hLc _ hj hi, bind_ok]
    obtain ⟨R, hR, hRM, hRE⟩ :=
      subtractRow_spec hAc hi hj (by omega : i ≠ j) (entry Ac j i / entry Ac i i)
    rw [hR, bind_ok]
    refine ⟨_, rfl, hRM, isMat_upd hLc _ _ _, fun p q hp hq => ?_, fun p q hp hq => ?_⟩
    · simp only
      rw [hRE p q hp hq]
      by_cases hpj : p = j
      · rw [if_pos hpj, if_pos ⟨by omega, by omega⟩, eA q hq, eA i hi, eAi q hq, eAi i hi, hpj]
      · rw [if_neg hpj, hEA p q hp hq]
        by_cases h : i < p ∧ p < j
        · rw [if_pos h, if_pos ⟨h.1, by omega⟩]
        · rw [if_neg h, if_neg (fun h' => by omega)]
    · simp only
      rw [isMat_entry_upd hLc _ p q hj hi]
      by_cases hpq : p = j ∧ q = i
      · rw [if_pos hpq, if_pos ⟨hpq.2, Or.inr ⟨by omega, by omega⟩⟩, if_neg (by omega),
          eA i hi, eAi i hi, hpq.1]
      · rw [if_neg hpq, hEL p q hp hq]
        by_cases h : q = i ∧ (p = i ∨ (i < p ∧ p < j))
        · rw [if_pos h, if_pos (show q = i ∧ (p = i ∨ (i < p ∧ p < j + 1)) from
            ⟨h.1, by omega⟩)]
        · rw [if_neg h, if_neg (show ¬ (q = i ∧ (p = i ∨ (i < p ∧ p < j + 1))) from
            fun h' => by omega)]
  · rintro ⟨Ac, Lc⟩ ⟨hAc, hLc, hEA, hEL⟩
    simp only at hAc hLc hEA hEL ⊢
    refine ⟨hAc, hLc, fun p q hp hq => ?_, fun p q hp hq => ?_⟩
    · rw [hEA p q hp hq]
      by_cases h : i < p
      · rw [if_pos ⟨h, hp⟩, if_pos h]
      · rw [if_neg (fun h' => h h'.1), if_neg h]
    · rw [hEL p q hp hq]
      by_cases h : q = i ∧ i ≤ p
      · rw [if_pos (show q = i ∧ (p = i ∨ (i < p ∧ p < n)) from ⟨h.1, by omega⟩), if_pos h]
      · rw [if_neg (show ¬ (q = i ∧ (p = i ∨ (i < p ∧ p < n))) from fun h' => by omega),
          if_neg h]

/-- What the elimination loop of `LU` has established after `m` pivot steps that
returned: the original matrix is the product of `L`, completed by the identity
in the columns from `m` on, with the current matrix; the columns before `m` are
zero below the diagonal; `L` is zero in the columns from `m` on; the first row
is untouched. -/
theorem luLoop_partial {A Af Lf : M K} {n m : Nat} (hA : IsMat A n n) (hm : m ≤ n)
    (hrun : forLoop 0 m (luPivotStep n n) (A, zeroes n n) = Except.ok (Af, Lf)) :
    IsMat Af n n ∧ IsMat Lf n n ∧
      (∀ p q, p < n → q < n → entry A p q =
        ∑ k in Finset.range m, entry Lf p k * entry Af k q
          + (if m ≤ p then entry Af p q else 0)) ∧
      (∀ p c, p < n → c < m → c < p → entry Af p c = 0) ∧
      (∀ p k, p < n → k < n → m ≤ k → entry Lf p k = 0) ∧
      (∀ q, q < n → entry Af 0 q = entry A 0 q) := by
  have key := forLoop_partial (Nat.zero_le m)
    (fun i (st : M K × M K) => i ≤ n ∧ IsMat st.1 n n ∧ IsMat st.2 n n ∧
      (∀ p q, p < n → q < n → entry A p q =
        ∑ k in Finset.range i, entry st.2 p k * entry st.1 k q
          + (if i ≤ p then entry st.1 p q else 0)) ∧
      (∀ p c, p < n → c < i → c < p → entry st.1 p c = 0) ∧
      (∀ p k, p < n → k < n → i ≤ k → entry st.2 p k = 0) ∧
      (∀ q, q < n → entry st.1 0 q = entry A 0 q))
    (s := (A, zeroes n n)) ?_ ?_ hrun
  · exact key.2
  · refine ⟨Nat.zero_le n, hA, isMat_zeroes n n, fun p q _ _ => ?_,
      fun p c _ hc _ => absurd hc (Nat.not_lt_zero c),
      fun p k _ _ _ => entry_zeroes n n p k, fun q _ => rfl⟩
    simp
  · rintro i ⟨Ac, Lc⟩ ⟨A2, L2⟩ _ hi ⟨hin, hAc, hLc, hR, hZ, hLZ, hF⟩ hstep
    simp only at hAc hLc hR hZ hLZ hF
    have hi' : i < n := by omega
    have hpiv : entry Ac i i ≠ 0 := by
      intro h0
      have hg : getAt (Ac, Lc).1 i i = Except.ok 0 := by
        simp only
        rw [isMat_getAt hAc hi' hi', h0]
      rw [luPivotStep_zero hg] at hstep
      cases hstep
    obtain ⟨st, hst, hA2, hL2, hEA, hEL⟩ := luPivotStep_spec hAc hLc hi' hpiv
    rw [hst] at hstep
    cases hstep
    simp only at hA2 hL2 hEA hEL ⊢
    refine ⟨by omega, hA2, hL2, fun p q hp hq => ?_, fun p c hp hc hcp => ?_,
      fun p k hp hk hik => ?_, fun q hq => ?_⟩
    · have hsum : ∑ k in Finset.range i, entry L2 p k * entry A2 k q
          = ∑ k in Finset.range i, entry Lc p k * entry Ac k q := by
        apply Finset.sum_congr rfl
        intro k hk
        have hk' := Finset.mem_range.mp hk
        rw [hEL p k hp (by omega), if_neg (by omega), hEA k q (by omega) hq, if_neg (by omega)]
      rw [Finset.sum_range_succ, hsum, hR p q hp hq, hEL p i hp hi', hEA i q hi' hq,
        if_neg (Nat.lt_irrefl i)]
      by_cases hpi : p = i
      · subst hpi
        rw [if_pos (Nat.le_refl p), if_pos ⟨rfl, Nat.le_refl p⟩, if_pos rfl,
          if_neg (by omega), one_mul, add_zero]
      · by_cases hlt : i < p
        · rw [if_pos (by omega), if_pos ⟨rfl, by omega⟩, if_neg hpi, if_pos (by omega),
            hEA p q hp hq, if_pos hlt]
          ring
        · rw [if_neg (by omega), if_neg (by omega), if_neg (by omega),
            hLZ p i hp hi' (Nat.le_refl i)]
          ring
    · have hcn : c < n := by omega
      rw [hEA p c hp hcn]
      by_cases hci : c = i
      · subst hci
        rw [if_pos hcp]
        field_simp
      · have hclt : c < i := by omega
        by_cases hlt : i < p
        · rw [if_pos hlt, hZ p c hp hclt hcp, hZ i c hi' hclt (by omega)]
          ring
        · rw [if_neg hlt]
          exact hZ p c hp hclt hcp
    · rw [hEL p k hp hk, if_neg (by omega)]
      exact hLZ p k hp hk (by omega)
    · rw [hEA 0 q (by omega) hq, if_neg (Nat.not_lt_zero i)]
      exact hF q hq

/-- `LU` on a square matrix is its elimination loop followed by the return of
`L`, the unassigned `U`, and the eliminated matrix. -/
theorem LU_eq {A : M K} {n : Nat} (B : M K) (hA : IsMat A n n) (hn : 0 < n) :
    LU A B = (forLoop 0 (n - 1) (luPivotStep n n) (A, zeroes n n) >>=
      fun st => Except.ok ((st.2, []), st.1)) := by
  unfold LU
  rw [getDimensions_eq hA hn, bind_ok]
  simp only []
  rw [if_neg (by simp)]
  simp only [pure_eq_ok, bind_ok]

end LUSteps

section LUClaims

variable {K : Type} [Field K] [DecidableEq K]

/-- A call of `LU` that returns has run on a matrix with at least one row. -/
theorem LU_ok_pos {A B : M K} {n : Nat} {res : (M K × M K) × M K} (hA : IsMat A n n)
    (hrun : LU A B = Except.ok res) : 0 < n := by
  rcases Nat.eq_zero_or_pos n with h0 | hpos
  · subst h0
    have hnil : A = [] := List.length_eq_zero.mp hA.1
    subst hnil
    simp [LU, GetDimensions, rowLen, bind, Except.bind] at hrun
  · exact hpos

/-- The state of a run of `LU` that returns. -/
theorem LU_run {A B L U A' : M K} {n : Nat} (hA : IsMat A n n)
    (hrun : LU A B = Except.ok ((L, U), A')) :
    0 < n ∧ forLoop 0 (n - 1) (luPivotStep n n) (A, zeroes n n) = Except.ok (A', L) := by
  have hn := LU_ok_pos hA hrun
  refine ⟨hn, ?_⟩
  rw [LU_eq B hA hn] at hrun
  cases hloop : forLoop 0 (n - 1) (luPivotStep n n) (A, zeroes n n) with
  | error e => rw [hloop] at hrun; cases hrun
  | ok st =>
    rw [hloop, bind_ok] at hrun
    obtain ⟨Af, Lf⟩ := st
    cases hrun
    rfl

/-- C15: for every square `n`×`n` matrix `A` on which `LU` succeeds, the matrix
`A'` the call leaves in the caller's `A` is `n`×`n`, has `A'[j][i] = 0` for every
`j > i`, and has the first row of `A`. -/
theorem lu_eliminates_in_place (n : Nat) (A B L U A' : M K) (hA : IsMat A n n)
    (hrun : LU A B = Except.ok ((L, U), A')) :
    IsMat A' n n ∧ (∀ i j, i < j → j < n → getAt A' j i = Except.ok 0) ∧
      (∀ q, q < n → getAt A' 0 q = getAt A 0 q) := by
  obtain ⟨hn, hloop⟩ := LU_run hA hrun
  obtain ⟨hA', _, _, hZ, _, hF⟩ := luLoop_partial hA (by omega) hloop
  refine ⟨hA', fun i j hij hj => ?_, fun q hq => ?_⟩
  · rw [isMat_getAt hA' hj (by omega), hZ j i hj (by omega) hij]
  · rw [isMat_getAt hA' hn hq, isMat_getAt hA hn hq, hF q hq]

theorem lu_eliminates_in_place_witness :
    IsMat ([[2, 1, 1], [0, 1, 1], [0, 0, 2]] : M ℚ) 3 3 ∧
      getAt ([[2, 1, 1], [0, 1, 1], [0, 0, 2]] : M ℚ) 1 0 = Except.ok 0 ∧
      getAt ([[2, 1, 1], [0, 1, 1], [0, 0, 2]] : M ℚ) 2 0 = Except.ok 0 ∧
      getAt ([[2, 1, 1], [0, 1, 1], [0, 0, 2]] : M ℚ) 2 1 = Except.ok 0 ∧
      getAt ([[2, 1, 1], [0, 1, 1], [0, 0, 2]] : M ℚ) 0 2
        = getAt ([[2, 1, 1], [4, 3, 3], [8, 7, 9]] : M ℚ) 0 2 :=
  have h := lu_eliminates_in_place 3 ([[2, 1, 1], [4, 3, 3], [8, 7, 9]] : M ℚ) []
    [[1, 0, 0], [2, 1, 0], [4, 3, 0]] [] [[2, 1, 1], [0, 1, 1], [0, 0, 2]] (by decide)
    (by decide!)
  ⟨h.1, h.2.1 0 1 (by decide) (by decide), h.2.1 0 2 (by decide) (by decide),
    h.2.1 1 2 (by decide) (by decide), h.2.2 2 (by decide)⟩

/-- C17: for every square `n`×`n` matrix `A`, `n ≥ 1`, on which `LU` succeeds,
with `A'` the eliminated matrix, the product `L × A'` computed by `X` has the
entries of `A` except at `[n-1][n-1]`, where it has `A[n-1][n-1] − A'[n-1][n-1]`;
and writing `1` to `L[n-1][n-1]` makes the product equal to `A`. -/
theorem lu_reconstructs_except_last (n : Nat) (hn : 1 ≤ n) (A B L U A' : M K)
    (hA : IsMat A n n) (hrun : LU A B = Except.ok ((L, U), A')) :
    (∃ P, X L A' = Except.ok P ∧ IsMat P n n ∧
        ∀ p q, p < n → q < n → entry P p q =
          if p = n - 1 ∧ q = n - 1 then entry A p q - entry A' p q else entry A p q) ∧
      ∃ L₁, setAt L (n - 1) (n - 1) 1 = Except.ok L₁ ∧ X L₁ A' = Except.ok A := by
  obtain ⟨_, hloop⟩ := LU_run hA hrun
  obtain ⟨hA', hL, hR, hZ, hLZ, _⟩ := luLoop_partial hA (by omega) hloop
  have hlast : n - 1 < n := by omega
  have hsplit : ∀ (f : Nat → K),
      ∑ k in Finset.range n, f k = ∑ k in Finset.range (n - 1), f k + f (n - 1) := by
    intro f
    rw [← Finset.sum_range_succ, show n - 1 + 1 = n by omega]
  constructor
  · obtain ⟨P, hP, hPM, hPE⟩ := X_spec hL hA' hn hn hn
    refine ⟨P, hP, hPM, fun p q hp hq => ?_⟩
    rw [hPE p q hp hq, hsplit, hLZ p (n - 1) hp hlast (Nat.le_refl _), zero_mul, add_zero]
    have hRpq := hR p q hp hq
    by_cases hpl : p = n - 1
    · rw [if_pos (by omega)] at hRpq
      by_cases hql : q = n - 1
      · rw [if_pos ⟨hpl, hql⟩, hRpq]
        ring
      · rw [if_neg (fun h => hql h.2), hRpq, hZ p q hp (by omega) (by omega), add_zero]
    · rw [if_neg (by omega), add_zero] at hRpq
      rw [if_neg (fun h => hpl h.1), hRpq]
  · refine ⟨upd L (n - 1) (n - 1) 1, isMat_setAt hL _ hlast hlast, ?_⟩
    have hL₁ : IsMat (upd L (n - 1) (n - 1) 1) n n := isMat_upd hL _ _ _
    obtain ⟨P, hP, hPM, hPE⟩ := X_spec hL₁ hA' hn hn hn
    rw [hP]
    congr 1
    apply isMat_ext hPM hA
    intro p q hp hq
    have hsum : ∑ k in Finset.range (n - 1), entry (upd L (n - 1) (n - 1) 1) p k * entry A' k q
        = ∑ k in Finset.range (n - 1), entry L p k * entry A' k q := by
      apply Finset.sum_congr rfl
      intro k hk
      have hk' := Finset.mem_range.mp hk
      rw [isMat_entry_upd hL _ p k hlast hlast, if_neg (by omega)]
    rw [hPE p q hp hq, hsplit, hsum, isMat_entry_upd hL _ p (n - 1) hlast hlast, hR p q hp hq]
    by_cases hpl : p = n - 1
    · rw [if_pos ⟨hpl, rfl⟩, if_pos (by omega), one_mul, hpl]
    · rw [if_neg (fun h => hpl h.1), if_neg (by omega), hLZ p (n - 1) hp hlast (Nat.le_refl _),
        zero_mul]

theorem lu_reconstructs_except_last_witness :
    (∃ P, X ([[1, 0], [3, 0]] : M ℚ) [[1, 2], [0, -2]] = Except.ok P ∧ IsMat P 2 2 ∧
        ∀ p q, p < 2 → q < 2 → entry P p q =
          if p = 2 - 1 ∧ q = 2 - 1
          then entry ([[1, 2], [3, 4]] : M ℚ) p q - entry ([[1, 2], [0, -2]] : M ℚ) p q
          else entry ([[1, 2], [3, 4]] : M ℚ) p q) ∧
      ∃ L₁, setAt ([[1, 0], [3, 0]] : M ℚ) (2 - 1) (2 - 1) 1 = Except.ok L₁ ∧
        X L₁ [[1, 2], [0, -2]] = Except.ok [[1, 2], [3, 4]] :=
  lu_reconstructs_except_last 2 (by decide) ([[1, 2], [3, 4]] : M ℚ) []
    [[1, 0], [3, 0]] [] [[1, 2], [0, -2]] (by decide) (by decide!)

end LUClaims

/-! ## Elementwise operations -/

section Elementwise

variable {K : Type}

theorem isScalar_eq {a : M K} {r c : Nat} (ha : IsMat a r c) (hr : 0 < r) :
    isScalar a = Except.ok (decide (r = 1 ∧ c = 1)) := by
  unfold isScalar
  rw [ha.1]
  by_cases h1 : r = 1
  · rw [if_pos h1, isMat_rowLen ha hr, bind_ok, pure_eq_ok]
    simp [h1]
  · rw [if_neg h1, pure_eq_ok]
    simp [h1]

theorem hasSameDimensions_eq {a b : M K} {r c r' c' : Nat} (ha : IsMat a r c)
    (hb : IsMat b r' c') (hr : 0 < r) (hr' : 0 < r') :
    hasSameDimensions a b = Except.ok (decide (c = c' ∧ r = r')) := by
  unfold hasSameDimensions
  rw [getDimensions_eq ha hr, getDimensions_eq hb hr']
  simp only [bind_ok]
  by_cases h : c = c' ∧ r = r'
  · have h' : ¬ (c ≠ c' ∨ r ≠ r') := by
      rintro (h1 | h1)
      · exact h1 h.1
      · exact h1 h.2
    rw [if_neg h', pure_eq_ok]
    simp [h]
  · have h' : c ≠ c' ∨ r ≠ r' := by
      by_contra hc
      push_neg at hc
      exact h hc
    rw [if_pos h', pure_eq_ok]
    simp [h]

/-- The loop nest of `Add` and `Sub` builds the matrix of the values it is given. -/
theorem buildRows_spec [Zero K] {over : M K} {r c : Nat} (hover : IsMat over r c)
    (val : Nat → Nat → Except Err K) (f : Nat → Nat → K)
    (hval : ∀ i j, i < r → j < c → val i j = Except.ok (f i j)) :
    ∃ R, buildRows over val (List.replicate r []) = Except.ok R ∧ IsMat R r c ∧
      ∀ i j, i < r → j < c → entry R i j = f i j := by
  unfold buildRows
  rw [hover.1]
  refine forLoop_rule (Nat.zero_le r)
    (fun i R => R.length = r ∧ ∀ p, p < r →
      row R p = if p < i then (List.range c).map (f p) else [])
    ⟨by simp, fun p hp => ?_⟩ ?_ ?_
  · rw [if_neg (Nat.not_lt_zero p)]
    simp [row, List.getElem?_replicate, hp]
  · intro i R0 _ hi hP
    rw [isMat_rowLen hover hi, bind_ok]
    refine forLoop_rule (Nat.zero_le c)
      (fun j R => R.length = r ∧ ∀ p, p < r →
        row R p = if p = i then (List.range j).map (f i) else row R0 p)
      ⟨hP.1, fun p hp => ?_⟩ ?_ ?_
    · by_cases hpi : p = i
      · rw [if_pos hpi, hpi, hP.2 i hi, if_neg (Nat.lt_irrefl i)]
        rfl
      · rw [if_neg hpi]
    · intro j R _ hj hQ
      rw [hval i j hi hj, bind_ok, appendToRow_eq _ (by rw [hQ.1]; exact hi)]
      refine ⟨_, rfl, by rw [List.length_set]; exact hQ.1, fun p hp => ?_⟩
      rw [row_set _ p (by rw [hQ.1]; exact hi)]
      by_cases hpi : p = i
      · rw [if_pos hpi, if_pos hpi, hQ.2 i hi, if_pos rfl, List.range_succ, List.map_append]
        rfl
      · rw [if_neg hpi, if_neg hpi, hQ.2 p hp, if_neg hpi]
    · intro R hQ
      refine ⟨hQ.1, fun p hp => ?_⟩
      rw [hQ.2 p hp]
      by_cases hpi : p = i
      · rw [if_pos hpi, if_pos (by omega), hpi]
      · rw [if_neg hpi, hP.2 p hp]
        by_cases hlt : p < i
        · rw [if_pos hlt, if_pos (by omega)]
        · rw [if_neg hlt, if_neg (by omega)]
  · intro R hP
    refine ⟨⟨hP.1, fun p hp => ?_⟩, fun i j hi hj => ?_⟩
    · rw [hP.2 p hp, if_pos hp]
      simp
    · unfold entry
      rw [hP.2 i hi, if_pos hi]
      simp [List.getElem?_map, List.getElem?_range hj]

/-- The branch of `Add` taken on two well-formed matrices. -/
theorem Add_eq [Field K] {a b : M K} {r c r' c' : Nat} (ha : IsMat a r c) (hb : IsMat b r' c')
    (hr : 0 < r) (hr' : 0 < r') :
    Add a b =
      if r = 1 ∧ c = 1 then
        buildRows b (fun i j => do pure ((← getAt a 0 0) + (← getAt b i j)))
          (List.replicate r' [])
      else if r' = 1 ∧ c' = 1 then
        buildRows a (fun i j => do pure ((← getAt a i j) + (← getAt b 0 0)))
          (List.replicate r [])
      else if c = c' ∧ r = r' then
        buildRows a (fun i j => do pure ((← getAt a i j) + (← getAt b i j)))
          (List.replicate r [])
      else Except.error Err.dimensionMismatch := by
  unfold Add
  rw [isScalar_eq ha hr, bind_ok, ha.1, hb.1]
  by_cases h1 : r = 1 ∧ c = 1
  · simp only [h1, and_self, decide_True, if_true]
  · rw [if_neg h1, isScalar_eq hb hr', bind_ok]
    simp only [decide_eq_true_eq, if_neg h1]
    by_cases h2 : r' = 1 ∧ c' = 1
    · simp only [h2, and_self, if_true]
    · rw [if_neg h2, if_neg h2, hasSameDimensions_eq ha hb hr hr', bind_ok]
      by_cases h3 : c = c' ∧ r = r'
      · simp [h3]
      · simp [h3, throw_eq_error]

/-- The branch of `Sub` taken on two well-formed matrices. -/
theorem Sub_eq [Field K] {a b : M K} {r c r' c' : Nat} (ha : IsMat a r c) (hb : IsMat b r' c')
    (hr : 0 < r) (hr' : 0 < r') :
    Sub a b =
      if r = 1 ∧ c = 1 then
        buildRows b (fun i j => do pure ((← getAt a 0 0) - (← getAt b i j)))
          (List.replicate r' [])
      else if r' = 1 ∧ c' = 1 then
        buildRows a (fun i j => do pure ((← getAt a i j) - (← getAt b 0 0)))
          (List.replicate r [])
      else if c = c' ∧ r = r' then
        buildRows a (fun i j => do pure ((← getAt a i j) - (← getAt b i j)))
          (List.replicate r [])
      else Except.error Err.dimensionMismatch := by
  unfold Sub
  rw [isScalar_eq ha hr, bind_ok, ha.1, hb.1]
  by_cases h1 : r = 1 ∧ c = 1
  · simp only [h1, and_self, decide_True, if_true]
  · rw [if_neg h1, isScalar_eq hb hr', bind_ok]
    simp only [decide_eq_true_eq, if_neg h1]
    by_cases h2 : r' = 1 ∧ c' = 1
    · simp only [h2, and_self, if_true]
    · rw [if_neg h2, if_neg h2, hasSameDimensions_eq ha hb hr hr', bind_ok]
      by_cases h3 : c = c' ∧ r = r'
      · simp [h3]
      · simp [h3, throw_eq_error]

theorem HadamardProduct_mismatch [Field K] {a b : M K} {r c r' c' : Nat} (ha : IsMat a r c)
    (hb : IsMat b r' c') (hr : 0 < r) (hr' : 0 < r') (hne : ¬ (r = r' ∧ c = c')) :
    HadamardProduct a b = Except.error Err.fatalMismatch := by
  unfold HadamardProduct
  rw [getDimensions_eq ha hr, getDimensions_eq hb hr']
  simp only [bind_ok]
  rw [if_pos (by
    by_contra hc
    push_neg at hc
    exact hne ⟨hc.2, hc.1⟩)]
  rfl

end Elementwise

theorem isMat_singleton {K : Type} (s : K) : IsMat ([[s]] : M K) 1 1 := by
  refine ⟨rfl, fun i hi => ?_⟩
  have : i = 0 := by omega
  subst this
  rfl

section ElementwiseClaims

variable {K : Type} [Field K]

/-- C13: for every 1×1 matrix `[[s]]` and every `r`×`c` matrix `B`, `Add` and `Sub`
with `[[s]]` on either side succeed with a result of `B`'s shape whose entries
are `s + B[i][j]` (for `Add`, on both sides), `s − B[i][j]` (for `Sub([[s]], B)`)
and `B[i][j] − s` (for `Sub(B, [[s]])`); and on two matrices of the same shape
`Add` and `Sub` return the elementwise sum and difference. -/
theorem add_sub_broadcast (s : K) (B : M K) (r c : Nat) (hr : 1 ≤ r) (hc : 1 ≤ c)
    (hB : IsMat B r c) :
    (∃ R, Add [[s]] B = Except.ok R ∧ IsMat R r c ∧
        ∀ i j, i < r → j < c → entry R i j = s + entry B i j) ∧
      (∃ R, Add B [[s]] = Except.ok R ∧ IsMat R r c ∧
        ∀ i j, i < r → j < c → entry R i j = s + entry B i j) ∧
      (∃ R, Sub [[s]] B = Except.ok R ∧ IsMat R r c ∧
        ∀ i j, i < r → j < c → entry R i j = s - entry B i j) ∧
      (∃ R, Sub B [[s]] = Except.ok R ∧ IsMat R r c ∧
        ∀ i j, i < r → j < c → entry R i j = entry B i j - s) ∧
      ∀ A, IsMat A r c →
        (∃ R, Add A B = Except.ok R ∧ IsMat R r c ∧
          ∀ i j, i < r → j < c → entry R i j = entry A i j + entry B i j) ∧
        (∃ R, Sub A B = Except.ok R ∧ IsMat R r c ∧
          ∀ i j, i < r → j < c → entry R i j = entry A i j - entry B i j) := by
  have hS := isMat_singleton s
  have hs00 : getAt ([[s]] : M K) 0 0 = Except.ok s := rfl
  refine ⟨?_, ?_, ?_, ?_, fun A hA => ⟨?_, ?_⟩⟩
  · rw [Add_eq hS hB Nat.one_pos hr, if_pos ⟨rfl, rfl⟩]
    exact buildRows_spec hB _ (fun i j => s + entry B i j) (fun i j hi hj => by
      dsimp only
      rw [hs00, bind_ok, isMat_getAt hB hi hj, bind_ok]
      rfl)
  · rw [Add_eq hB hS hr Nat.one_pos]
    by_cases h1 : r = 1 ∧ c = 1
    · obtain ⟨rfl, rfl⟩ := h1
      rw [if_pos ⟨rfl, rfl⟩]
      obtain ⟨R, hR, hM, hE⟩ := buildRows_spec hS
        (fun i j => do pure ((← getAt B 0 0) + (← getAt ([[s]] : M K) i j)))
        (fun _ _ => entry B 0 0 + s) (fun i j hi hj => by
          have hi0 : i = 0 := by omega
          have hj0 : j = 0 := by omega
          subst hi0; subst hj0
          dsimp only
          rw [isMat_getAt hB Nat.one_pos Nat.one_pos, bind_ok, hs00, bind_ok]
          rfl)
      refine ⟨R, hR, hM, fun i j hi hj => ?_⟩
      have hi0 : i = 0 := by omega
      have hj0 : j = 0 := by omega
      subst hi0; subst hj0
      rw [hE 0 0 hi hj, add_comm]
    · rw [if_neg h1, if_pos ⟨rfl, rfl⟩]
      obtain ⟨R, hR, hM, hE⟩ := buildRows_spec hB
        (fun i j => do pure ((← getAt B i j) + (← getAt ([[s]] : M K) 0 0)))
        (fun i j => entry B i j + s) (fun i j hi hj => by
          dsimp only
          rw [isMat_getAt hB hi hj, bind_ok, hs00, bind_ok]
          rfl)
      exact ⟨R, hR, hM, fun i j hi hj => by rw [hE i j hi hj, add_comm]⟩
  · rw [Sub_eq hS hB Nat.one_pos hr, if_pos ⟨rfl, rfl⟩]
    exact buildRows_spec hB _ (fun i j => s - entry B i j) (fun i j hi hj => by
      dsimp only
      rw [hs00, bind_ok, isMat_getAt hB hi hj, bind_ok]
      rfl)
  · rw [Sub_eq hB hS hr Nat.one_pos]
    by_cases h1 : r = 1 ∧ c = 1
    · obtain ⟨rfl, rfl⟩ := h1
      rw [if_pos ⟨rfl, rfl⟩]
      obtain ⟨R, hR, hM, hE⟩ := buildRows_spec hS
        (fun i j => do pure ((← getAt B 0 0) - (← getAt ([[s]] : M K) i j)))
        (fun _ _ => entry B 0 0 - s) (fun i j hi hj => by
          have hi0 : i = 0 := by omega
          have hj0 : j = 0 := by omega
          subst hi0; subst hj0
          dsimp only
          rw [isMat_getAt hB Nat.one_pos Nat.one_pos, bind_ok, hs00, bind_ok]
          rfl)
      refine ⟨R, hR, hM, fun i j hi hj => ?_⟩
      have hi0 : i = 0 := by omega
      have hj0 : j = 0 := by omega
      subst hi0; subst hj0
      rw [hE 0 0 hi hj]
    · rw [if_neg h1, if_pos ⟨rfl, rfl⟩]
      exact buildRows_spec hB _ (fun i j => entry B i j - s) (fun i j hi hj => by
        dsimp only
        rw [isMat_getAt hB hi hj, bind_ok, hs00, bind_ok]
        rfl)
  · rw [Add_eq hA hB hr hr]
    by_cases h1 : r = 1 ∧ c = 1
    · obtain ⟨rfl, rfl⟩ := h1
      rw [if_pos ⟨rfl, rfl⟩]
      obtain ⟨R, hR, hM, hE⟩ := buildRows_spec hB
        (fun i j => do pure ((← getAt A 0 0) + (← getAt B i j)))
        (fun i j => entry A 0 0 + entry B i j) (fun i j hi hj => by
          dsimp only
          rw [isMat_getAt hA Nat.one_pos Nat.one_pos, bind_ok, isMat_getAt hB hi hj, bind_ok]
          rfl)
      refine ⟨R, hR, hM, fun i j hi hj => ?_⟩
      have hi0 : i = 0 := by omega
      have hj0 : j = 0 := by omega
      subst hi0; subst hj0
      rw [hE 0 0 hi hj]
    · rw [if_neg h1, if_neg h1, if_pos ⟨rfl, rfl⟩]
      exact buildRows_spec hA _ (fun i j => entry A i j + entry B i j) (fun i j hi hj => by
        dsimp only
        rw [isMat_getAt hA hi hj, bind_ok, isMat_getAt hB hi hj, bind_ok]
        rfl)
  · rw [Sub_eq hA hB hr hr]
    by_cases h1 : r = 1 ∧ c = 1
    · obtain ⟨rfl, rfl⟩ := h1
      rw [if_pos ⟨rfl, rfl⟩]
      obtain ⟨R, hR, hM, hE⟩ := buildRows_spec hB
        (fun i j => do pure ((← getAt A 0 0) - (← getAt B i j)))
        (fun i j => entry A 0 0 - entry B i j) (fun i j hi hj => by
          dsimp only
          rw [isMat_getAt hA Nat.one_pos Nat.one_pos, bind_ok, isMat_getAt hB hi hj, bind_ok]
          rfl)
      refine ⟨R, hR, hM, fun i j hi hj => ?_⟩
      have hi0 : i = 0 := by omega
      have hj0 : j = 0 := by omega
      subst hi0; subst hj0
      rw [hE 0 0 hi hj]
    · rw [if_neg h1, if_neg h1, if_pos ⟨rfl, rfl⟩]
      exact buildRows_spec hA _ (fun i j => entry A i j - entry B i j) (fun i j hi hj => by
        dsimp only
        rw [isMat_getAt hA hi hj, bind_ok, isMat_getAt hB hi hj, bind_ok]
        rfl)

theorem add_sub_broadcast_witness :
    (∃ R, Add ([[5]] : M ℚ) [[1, 2], [3, 4]] = Except.ok R ∧ IsMat R 2 2 ∧
        ∀ i j, i < 2 → j < 2 → entry R i j = 5 + entry ([[1, 2], [3, 4]] : M ℚ) i j) ∧
      (∃ R, Sub ([[1, 2], [3, 4]] : M ℚ) [[5]] = Except.ok R ∧ IsMat R 2 2 ∧
        ∀ i j, i < 2 → j < 2 → entry R i j = entry ([[1, 2], [3, 4]] : M ℚ) i j - 5) ∧
      (∃ R, Add ([[5, 6], [7, 8]] : M ℚ) [[1, 2], [3, 4]] = Except.ok R ∧ IsMat R 2 2 ∧
        ∀ i j, i < 2 → j < 2 → entry R i j
          = entry ([[5, 6], [7, 8]] : M ℚ) i j + entry ([[1, 2], [3, 4]] : M ℚ) i j) :=
  have h := add_sub_broadcast (5 : ℚ) [[1, 2], [3, 4]] 2 2 (by decide) (by decide) (by decide)
  ⟨h.1, h.2.2.2.1, (h.2.2.2.2 [[5, 6], [7, 8]] (by decide)).1⟩

/-- C14: two matrices of different shapes, neither of them 1×1, make `Add` and
`Sub` panic with the dimension-mismatch error and `HadamardProduct` end the
process with its mismatch message; `HadamardProduct` does so whenever the shapes
differ, also when one operand is 1×1. -/
theorem shape_mismatch_rejected (A B : M K) (r c r' c' : Nat) (hr : 1 ≤ r) (hc : 1 ≤ c)
    (hr' : 1 ≤ r') (hc' : 1 ≤ c') (hA : IsMat A r c) (hB : IsMat B r' c')
    (hne : ¬ (r = r' ∧ c = c')) :
    (¬ (r = 1 ∧ c = 1) → ¬ (r' = 1 ∧ c' = 1) →
        Add A B = Except.error Err.dimensionMismatch ∧
        Sub A B = Except.error Err.dimensionMismatch ∧
        HadamardProduct A B = Except.error Err.fatalMismatch) ∧
      HadamardProduct A B = Except.error Err.fatalMismatch := by
  have _ := hc
  have _ := hc'
  have hH := HadamardProduct_mismatch hA hB hr hr' hne
  have hne' : ¬ (c = c' ∧ r = r') := fun h => hne ⟨h.2, h.1⟩
  refine ⟨fun h1 h2 => ⟨?_, ?_, hH⟩, hH⟩
  · rw [Add_eq hA hB hr hr', if_neg h1, if_neg h2, if_neg hne']
  · rw [Sub_eq hA hB hr hr', if_neg h1, if_neg h2, if_neg hne']

theorem shape_mismatch_rejected_witness :
    Add ([[1, 2], [3, 4]] : M ℚ) [[5, 1, 2], [1, 1, 2]] = Except.error Err.dimensionMismatch ∧
      Sub ([[1, 2], [3, 4]] : M ℚ) [[5, 1, 2], [1, 1, 2]]
        = Except.error Err.dimensionMismatch ∧
      HadamardProduct ([[1, 2], [3, 4]] : M ℚ) [[5, 1, 2], [1, 1, 2]]
        = Except.error Err.fatalMismatch ∧
      HadamardProduct ([[1, 2], [3, 4]] : M ℚ) [[5]] = Except.error Err.fatalMismatch :=
  ⟨((shape_mismatch_rejected ([[1, 2], [3, 4]] : M ℚ) [[5, 1, 2], [1, 1, 2]] 2 2 2 3
      (by decide) (by decide) (by decide) (by decide) (by decide) (by decide) (by decide)).1
      (by decide) (by decide)).1,
    ((shape_mismatch_rejected ([[1, 2], [3, 4]] : M ℚ) [[5, 1, 2], [1, 1, 2]] 2 2 2 3
      (by decide) (by decide) (by decide) (by decide) (by decide) (by decide) (by decide)).1
      (by decide) (by decide)).2.1,
    (shape_mismatch_rejected ([[1, 2], [3, 4]] : M ℚ) [[5, 1, 2], [1, 1, 2]] 2 2 2 3
      (by decide) (by decide) (by decide) (by decide) (by decide) (by decide) (by decide)).2,
    (shape_mismatch_rejected ([[1, 2], [3, 4]] : M ℚ) [[5]] 2 2 1 1
      (by decide) (by decide) (by decide) (by decide) (by decide) (by decide) (by decide)).2⟩

end ElementwiseClaims

section TwoByTwo

variable {K : Type} [Field K]

theorem Inv2x2_eval (a b c d : K) :
    Inv2x2 ([[a, b], [c, d]] : M K)
      = Except.ok [[1 / (a * d - b * c) * d, 1 / (a * d - b * c) * (-1 * b)],
          [1 / (a * d - b * c) * (-1 * c), 1 / (a * d - b * c) * a]] := by
  simp [Inv2x2, Det2x2, Adj2x2, Xscalar, rowLen, forLoop, loopFrom, getAt, setAt, zeroes,
    bind, Except.bind, pure, Except.pure, List.replicate]

/-- The Gauss-Jordan inverse of a 2×2 matrix with nonzero leading entry and
nonzero determinant. -/
theorem Inv_eval_two [DecidableEq K] (a b c d : K) (ha : a ≠ 0)
    (hdet : a * d - b * c ≠ 0) :
    Inv ([[a, b], [c, d]] : M K)
      = Except.ok [[1 / (a * d - b * c) * d, 1 / (a * d - b * c) * (-1 * b)],
          [1 / (a * d - b * c) * (-1 * c), 1 / (a * d - b * c) * a]] := by
  have h2 : d - c / a * b ≠ 0 := by
    intro h
    apply hdet
    field_simp at h
    linear_combination h
  simp [Inv, GetDimensions, invAugment, invPivotStep, invNormalise, invSlice, subtractRow,
    appendToRow, sliceRow, rowLen, forLoop, loopFrom, getAt, setAt,
    bind, Except.bind, pure, Except.pure, ha, h2]
  have h3 : d - c / a * b = (a * d - b * c) / a := by
    field_simp
    ring
  rw [h3]
  refine ⟨⟨?_, ?_⟩, ?_, ?_⟩ <;> field_simp <;> ring

/-- On rows that own their memory: for every 2×2 matrix `[[a,b],[c,d]]` with
`a ≠ 0` and determinant `a·d − b·c ≠ 0`, over a field, `Inv` returns, and it
returns the matrix that `Inv2x2` returns. -/
theorem inv_agrees_inv2x2 [DecidableEq K] (a b c d : K) (ha : a ≠ 0)
    (hdet : a * d - b * c ≠ 0) :
    ∃ R, Inv ([[a, b], [c, d]] : M K) = Except.ok R ∧
      Inv2x2 ([[a, b], [c, d]] : M K) = Except.ok R :=
  ⟨_, Inv_eval_two a b c d ha hdet, Inv2x2_eval a b c d⟩

theorem inv_agrees_inv2x2_witness :
    ∃ R, Inv ([[1, 2], [3, 4]] : M ℚ) = Except.ok R ∧
      Inv2x2 ([[1, 2], [3, 4]] : M ℚ) = Except.ok R :=
  inv_agrees_inv2x2 1 2 3 4 (by norm_num) (by norm_num)

end TwoByTwo

section InPlace

variable {K : Type} [Field K] [DecidableEq K]

/-- On a square matrix with at least two rows the caller's matrix and the
returned matrix of `Inv` are the same value. -/
theorem InvInPlace_eq {A : M K} {n : Nat} (hn : 2 ≤ n) (hA : IsMat A n n) :
    InvInPlace A = (Inv A >>= fun R => Except.ok (R, R)) := by
  have h0 : 0 < n := by omega
  have h1 : ¬ (n = n ∧ n = 1) := by omega
  have h2 : ¬ n ≠ n := by simp
  unfold InvInPlace Inv
  have h3 : ¬ (True ∧ n = 1) := by omega
  simp only [getDimensions_eq hA h0, bind_ok, hA.1, if_neg h1, if_neg h2, pure_eq_ok]
  simp only [eq_self_iff_true, if_neg h3, bind_assoc]

/-- C16: for every square `n`×`n` matrix with `n ≥ 2` on which `Inv` returns `R`,
the call leaves the caller's matrix equal to `R`, an `n`×`n` matrix; on a 1×1
input the call leaves the caller's matrix as it was. -/
theorem inv_consumes_input (n : Nat) (hn : 2 ≤ n) (A R : M K) (hA : IsMat A n n)
    (hrun : Inv A = Except.ok R) :
    InvInPlace A = Except.ok (R, R) ∧ IsMat R n n ∧
      ∀ x : K, InvInPlace ([[x]] : M K) = Except.ok ([[1 / x]], [[x]]) := by
  refine ⟨?_, (Inv_left_inverse hn hA hrun).1, fun x => rfl⟩
  rw [InvInPlace_eq hn hA, hrun, bind_ok]

theorem inv_consumes_input_witness :
    InvInPlace ([[1, 2], [3, 4]] : M ℚ)
        = Except.ok ([[-2, 1], [3 / 2, -1 / 2]], [[-2, 1], [3 / 2, -1 / 2]]) ∧
      InvInPlace ([[4]] : M ℚ) = Except.ok ([[1 / 4]], [[4]]) :=
  have h := inv_consumes_input 2 (by decide) ([[1, 2], [3, 4]] : M ℚ)
    [[-2, 1], [3 / 2, -1 / 2]] (by decide) (by decide!)
  ⟨h.1, h.2.2 4⟩

end InPlace

/-! ## The heap: rows as slices of backing arrays -/

section HeapAccess

variable {K : Type}

theorem length_cells (h : Nat → K) (r : Slice) : (cells h r).length = r.len := by
  simp [cells]

theorem getElem?_cells (h : Nat → K) (r : Slice) (j : Nat) :
    (cells h r)[j]? = if j < r.len then some (h (r.ptr + j)) else none := by
  by_cases hj : j < r.len
  · simp [cells, List.getElem?_map, List.getElem?_range hj, hj]
  · have hle : r.len ≤ j := by omega
    simp [cells, hj, hle]

theorem length_view (m : Mem K) : (view m).length = m.rows.length := by
  simp [view]

theorem getElem?_view (m : Mem K) (i : Nat) :
    (view m)[i]? = (m.rows[i]?).map (cells m.heap) := by
  simp [view]

theorem memRowLen_eq (m : Mem K) (i : Nat) : memRowLen m i = rowLen (view m) i := by
  unfold memRowLen rowLen
  rw [getElem?_view]
  cases m.rows[i]? with
  | none => rfl
  | some r => simp [length_cells]

theorem memGetAt_eq (m : Mem K) (i j : Nat) : memGetAt m i j = getAt (view m) i j := by
  unfold memGetAt getAt
  rw [getElem?_view]
  cases m.rows[i]? with
  | none => rfl
  | some r =>
    simp only [Option.map_some', getElem?_cells]
    by_cases hj : j < r.len
    · simp [hj]
    · simp [hj]

theorem memGetDimensions_eq (m : Mem K) : memGetDimensions m = GetDimensions (view m) := by
  unfold memGetDimensions GetDimensions
  rw [memRowLen_eq, length_view]

/-- The cells of a row are those of another heap that agrees with it on the
elements of the row. -/
theorem cells_congr {h h' : Nat → K} {r : Slice}
    (hh : ∀ t, t < r.len → h' (r.ptr + t) = h (r.ptr + t)) : cells h' r = cells h r := by
  apply List.ext_getElem?
  intro j
  rw [getElem?_cells, getElem?_cells]
  by_cases hj : j < r.len
  · simp [hj, hh j hj]
  · simp [hj]

/-- Replacing the header of row `i` and changing the heap outside the other
rows replaces row `i` of the matrix. -/
theorem view_set (m : Mem K) (i : Nat) (h' : Nat → K) (nx : Nat) (r' : Slice)
    (hother : ∀ k s, k ≠ i → m.rows[k]? = some s → cells h' s = cells m.heap s) :
    view ⟨h', nx, List.set m.rows i r'⟩ = List.set (view m) i (cells h' r') := by
  apply List.ext_getElem?
  intro k
  rw [getElem?_view]
  simp only [List.getElem?_set, length_view]
  by_cases hik : i = k
  · subst hik
    by_cases hi : i < m.rows.length
    · simp [hi]
    · simp [hi]
  · simp only [hik, if_false]
    rw [getElem?_view]
    cases hk : m.rows[k]? with
    | none => rfl
    | some s => simp [hother k s (fun h => hik h.symm) hk]

theorem set_eq_self {α : Type} (l : List α) (i : Nat) (x : α) (h : l[i]? = some x) :
    List.set l i x = l := by
  apply List.ext_getElem?
  intro k
  simp only [List.getElem?_set]
  by_cases hik : i = k
  · subst hik
    have hi : i < l.length := by
      by_contra hc
      rw [List.getElem?_eq_none (by omega)] at h
      cases h
    simp [hi, h]
  · simp [hik]

/-- Any two distinct rows of an owned value have disjoint backing arrays. -/
theorem owned_disjoint {m : Mem K} (hm : Owned m) {k l : Nat} {r s : Slice}
    (hk : m.rows[k]? = some r) (hl : m.rows[l]? = some s) (hkl : k ≠ l) :
    r.ptr + r.cap ≤ s.ptr ∨ s.ptr + s.cap ≤ r.ptr := by
  have hp := (List.pairwise_iff_getElem.mp hm.2)
  obtain ⟨hk1, hk2⟩ := List.getElem?_eq_some_iff.mp hk
  obtain ⟨hl1, hl2⟩ := List.getElem?_eq_some_iff.mp hl
  rcases Nat.lt_or_gt_of_ne hkl with h | h
  · have := hp k l hk1 hl1 h
    rw [hk2, hl2] at this
    exact this
  · have := hp l k hl1 hk1 h
    rw [hk2, hl2] at this
    omega

theorem owned_wf {m : Mem K} (hm : Owned m) {k : Nat} {r : Slice}
    (hk : m.rows[k]? = some r) : r.len ≤ r.cap ∧ r.ptr + r.cap ≤ m.next :=
  hm.1 r (List.getElem?_mem hk)

/-- Replacing the header of row `i` by a slice of the same backing array, or
by one of a fresh array, keeps the rows owning their memory. -/
theorem owned_set {m : Mem K} (hm : Owned m) {i : Nat} {r : Slice}
    (hr : m.rows[i]? = some r) (h' : Nat → K) (nx : Nat) (r' : Slice)
    (hlen : r'.len ≤ r'.cap) (hend : r'.ptr + r'.cap ≤ nx) (hnx : m.next ≤ nx)
    (hrange : (r.ptr ≤ r'.ptr ∧ r'.ptr + r'.cap ≤ r.ptr + r.cap) ∨ m.next ≤ r'.ptr) :
    Owned ⟨h', nx, List.set m.rows i r'⟩ := by
  have hdis : ∀ l s, l ≠ i → m.rows[l]? = some s →
      r'.ptr + r'.cap ≤ s.ptr ∨ s.ptr + s.cap ≤ r'.ptr := by
    intro l s hli hs
    have h1 := owned_disjoint hm hr hs (fun h => hli h.symm)
    have h2 := owned_wf hm hs
    omega
  constructor
  · intro s hs
    rcases List.mem_or_eq_of_mem_set hs with h | h
    · have := hm.1 s h
      exact ⟨this.1, by show s.ptr + s.cap ≤ nx; omega⟩
    · subst h
      exact ⟨hlen, hend⟩
  · show List.Pairwise _ (List.set m.rows i r')
    rw [List.pairwise_iff_getElem]
    intro k l hk hl hkl
    rw [List.length_set] at hk hl
    rw [List.getElem_set, List.getElem_set]
    by_cases hik : i = k
    · subst hik
      have hil : ¬ i = l := by omega
      rw [if_pos rfl, if_neg hil]
      exact hdis l m.rows[l] (by omega) (List.getElem?_eq_getElem hl)
    · by_cases hil : i = l
      · subst hil
        rw [if_neg hik, if_pos rfl]
        have := hdis k m.rows[k] (by omega) (List.getElem?_eq_getElem hk)
        omega
      · rw [if_neg hik, if_neg hil]
        exact owned_disjoint hm (List.getElem?_eq_getElem hk) (List.getElem?_eq_getElem hl)
          (by omega)

end HeapAccess

section HeapSteps

variable {K : Type}

theorem cells_update_self (h : Nat → K) (r : Slice) {j : Nat} (hj : j < r.len) (v : K) :
    cells (Function.update h (r.ptr + j) v) r = List.set (cells h r) j v := by
  apply List.ext_getElem?
  intro k
  rw [getElem?_cells, List.getElem?_set, getElem?_cells, length_cells]
  by_cases hk : k < r.len
  · by_cases hjk : j = k
    · subst hjk
      simp [hk]
    · have hne : r.ptr + k ≠ r.ptr + j := by omega
      simp [hk, hjk, Function.update_noteq hne]
  · have hjk : ¬ j = k := by omega
    simp [hk, hjk]

theorem cells_update_other (h : Nat → K) (s : Slice) (p : Nat) (v : K)
    (hp : p < s.ptr ∨ s.ptr + s.len ≤ p) : cells (Function.update h p v) s = cells h s := by
  apply cells_congr
  intro t ht
  have hne : s.ptr + t ≠ p := by omega
  exact Function.update_noteq hne v h

theorem cells_append (h : Nat → K) (r : Slice) (v : K) (c : Nat) :
    cells (Function.update h (r.ptr + r.len) v) ⟨r.ptr, r.len + 1, c⟩ = cells h r ++ [v] := by
  apply List.ext_getElem?
  intro k
  rw [getElem?_cells]
  by_cases hk : k < r.len
  · have hne : r.ptr + k ≠ r.ptr + r.len := by omega
    have hk1 : k < r.len + 1 := by omega
    rw [List.getElem?_append_left (by rw [length_cells]; exact hk), getElem?_cells]
    simp [hk, hk1, Function.update_noteq hne]
  · rw [List.getElem?_append_right (by rw [length_cells]; omega), length_cells]
    by_cases hk2 : k = r.len
    · subst hk2
      simp
    · have h1 : ¬ k < r.len + 1 := by omega
      have h2 : k - r.len ≠ 0 := by omega
      simp [h1]
      cases hd : k - r.len with
      | zero => exact absurd hd h2
      | succ d => simp

theorem cells_drop (h : Nat → K) (r : Slice) (n : Nat) (c : Nat) :
    cells h ⟨r.ptr + n, r.len - n, c⟩ = (cells h r).drop n := by
  apply List.ext_getElem?
  intro k
  rw [getElem?_cells, List.getElem?_drop, getElem?_cells]
  by_cases hk : k < r.len - n
  · have hk2 : n + k < r.len := by omega
    simp only [hk, hk2, if_true]
    rw [Nat.add_assoc]
  · have hk2 : ¬ n + k < r.len := by omega
    simp [hk, hk2]

/-- The heap after `append` has moved a row to a fresh array at `nx`. -/
theorem cells_moved [Zero K] (h : Nat → K) (nx : Nat) (r : Slice) (v : K) (c : Nat) :
    cells (fun p =>
        if p < nx then h p
        else if p < nx + r.len then h (r.ptr + (p - nx))
        else if p = nx + r.len then v
        else 0) ⟨nx, r.len + 1, c⟩ = cells h r ++ [v] := by
  apply List.ext_getElem?
  intro k
  rw [getElem?_cells]
  by_cases hk : k < r.len
  · have hk1 : k < r.len + 1 := by omega
    have h1 : ¬ nx + k < nx := by omega
    have h2 : nx + k < nx + r.len := by omega
    rw [List.getElem?_append_left (by rw [length_cells]; exact hk), getElem?_cells]
    simp [hk, hk1, h1]
  · rw [List.getElem?_append_right (by rw [length_cells]; omega), length_cells]
    by_cases hk2 : k = r.len
    · subst hk2
      simp
    · have h1 : ¬ k < r.len + 1 := by omega
      have h2 : k - r.len ≠ 0 := by omega
      simp [h1]
      cases hd : k - r.len with
      | zero => exact absurd hd h2
      | succ d => simp

theorem cells_kept [Zero K] (h : Nat → K) (nx : Nat) (r s : Slice) (v : K)
    (hs : s.ptr + s.len ≤ nx) :
    cells (fun p =>
        if p < nx then h p
        else if p < nx + r.len then h (r.ptr + (p - nx))
        else if p = nx + r.len then v
        else 0) s = cells h s := by
  apply cells_congr
  intro t ht
  have h1 : s.ptr + t < nx := by omega
  simp [h1]

theorem follows_memSetAt {m : Mem K} (hm : Owned m) (i j : Nat) (v : K) :
    Follows (memSetAt m i j v) (setAt (view m) i j v) := by
  unfold memSetAt setAt
  rw [getElem?_view]
  cases hr : m.rows[i]? with
  | none => exact rfl
  | some r =>
    simp only [Option.map_some', length_cells]
    by_cases hj : j < r.len
    · rw [if_pos hj, if_pos hj]
      have hw := owned_wf hm hr
      have ho := owned_set hm hr (Function.update m.heap (r.ptr + j) v) m.next r hw.1 hw.2
        (Nat.le_refl _) (Or.inl ⟨Nat.le_refl _, Nat.le_refl _⟩)
      have hv := view_set m i (Function.update m.heap (r.ptr + j) v) m.next r
        (fun k s hki hs => by
          have hd := owned_disjoint hm hr hs (fun h => hki h.symm)
          have hs2 := owned_wf hm hs
          exact cells_update_other _ _ _ _ (by omega))
      rw [set_eq_self _ _ _ hr] at ho hv
      exact ⟨ho, by rw [hv, cells_update_self _ _ hj]⟩
    · rw [if_neg hj, if_neg hj]
      exact rfl

theorem follows_memAppendToRow [Zero K] (grow : Nat → Nat) {m : Mem K} (hm : Owned m)
    (i : Nat) (v : K) :
    Follows (memAppendToRow grow m i v) (appendToRow (view m) i v) := by
  unfold memAppendToRow appendToRow
  rw [getElem?_view]
  cases hr : m.rows[i]? with
  | none => exact rfl
  | some r =>
    simp only [Option.map_some']
    have hw := owned_wf hm hr
    by_cases hc : r.len < r.cap
    · rw [if_pos hc]
      refine ⟨owned_set hm hr _ _ _ (by show r.len + 1 ≤ r.cap; omega) hw.2 (Nat.le_refl _)
        (Or.inl ⟨Nat.le_refl _, Nat.le_refl _⟩), ?_⟩
      rw [view_set m i _ _ _ (fun k s hki hs => by
          have hd := owned_disjoint hm hr hs (fun h => hki h.symm)
          have hs2 := owned_wf hm hs
          exact cells_update_other _ _ _ _ (by omega)), cells_append]
    · rw [if_neg hc]
      refine ⟨owned_set hm hr _ _ _
        (by show r.len + 1 ≤ max (grow r.cap) (r.len + 1); exact Nat.le_max_right _ _)
        (Nat.le_refl _) (Nat.le_add_right _ _) (Or.inr (Nat.le_refl _)), ?_⟩
      rw [view_set m i _ _ _ (fun k s hki hs => by
          have hs2 := owned_wf hm hs
          exact cells_kept _ _ _ _ _ (by omega)), cells_moved]

theorem follows_memSliceRow {m : Mem K} (hm : Owned m) (i n : Nat) :
    Follows (memSliceRow m i n) (sliceRow (view m) i n) := by
  unfold memSliceRow sliceRow
  rw [getElem?_view]
  cases hr : m.rows[i]? with
  | none => exact rfl
  | some r =>
    simp only [Option.map_some', length_cells]
    have hw := owned_wf hm hr
    by_cases hn : n ≤ r.len
    · rw [if_pos hn, if_pos hn]
      refine ⟨owned_set hm hr _ _ _ (by show r.len - n ≤ r.cap - n; omega)
        (by show r.ptr + n + (r.cap - n) ≤ m.next; omega) (Nat.le_refl _)
        (Or.inl ⟨by show r.ptr ≤ r.ptr + n; omega,
          by show r.ptr + n + (r.cap - n) ≤ r.ptr + r.cap; omega⟩), ?_⟩
      rw [view_set m i _ _ _ (fun k s hki hs => rfl), cells_drop]
    · rw [if_neg hn, if_neg hn]
      exact rfl

end HeapSteps

/-! ## `Inv` on the heap follows `Inv` on the matrix when the rows own their memory -/

section HeapInv

variable {K : Type}

/-- A loop on a heap value follows the loop on the matrix when its body does. -/
theorem follows_loopFrom {f : Nat → Mem K → Except Err (Mem K)}
    {g : Nat → M K → Except Err (M K)}
    (h : ∀ i m, Owned m → Follows (f i m) (g i (view m))) :
    ∀ (c i : Nat) (m : Mem K), Owned m →
      Follows (loopFrom f c i m) (loopFrom g c i (view m)) := by
  intro c
  induction c with
  | zero => intro i m hm; exact ⟨hm, rfl⟩
  | succ c ih =>
    intro i m hm
    have hs := h i m hm
    cases hf : f i m with
    | ok m' =>
      cases hg : g i (view m) with
      | ok a' =>
        rw [hf, hg] at hs
        rw [loopFrom_succ_ok _ hf, loopFrom_succ_ok _ hg, ← hs.2]
        exact ih (i + 1) m' hs.1
      | error e =>
        rw [hf, hg] at hs
        exact hs.elim
    | error e =>
      cases hg : g i (view m) with
      | ok a' =>
        rw [hf, hg] at hs
        exact hs.elim
      | error e' =>
        rw [hf, hg] at hs
        rw [loopFrom_succ_error _ hf, loopFrom_succ_error _ hg]
        exact hs

theorem follows_forLoop {f : Nat → Mem K → Except Err (Mem K)}
    {g : Nat → M K → Except Err (M K)}
    (h : ∀ i m, Owned m → Follows (f i m) (g i (view m))) (lo hi : Nat) {m : Mem K}
    (hm : Owned m) : Follows (forLoop lo hi f m) (forLoop lo hi g (view m)) :=
  follows_loopFrom h _ _ m hm

/-- A read that both runs perform is followed by what comes after it. -/
theorem follows_read {α : Type} (r : Except Err α) {f : α → Except Err (Mem K)}
    {g : α → Except Err (M K)} (h : ∀ v, Follows (f v) (g v)) :
    Follows (r >>= f) (r >>= g) := by
  cases r with
  | error e => exact rfl
  | ok v => exact h v

/-- Sequencing: a run that follows, continued by runs that follow. -/
theorem follows_bind {x : Except Err (Mem K)} {y : Except Err (M K)} (hxy : Follows x y)
    {f : Mem K → Except Err (Mem K)} {g : M K → Except Err (M K)}
    (h : ∀ m, Owned m → Follows (f m) (g (view m))) : Follows (x >>= f) (y >>= g) := by
  cases x with
  | error e =>
    cases y with
    | error e' => exact hxy
    | ok a => exact hxy.elim
  | ok m =>
    cases y with
    | error e' => exact hxy.elim
    | ok a =>
      have h2 : view m = a := hxy.2
      rw [bind_ok, bind_ok, ← h2]
      exact h m hxy.1

theorem follows_memSubtractRow [Field K] (cols j i : Nat) (ratio : K) {m : Mem K}
    (hm : Owned m) :
    Follows (memSubtractRow cols j i ratio m) (subtractRow cols j i ratio (view m)) := by
  unfold memSubtractRow subtractRow
  refine follows_forLoop (fun k m hm => ?_) 0 cols hm
  simp only [memGetAt_eq]
  exact follows_read _ (fun x => follows_read _ (fun y => follows_memSetAt hm j k _))

theorem follows_memInvAugment [Zero K] [One K] (grow : Nat → Nat) (n : Nat) {m : Mem K}
    (hm : Owned m) : Follows (memInvAugment grow n m) (invAugment n (view m)) := by
  unfold memInvAugment invAugment
  refine follows_forLoop (fun i m hm => ?_) 0 n hm
  refine follows_forLoop (fun j m hm => ?_) 0 n hm
  by_cases hij : i = j
  · simp only [hij, if_true]
    exact follows_memAppendToRow grow hm j 1
  · simp only [hij, if_false]
    exact follows_memAppendToRow grow hm i 0

theorem follows_memInvPivotStep [Field K] [DecidableEq K] (n i : Nat) {m : Mem K}
    (hm : Owned m) : Follows (memInvPivotStep n i m) (invPivotStep n i (view m)) := by
  unfold memInvPivotStep invPivotStep
  simp only [memGetAt_eq]
  cases hp : getAt (view m) i i with
  | error e => exact rfl
  | ok v =>
    simp only [bind_ok]
    by_cases hv : v = 0
    · simp only [hv, if_true]
      exact rfl
    · simp only [hv, if_false, pure_eq_ok, bind_ok]
      refine follows_forLoop (fun j m hm => ?_) 0 n hm
      by_cases hij : i = j
      · simp only [hij, ne_eq, not_true_eq_false, if_false]
        exact ⟨hm, rfl⟩
      · simp only [ne_eq, hij, not_false_eq_true, if_true, memGetAt_eq]
        exact follows_read _ (fun x => follows_read _ (fun y =>
          follows_memSubtractRow (2 * n) j i _ hm))

theorem follows_memInvNormalise [Field K] (n : Nat) {m : Mem K} (hm : Owned m) :
    Follows (memInvNormalise n m) (invNormalise n (view m)) := by
  unfold memInvNormalise invNormalise
  refine follows_forLoop (fun i m hm => ?_) 0 n hm
  refine follows_forLoop (fun j m hm => ?_) n (2 * n) hm
  simp only [memGetAt_eq]
  exact follows_read _ (fun x => follows_read _ (fun y => follows_memSetAt hm i j _))

theorem follows_memInvSlice (n : Nat) {m : Mem K} (hm : Owned m) :
    Follows (memInvSlice n m) (invSlice n (view m)) := by
  unfold memInvSlice invSlice
  exact follows_forLoop (fun i m hm => follows_memSliceRow hm i n) 0 n hm

/-- On a value whose rows own their memory, `Inv` on the heap does what `Inv`
on the matrix does: the same panic, or the same returned matrix. -/
theorem follows_memInv [Field K] [DecidableEq K] (grow : Nat → Nat) {m : Mem K}
    (hm : Owned m) : Follows (memInv grow m) (Inv (view m)) := by
  unfold memInv Inv
  rw [memGetDimensions_eq]
  cases hd : GetDimensions (view m) with
  | error e => exact rfl
  | ok d =>
    obtain ⟨dimx, dimy⟩ := d
    simp only [bind_ok, memGetAt_eq, length_view]
    by_cases h1 : dimx = dimy ∧ dimx = 1
    · rw [if_pos h1, if_pos h1]
      refine follows_read _ (fun v => ?_)
      refine ⟨⟨?_, ?_⟩, ?_⟩
      · intro r hr
        rw [List.mem_singleton.mp hr]
        exact ⟨Nat.le_refl _, Nat.le_refl _⟩
      · exact List.pairwise_singleton _ _
      · simp [view, cells, List.range_succ]
    · rw [if_neg h1, if_neg h1]
      simp only [pure_eq_ok, bind_ok]
      by_cases h2 : dimx = dimy
      · rw [if_neg (not_not.mpr h2), if_neg (not_not.mpr h2)]
        exact follows_bind (follows_memInvAugment grow _ hm) (fun m hm =>
          follows_bind (follows_forLoop (fun i m hm => follows_memInvPivotStep _ i hm) _ _ hm)
            (fun m hm => follows_bind (follows_memInvNormalise _ hm)
              (fun m hm => follows_memInvSlice _ hm)))
      · rw [if_pos h2, if_pos h2]
        exact rfl

end HeapInv

/-! ## `Inv` on rows cut from one backing array -/

section SharedRows

/-- A run that follows a run returning `a` returns a heap value denoting `a`. -/
theorem follows_ok {K : Type} {x : Except Err (Mem K)} {a : M K}
    (h : Follows x (Except.ok a)) : x.map view = Except.ok a := by
  cases x with
  | error e => exact h.elim
  | ok m =>
    have h2 : view m = a := h.2
    rw [← h2]
    rfl

theorem owned_sharedRowsMoved (grow : Nat → Nat) : Owned (sharedRowsMoved grow) := by
  refine ⟨?_, ?_⟩
  · intro r hr
    simp only [sharedRowsMoved, List.mem_cons, List.mem_singleton, List.not_mem_nil,
      or_false] at hr
    rcases hr with h | h
    · subst h
      exact ⟨Nat.le_refl _, by show 0 + 4 ≤ 4 + max (grow 2) 3; omega⟩
    · subst h
      exact ⟨Nat.le_max_right _ _, Nat.le_refl _⟩
  · show List.Pairwise _ [_, _]
    simp

theorem view_sharedRowsMoved (grow : Nat → Nat) :
    view (sharedRowsMoved grow) = [[1, 2, 1, 0], [1, 0, 0]] := by
  simp [view, cells, sharedRowsMoved, sharedRows, List.range_succ, Function.update]

theorem loopFrom_one {σ : Type} (body : Nat → σ → Except Err σ) (i : Nat) (s : σ) :
    loopFrom body 1 i s = body i s := by
  cases h : body i s with
  | error e => rw [loopFrom_succ_error _ h]
  | ok t => rw [loopFrom_succ_ok _ h]; rfl

/-- The augmentation loop of `Inv` on `sharedRows`, up to its last `append`. -/
theorem memInvAugment_sharedRows (grow : Nat → Nat) :
    memInvAugment grow 2 sharedRows = memAppendToRow grow (sharedRowsMoved grow) 1 1 := by
  show loopFrom (fun i m => forLoop 0 2 (fun j m =>
      if i = j then memAppendToRow grow m i (1 : ℚ) else memAppendToRow grow m i 0) m) 1 1
    ⟨Function.update (Function.update sharedRows.heap 2 1) 3 0, 4, [⟨0, 4, 4⟩, ⟨2, 2, 2⟩]⟩ = _
  rw [loopFrom_one]
  show loopFrom (fun j m =>
      if 1 = j then memAppendToRow grow m 1 (1 : ℚ) else memAppendToRow grow m 1 0) 1 1
    (sharedRowsMoved grow) = _
  rw [loopFrom_one]
  rfl

/-- `Inv` on `sharedRows`, whatever capacity `append` gives a new array: the
augmented matrix is `[[1,2,1,0],[1,0,0,1]]`, not `[[1,2,1,0],[3,4,0,1]]`, and
the call returns `[[0,1],[1/2,-1/2]]`. -/
theorem memInv_sharedRows (grow : Nat → Nat) :
    (memInvAugment grow 2 sharedRows).map view = Except.ok [[1, 2, 1, 0], [1, 0, 0, 1]] ∧
      (memInv grow sharedRows).map view = Except.ok [[0, 1], [1 / 2, -1 / 2]] := by
  have hap := follows_memAppendToRow grow (owned_sharedRowsMoved grow) 1 (1 : ℚ)
  rw [view_sharedRowsMoved] at hap
  constructor
  · rw [memInvAugment_sharedRows]
    exact follows_ok hap
  · have hrun : memInv grow sharedRows =
        (memInvAugment grow 2 sharedRows >>= fun m =>
          forLoop 0 2 (memInvPivotStep 2) m >>= fun m =>
            memInvNormalise 2 m >>= fun m => memInvSlice 2 m) := rfl
    rw [hrun, memInvAugment_sharedRows]
    have hf : Follows
        (memAppendToRow grow (sharedRowsMoved grow) 1 1 >>= fun m =>
          forLoop 0 2 (memInvPivotStep 2) m >>= fun m =>
            memInvNormalise 2 m >>= fun m => memInvSlice 2 m)
        (appendToRow ([[1, 2, 1, 0], [1, 0, 0]] : M ℚ) 1 1 >>= fun a =>
          forLoop 0 2 (invPivotStep 2) a >>= fun a =>
            invNormalise 2 a >>= fun a => invSlice 2 a) :=
      follows_bind hap (fun m hm =>
      follows_bind (follows_forLoop (fun i m hm => follows_memInvPivotStep 2 i hm) 0 2 hm)
        (fun m hm => follows_bind (follows_memInvNormalise 2 hm)
          (fun m hm => follows_memInvSlice 2 hm)))
    have hlist : (appendToRow ([[1, 2, 1, 0], [1, 0, 0]] : M ℚ) 1 1 >>= fun a =>
        forLoop 0 2 (invPivotStep 2) a >>= fun a =>
          invNormalise 2 a >>= fun a => invSlice 2 a)
        = Except.ok [[0, 1], [1 / 2, -1 / 2]] := by decide!
    rw [hlist] at hf
    exact follows_ok hf

end SharedRows

section HeapInvClaims

/-- On a value whose rows own their memory, a matrix that `Inv` returns is a
right inverse of the matrix it was called on. -/
theorem memInv_right_inverse {K : Type} [Field K] [DecidableEq K] (grow : Nat → Nat)
    (m m' : Mem K) (hm : Owned m) (n : Nat) (hn : 2 ≤ n) (hA : IsMat (view m) n n)
    (hrun : memInv grow m = Except.ok m') :
    X (view m) (view m') = Except.ok (identity n) := by
  have hf := follows_memInv grow hm
  rw [hrun] at hf
  cases hI : Inv (view m) with
  | error e =>
    rw [hI] at hf
    exact hf.elim
  | ok R =>
    rw [hI] at hf
    have h2 : view m' = R := hf.2
    rw [h2]
    exact inv_right_inverse n hn _ _ hA hI

/-- On a 2×2 value whose rows own their memory, with nonzero leading entry and
nonzero determinant, `Inv` returns the matrix that `Inv2x2` returns. -/
theorem memInv_agrees_inv2x2 {K : Type} [Field K] [DecidableEq K] (grow : Nat → Nat)
    (m : Mem K) (hm : Owned m) (a b c d : K) (hv : view m = [[a, b], [c, d]]) (ha : a ≠ 0)
    (hdet : a * d - b * c ≠ 0) :
    ∃ R, (memInv grow m).map view = Except.ok R ∧ Inv2x2 (view m) = Except.ok R := by
  obtain ⟨R, h1, h2⟩ := inv_agrees_inv2x2 a b c d ha hdet
  have hf := follows_memInv grow hm
  rw [hv, h1] at hf
  rw [hv]
  exact ⟨R, follows_ok hf, h2⟩

/-- The matrix `[[1,2],[3,4]]` with one array per row: `Inv` returns its
inverse. -/
theorem memInv_ownRows (grow : Nat → Nat) :
    Owned ownRows ∧ view ownRows = [[1, 2], [3, 4]] ∧
      (memInv grow ownRows).map view = Except.ok [[-2, 1], [3 / 2, -1 / 2]] := by
  have ho : Owned ownRows := ⟨by decide, by decide⟩
  have hv : view ownRows = [[1, 2], [3, 4]] := by decide!
  refine ⟨ho, hv, ?_⟩
  have hf := follows_memInv grow ho
  rw [hv, show Inv ([[1, 2], [3, 4]] : M ℚ) = Except.ok [[-2, 1], [3 / 2, -1 / 2]] by decide!]
    at hf
  exact follows_ok hf

/-- C1 fails on the code for a matrix whose rows are cut from one backing
array.  `sharedRows` is `buf := []float64{1,2,3,4}; a := M{buf[0:2], buf[2:4]}`:
the square matrix `[[1,2],[3,4]]`, a well-formed value in which row 0 has
capacity 4, so the rows are not disjoint.  Whatever capacity `append` gives a
new array, the augmentation loop appends `1, 0` to row 0 in place, over the
elements of row 1, and the augmented matrix is `[[1,2,1,0],[1,0,0,1]]`; no
pivot is zero, `Inv` returns `R = [[0,1],[1/2,-1/2]]`, and the product `A × R`
computed by `X` on a copy of the original `A` is `[[1,0],[2,1]]`, not the
identity. -/
theorem inv_shared_rows_not_inverse :
    view sharedRows = [[1, 2], [3, 4]] ∧ IsMat (view sharedRows) 2 2 ∧
      WellFormed sharedRows ∧ ¬ RowsDisjoint sharedRows ∧
      (∀ grow, (memInvAugment grow 2 sharedRows).map view
        = Except.ok [[1, 2, 1, 0], [1, 0, 0, 1]]) ∧
      (∀ grow, (memInv grow sharedRows).map view = Except.ok [[0, 1], [1 / 2, -1 / 2]]) ∧
      X ([[1, 2], [3, 4]] : M ℚ) [[0, 1], [1 / 2, -1 / 2]] = Except.ok [[1, 0], [2, 1]] ∧
      X ([[1, 2], [3, 4]] : M ℚ) [[0, 1], [1 / 2, -1 / 2]] ≠ Except.ok (identity 2) :=
  ⟨by decide!, by decide!, by decide, by decide, fun grow => (memInv_sharedRows grow).1,
    fun grow => (memInv_sharedRows grow).2, by decide!, by decide!⟩

/-- C19 fails on the code for a matrix whose rows are cut from one backing
array.  `sharedRows` is the 2×2 matrix `[[1,2],[3,4]]` with `A[0][0] = 1 ≠ 0`
and determinant `-2 ≠ 0`, both rows cut from one array.  `Inv2x2`, which only
reads its argument, returns `[[-2,1],[3/2,-1/2]]`; `Inv`, whose augmentation
loop overwrites row 1 when it appends to row 0, returns `[[0,1],[1/2,-1/2]]`,
whatever capacity `append` gives a new array. -/
theorem inv_shared_rows_differs_inv2x2 :
    view sharedRows = [[1, 2], [3, 4]] ∧
      getAt (view sharedRows) 0 0 = Except.ok 1 ∧
      Det2x2 (view sharedRows) = Except.ok (-2) ∧
      Inv2x2 (view sharedRows) = Except.ok [[-2, 1], [3 / 2, -1 / 2]] ∧
      (∀ grow, (memInv grow sharedRows).map view = Except.ok [[0, 1], [1 / 2, -1 / 2]]) ∧
      ∀ grow, (memInv grow sharedRows).map view ≠ Inv2x2 (view sharedRows) := by
  have hI : Inv2x2 (view sharedRows) = Except.ok [[-2, 1], [3 / 2, -1 / 2]] := by decide!
  refine ⟨by decide!, by decide!, by decide!, hI, fun grow => (memInv_sharedRows grow).2,
    fun grow => ?_⟩
  rw [(memInv_sharedRows grow).2, hI]
  decide!

end HeapInvClaims

end GoMatrix
